import Mathlib

/-!
# minemu: code-region table (`codemap.c`) and address-space virtualizer (`mm.c`)

A shallow embedding of the two C files.  The target is i386, so `unsigned long`,
`unsigned`, `size_t` and pointers are 32-bit words: they are natural numbers
and every C operation that can overflow is written with an explicit
`% ULONG_SIZE`.  Calls into collaborators (mutexes, the JIT allocator, the
translation caches, the kernel) are recorded, in program order, in an event
trace that is part of the state.  `die` ends the run with outcome `die`, which
keeps the state reached.
-/

namespace Minemu

/-! ## Machine words and constants -/

/-- Number of values of a 32-bit `unsigned long` (2^32). -/
abbrev ULONG_SIZE : Nat := 4294967296

/-- The `#define MAX_CODEMAPS (32768)` of codemap.c. -/
abbrev MAX_CODEMAPS : Nat := 32768

/-- Linux `PROT_READ` of `<sys/mman.h>`. -/
abbrev PROT_READ : Nat := 1

/-- Linux `PROT_WRITE` of `<sys/mman.h>`. -/
abbrev PROT_WRITE : Nat := 2

/-- Linux `PROT_EXEC` of `<sys/mman.h>`. -/
abbrev PROT_EXEC : Nat := 4

/-- Linux `MAP_PRIVATE` of `<sys/mman.h>`. -/
abbrev MAP_PRIVATE : Nat := 2

/-- Linux `MAP_FIXED` of `<sys/mman.h>`. -/
abbrev MAP_FIXED : Nat := 16

/-- Linux `MAP_ANONYMOUS` of `<sys/mman.h>`. -/
abbrev MAP_ANONYMOUS : Nat := 32

/-- Linux `EFAULT` of `<errno.h>`. -/
abbrev EFAULT : Nat := 14

/-- The value of `-e` once converted to `unsigned long`. -/
def neg_errno (e : Nat) : Nat := (ULONG_SIZE - e) % ULONG_SIZE

/-- Modelled from the spec: `PG_MASK`, whose header is not among the sources;
a kernel result is an error code exactly when one of its low 12 bits is set. -/
abbrev PG_MASK : Nat := 4095

/-- Modelled from the spec: `PAGE_NEXT`, whose header is not among the sources;
the length rounded up to the next multiple of the 4096-byte page, as an
`unsigned long`. -/
def PAGE_NEXT (a : Nat) : Nat := (a + 4095) % ULONG_SIZE / 4096 * 4096

/-- Modelled from the spec: `overlap` of lib.h, which is not among the sources;
the half-open ranges `[addr1, addr1+len1)` and `[addr2, addr2+len2)` overlap
when each starts before the other ends, the ends being `unsigned long` sums. -/
def overlap (addr1 len1 addr2 len2 : Nat) : Bool :=
  decide (addr1 < (addr2 + len2) % ULONG_SIZE) && decide (addr2 < (addr1 + len1) % ULONG_SIZE)

/-- Modelled from the spec: `contains` of lib.h, which is not among the sources;
`target` lies in the half-open range `[addr, addr+len)`, the end being an
`unsigned long` sum. -/
def contains (addr len target : Nat) : Bool :=
  decide (addr ≤ target) && decide (target < (addr + len) % ULONG_SIZE)

/-! ## Data model -/

/-- Modelled from the spec: `code_map_t` of codemap.h, which is not among the
sources; the fields are those that codemap.c reads and writes.  `jit_addr = 0`
is the NULL pointer. -/
structure code_map_t where
  addr : Nat
  len : Nat
  jit_addr : Nat
  jit_len : Nat
  inode : Nat
  dev : Nat
  mtime : Nat
  pgoffset : Nat
  deriving DecidableEq, Repr, Inhabited

/-- The two mutexes: `jit_lock` (jit.h) and the static `codemap_lock`. -/
inductive lock_t where
  | jit_lock
  | codemap_lock
  deriving DecidableEq, Repr

/-- Calls that leave codemap.c and mm.c, with their arguments. -/
inductive Event where
  | mutex_lock (l : lock_t)
  | mutex_unlock (l : lock_t)
  | jit_mem_free (jit_addr : Nat)
  | purge_caches (addr len : Nat)
  | sys_mmap2 (addr length prot flags : Nat) (fd : Int) (pgoffset : Nat)
  | sys_munmap (addr length : Nat)
  | sys_mprotect (addr length prot : Nat)
  | sys_fstat64 (fd : Int)
  | sys_brk (new_brk : Nat)
  deriving DecidableEq, Repr

/-- The static variables of codemap.c (`codemaps`, `n_codemaps`) and of mm.c
(`brk_cur`, `brk_min`), and the trace of outgoing calls so far.  The array is
a function from slot index to slot content; slots `0 .. n_codemaps-1` are
live. -/
structure State where
  codemaps : Nat → code_map_t
  n_codemaps : Nat
  brk_cur : Nat
  brk_min : Nat
  trace : List Event

/-- How a call ends: it returns, the process is ended by `die` (in the state it
had reached), or the model ran out of loop iterations. -/
inductive Outcome (α : Type) where
  | ok (a : α)
  | die (st : State)
  | diverge

/-- The all-zero array slot of a zero-initialised static array. -/
def code_map_zero : code_map_t :=
  { addr := 0, len := 0, jit_addr := 0, jit_len := 0, inode := 0, dev := 0, mtime := 0, pgoffset := 0 }

/-- The state at program start: `n_codemaps = 0`, `brk_cur = brk_min = 0x10000`. -/
def State.init : State :=
  { codemaps := fun _ => code_map_zero, n_codemaps := 0, brk_cur := 65536, brk_min := 65536, trace := [] }

/-- The live part `codemaps[0 .. n_codemaps)` of the array, in index order. -/
def State.table (st : State) : List code_map_t :=
  (List.range st.n_codemaps).map st.codemaps

/-- True when the call returned. -/
def Outcome.isOk {α : Type} : Outcome α → Bool
  | .ok _ => true
  | _ => false

/-- True when the call ended in `die`. -/
def Outcome.isDie {α : Type} : Outcome α → Bool
  | .die _ => true
  | _ => false

/-- The live table of the state a call returned, if it returned. -/
def Outcome.table? : Outcome State → Option (List code_map_t)
  | .ok st => some st.table
  | _ => none

/-! ## codemap.c -/

/-- The body of `clear_code_map`: free the translated code, purge the caches. -/
def clear_code_map (tr : List Event) (addr len jit_addr : Nat) : List Event :=
  tr ++ [Event.jit_mem_free jit_addr, Event.purge_caches addr len]

/-- The loop `for (; i<n_codemaps; i++) codemaps[i] = codemaps[i+1];` of
`del_code_map`; the first argument bounds the number of iterations. -/
def del_code_map_loop (n : Nat) : Nat → (Nat → code_map_t) → Nat → (Nat → code_map_t)
  | 0, cm, _ => cm
  | k + 1, cm, i =>
    if i < n then del_code_map_loop n k (Function.update cm i (cm (i + 1))) (i + 1) else cm

/-- The function `del_code_map(i)`.  It is only called with `i < n_codemaps`, so the
unsigned decrement does not wrap. -/
def del_code_map (st : State) (i : Nat) : State :=
  let orig := st.codemaps i
  let cm := del_code_map_loop st.n_codemaps (st.n_codemaps - i) st.codemaps i
  { st with
    codemaps := cm
    n_codemaps := st.n_codemaps - 1
    trace := if orig.jit_addr ≠ 0 then clear_code_map st.trace orig.addr orig.len orig.jit_addr
             else st.trace }

/-- The scan `for (i=0; i<n_codemaps; i++) if (contains(...)) { map = &codemaps[i]; break; }`
shared by the two lookups; `key` selects the range of a slot.  The result is the
index of the slot pointed to, `none` for NULL. -/
def find_loop (key : code_map_t → Nat × Nat) (cm : Nat → code_map_t) (n target : Nat) :
    Nat → Nat → Option Nat
  | 0, _ => none
  | k + 1, i =>
    if i < n then
      if contains (key (cm i)).1 (key (cm i)).2 target then some i
      else find_loop key cm n target k (i + 1)
    else none

/-- The function `find_code_map(addr)`: the slot index (or NULL) and the state after
locking and unlocking `codemap_lock`. -/
def find_code_map (st : State) (addr : Nat) : Option Nat × State :=
  (find_loop (fun m => (m.addr, m.len)) st.codemaps st.n_codemaps addr st.n_codemaps 0,
   { st with trace := st.trace ++ [Event.mutex_lock lock_t.codemap_lock,
                                   Event.mutex_unlock lock_t.codemap_lock] })

/-- The function `find_jit_code_map(jit_addr)`. -/
def find_jit_code_map (st : State) (jit_addr : Nat) : Option Nat × State :=
  (find_loop (fun m => (m.jit_addr, m.jit_len)) st.codemaps st.n_codemaps jit_addr st.n_codemaps 0,
   { st with trace := st.trace ++ [Event.mutex_lock lock_t.codemap_lock,
                                   Event.mutex_unlock lock_t.codemap_lock] })

/-- The loop `for (i=n_codemaps; i>0; i--) if (map->addr < codemaps[i-1].addr)
codemaps[i] = codemaps[i-1]; else break;` of `add_code_map`: the final `i` and
the array. -/
def add_code_map_loop (map : code_map_t) : Nat → (Nat → code_map_t) → Nat × (Nat → code_map_t)
  | 0, cm => (0, cm)
  | i + 1, cm =>
    if map.addr < (cm i).addr then add_code_map_loop map i (Function.update cm (i + 1) (cm i))
    else (i + 1, cm)

/-- The function `add_code_map(map)`. -/
def add_code_map (st : State) (map : code_map_t) : Outcome State :=
  if st.n_codemaps ≥ MAX_CODEMAPS then Outcome.die st
  else
    let r := add_code_map_loop map st.n_codemaps st.codemaps
    Outcome.ok { st with
      codemaps := Function.update r.2 r.1 map
      n_codemaps := st.n_codemaps + 1 }

/-- One pass through the part of the `while` body of `del_code_region` that
follows the `overlap` test (lines 152-176): slot `i` is deleted and its
remainders to the left and to the right of `[addr, addr+len)` are inserted. -/
def del_code_region_body (addr len : Nat) (st : State) (i : Nat) : Outcome State :=
  let map := st.codemaps i
  let st1 := del_code_map st i
  let map := { map with jit_addr := 0, jit_len := 0 }
  let start := addr
  let end_ := (start + len) % ULONG_SIZE
  let o_start := map.addr
  let o_end := (o_start + map.len) % ULONG_SIZE
  let r :=
    if start > o_start then add_code_map st1 { map with addr := o_start, len := start - o_start }
    else Outcome.ok st1
  match r with
  | Outcome.ok st2 =>
    if o_end > end_ then
      add_code_map st2 { map with
        addr := end_
        len := o_end - end_
        pgoffset := (map.pgoffset + (end_ + ULONG_SIZE - o_start) % ULONG_SIZE / 4096) % ULONG_SIZE }
    else Outcome.ok st2
  | Outcome.die t => Outcome.die t
  | Outcome.diverge => Outcome.diverge

/-- The `while (i >= 0)` loop of `del_code_region`; the first argument bounds the
number of iterations. -/
def del_code_region_loop (addr len : Nat) : Nat → State → Int → Outcome State
  | 0, st, i => if 0 ≤ i then Outcome.diverge else Outcome.ok st
  | fuel + 1, st, i =>
    if 0 ≤ i then
      if overlap addr len (st.codemaps i.toNat).addr (st.codemaps i.toNat).len = false then
        del_code_region_loop addr len fuel st (i - 1)
      else
        match del_code_region_body addr len st i.toNat with
        | Outcome.ok st1 => del_code_region_loop addr len fuel st1 ((st1.n_codemaps : Int) - 1)
        | Outcome.die t => Outcome.die t
        | Outcome.diverge => Outcome.diverge
    else Outcome.ok st

/-- Enough iterations for the loop of `del_code_region` on a table of `n` entries: the
loop never uses them up (`del_code_region_ne_diverge`). -/
def del_code_region_fuel (n : Nat) : Nat := 2 * (n + 1) * (n + 1)

/-- Append one event to the trace. -/
def State.emit (st : State) (e : Event) : State :=
  { st with trace := st.trace ++ [e] }

/-- The function `del_code_region(addr, len)`. -/
def del_code_region (st : State) (addr len : Nat) : Outcome State :=
  let st0 := (st.emit (Event.mutex_lock lock_t.jit_lock)).emit (Event.mutex_lock lock_t.codemap_lock)
  match del_code_region_loop addr len (del_code_region_fuel st0.n_codemaps) st0
      ((st0.n_codemaps : Int) - 1) with
  | Outcome.ok st1 =>
    Outcome.ok ((st1.emit (Event.mutex_unlock lock_t.codemap_lock)).emit
      (Event.mutex_unlock lock_t.jit_lock))
  | Outcome.die t => Outcome.die t
  | Outcome.diverge => Outcome.diverge

/-- The function `add_code_region(addr, len, inode, dev, mtime, pgoffset)`. -/
def add_code_region (st : State) (addr len inode dev mtime pgoffset : Nat) : Outcome State :=
  match del_code_region st addr len with
  | Outcome.ok st1 =>
    let map : code_map_t :=
      { addr := addr, len := len, jit_addr := 0, jit_len := 0,
        dev := dev, inode := inode, mtime := mtime, pgoffset := pgoffset }
    match add_code_map (st1.emit (Event.mutex_lock lock_t.codemap_lock)) map with
    | Outcome.ok st2 => Outcome.ok (st2.emit (Event.mutex_unlock lock_t.codemap_lock))
    | Outcome.die t => Outcome.die t
    | Outcome.diverge => Outcome.diverge
  | Outcome.die t => Outcome.die t
  | Outcome.diverge => Outcome.diverge

/-! ## mm.c -/

/-- A call into codemap.c followed by `return ret;`: when the call does not return,
neither does the caller. -/
def Outcome.then_return (o : Outcome State) (ret : Nat) : Outcome (Nat × State) :=
  match o with
  | Outcome.ok st => Outcome.ok (ret, st)
  | Outcome.die t => Outcome.die t
  | Outcome.diverge => Outcome.diverge

/-- The layout constants of mm.h, which is not among the sources. -/
structure Layout where
  USER_END : Nat
  TAINT_OFFSET : Nat

/-- The fields of `struct stat64` that `user_mmap2` reads. -/
structure stat64 where
  st_dev : Nat
  st_ino : Nat
  st_mtime : Nat
  deriving DecidableEq, Repr

/-- The kernel boundary: what each raw system call returns, as an arbitrary
function of the calls made so far and of its arguments. -/
structure Kernel where
  sys_mmap2 : List Event → Nat → Nat → Nat → Nat → Int → Nat → Nat
  sys_munmap : List Event → Nat → Nat → Nat
  sys_mprotect : List Event → Nat → Nat → Nat → Nat
  sys_fstat64 : List Event → Int → Int × stat64
  sys_brk : List Event → Nat → Nat

/-- The protection `user_mmap2` hands to the kernel: `new_prot` of lines 138-140. -/
def mmap_new_prot (prot : Nat) : Nat :=
  if prot &&& PROT_EXEC ≠ 0 then (prot &&& (ULONG_SIZE - 1 - PROT_EXEC)) ||| PROT_READ else prot

/-- The function `user_mmap2(addr, length, prot, flags, fd, pgoffset)`. -/
def user_mmap2 (L : Layout) (K : Kernel) (st : State) (addr length prot flags : Nat) (fd : Int)
    (pgoffset : Nat) : Outcome (Nat × State) :=
  if addr > L.USER_END ∨ (addr + length) % ULONG_SIZE > L.USER_END then
    Outcome.ok (neg_errno EFAULT, st)
  else
    let new_prot := mmap_new_prot prot
    let ret := K.sys_mmap2 st.trace addr length new_prot flags fd pgoffset
    let st1 := st.emit (Event.sys_mmap2 addr length new_prot flags fd pgoffset)
    if ret &&& PG_MASK = 0 then
      let st2 := st1.emit (Event.sys_mmap2 ((ret + L.TAINT_OFFSET) % ULONG_SIZE) length new_prot
        (MAP_PRIVATE ||| MAP_FIXED ||| MAP_ANONYMOUS) (-1) 0)
      if prot &&& PROT_EXEC ≠ 0 then
        let zero : stat64 := { st_dev := 0, st_ino := 0, st_mtime := 0 }
        let sr : stat64 × State :=
          if fd < 0 then (zero, st2)
          else
            let r := K.sys_fstat64 st2.trace fd
            (if r.1 ≠ 0 then zero else r.2, st2.emit (Event.sys_fstat64 fd))
        (add_code_region sr.2 ret (PAGE_NEXT length) sr.1.st_ino sr.1.st_dev sr.1.st_mtime
          pgoffset).then_return ret
      else (del_code_region st2 ret (PAGE_NEXT length)).then_return ret
    else Outcome.ok (ret, st1)

/-- The function `user_munmap(addr, length)`. -/
def user_munmap (L : Layout) (K : Kernel) (st : State) (addr length : Nat) :
    Outcome (Nat × State) :=
  if addr > L.USER_END ∨ (addr + length) % ULONG_SIZE > L.USER_END then
    Outcome.ok (neg_errno EFAULT, st)
  else
    let ret := K.sys_munmap st.trace addr length
    let st1 := st.emit (Event.sys_munmap addr length)
    if ret &&& PG_MASK = 0 then (del_code_region st1 addr (PAGE_NEXT length)).then_return ret
    else Outcome.ok (ret, st1)

/-- The function `user_mprotect(addr, length, prot)`. -/
def user_mprotect (L : Layout) (K : Kernel) (st : State) (addr length prot : Nat) :
    Outcome (Nat × State) :=
  if addr > L.USER_END ∨ (addr + length) % ULONG_SIZE > L.USER_END then
    Outcome.ok (neg_errno EFAULT, st)
  else
    let kprot := prot &&& (ULONG_SIZE - 1 - PROT_EXEC)
    let ret := K.sys_mprotect st.trace addr length kprot
    let st1 := st.emit (Event.sys_mprotect addr length kprot)
    let st2 := st1.emit (Event.sys_mprotect ((L.TAINT_OFFSET + addr) % ULONG_SIZE) length kprot)
    if ret &&& PG_MASK = 0 then
      if prot &&& PROT_EXEC ≠ 0 then
        (add_code_region st2 addr (PAGE_NEXT length) 0 0 0 0).then_return ret
      else (del_code_region st2 addr (PAGE_NEXT length)).then_return ret
    else Outcome.ok (ret, st2)


/-! ## Vocabulary of the statements -/

/-- The entry that lines 155-166 of `del_code_region` insert for the part of `m`
to the left of `[addr, addr+len)`. -/
def left_residual (addr : Nat) (m : code_map_t) : code_map_t :=
  { m with jit_addr := 0, jit_len := 0, len := addr - m.addr }

/-- The entry that lines 155-174 of `del_code_region` insert for the part of `m`
to the right of `[addr, addr+len)`. -/
def right_residual (addr len : Nat) (m : code_map_t) : code_map_t :=
  { m with
    jit_addr := 0
    jit_len := 0
    addr := (addr + len) % ULONG_SIZE
    len := (m.addr + m.len) % ULONG_SIZE - (addr + len) % ULONG_SIZE
    pgoffset := (m.pgoffset + ((addr + len) % ULONG_SIZE + ULONG_SIZE - m.addr) % ULONG_SIZE
      / 4096) % ULONG_SIZE }

/-- The entries that one pass of the loop body inserts in place of `m`. -/
def residuals (addr len : Nat) (m : code_map_t) : List code_map_t :=
  (if addr > m.addr then [left_residual addr m] else []) ++
  (if (m.addr + m.len) % ULONG_SIZE > (addr + len) % ULONG_SIZE then [right_residual addr len m]
   else [])

/-- What becomes of a table entry in `del_code_region(addr, len)`: an entry that
overlaps the range is replaced by its residuals, any other entry stays. -/
def split_entry (addr len : Nat) (m : code_map_t) : List code_map_t :=
  if overlap addr len m.addr m.len then residuals addr len m else [m]

/-- A list of entries is sorted ascending by guest start address. -/
def sorted_by_addr (l : List code_map_t) : Prop :=
  l.Pairwise (fun a b => a.addr ≤ b.addr)

/-- The guest ranges of two entries are disjoint: one ends (as an unbounded sum)
no later than the other starts. -/
def disjoint_ranges (a b : code_map_t) : Prop :=
  a.addr + a.len ≤ b.addr ∨ b.addr + b.len ≤ a.addr

/-- Any two entries at distinct positions of the list have disjoint guest ranges. -/
def non_overlapping (l : List code_map_t) : Prop :=
  l.Pairwise disjoint_ranges

/-- The guest range of every entry ends inside the 32-bit address space. -/
def ranges_in_space (l : List code_map_t) : Prop :=
  ∀ m ∈ l, m.addr + m.len < ULONG_SIZE

/-- The entry `m` overlaps `[addr, addr+len)` and sticks out on both sides, so that
one pass of the loop body replaces it by two entries. -/
def splits_in_two (addr len : Nat) (m : code_map_t) : Bool :=
  overlap addr len m.addr m.len && decide (m.addr < addr) &&
    decide ((addr + len) % ULONG_SIZE < (m.addr + m.len) % ULONG_SIZE)

/-- The state in which a call ended, by return or by `die`. -/
def Outcome.final? : Outcome State → Option State
  | Outcome.ok st => some st
  | Outcome.die st => some st
  | Outcome.diverge => none

/-! ## Sequences of calls -/

/-- A call of one of the two entry points of codemap.c that change the table. -/
inductive Call where
  | add_code_region (addr len inode dev mtime pgoffset : Nat)
  | del_code_region (addr len : Nat)
  deriving DecidableEq, Repr

/-- The range handed to the call does not wrap around the 32-bit address space. -/
def Call.range_in_space : Call → Prop
  | Call.add_code_region addr len _ _ _ _ => addr + len < ULONG_SIZE
  | Call.del_code_region addr len => addr + len < ULONG_SIZE

/-- Perform one call. -/
def Call.exec (st : State) : Call → Outcome State
  | Call.add_code_region addr len inode dev mtime pgoffset =>
    Minemu.add_code_region st addr len inode dev mtime pgoffset
  | Call.del_code_region addr len => Minemu.del_code_region st addr len

/-- Perform the calls one after the other, stopping at the first that does not
return. -/
def run_calls : State → List Call → Outcome State
  | st, [] => Outcome.ok st
  | st, c :: cs =>
    match c.exec st with
    | Outcome.ok st1 => run_calls st1 cs
    | Outcome.die t => Outcome.die t
    | Outcome.diverge => Outcome.diverge

/-- The state a call returned; the initial state when it did not return. -/
def Outcome.state : Outcome State → State
  | Outcome.ok st => st
  | _ => State.init

instance (c : Call) : Decidable c.range_in_space := by
  cases c <;> unfold Call.range_in_space <;> infer_instance

/-- The example of the specification: register `[0x1000, 0x3000)`, then unregister
`[0x1800, 0x2000)`. -/
def example_calls : List Call :=
  [Call.add_code_region 4096 8192 7 8 9 3, Call.del_code_region 6144 2048]

instance (a b : code_map_t) : Decidable (disjoint_ranges a b) := by
  unfold disjoint_ranges; infer_instance

instance (l : List code_map_t) : Decidable (non_overlapping l) := by
  unfold non_overlapping; infer_instance

instance (l : List code_map_t) : Decidable (sorted_by_addr l) := by
  unfold sorted_by_addr; infer_instance

/-- The state whose live table is the given list, in that order. -/
def State.of_list (l : List code_map_t) : State :=
  { codemaps := fun i => l.getD i code_map_zero, n_codemaps := l.length,
    brk_cur := 65536, brk_min := 65536, trace := [] }

/-- A table of two regions, `[0x1000, 0x3000)` and `[0x4000, 0x5000)`, the first of
which owns translated code. -/
def two_regions : State :=
  State.of_list
    [{ addr := 4096, len := 8192, jit_addr := 1879048192, jit_len := 256,
       inode := 7, dev := 8, mtime := 9, pgoffset := 3 },
     { addr := 16384, len := 4096, jit_addr := 0, jit_len := 0,
       inode := 0, dev := 0, mtime := 0, pgoffset := 0 }]

/-- A full table: slot `i` holds the region `[0x10000*(i+1), 0x10000*(i+1) + 0x3000)`,
for every `i` below `MAX_CODEMAPS`. -/
def full_table : State :=
  { codemaps := fun i =>
      { addr := 65536 * (i + 1), len := 12288, jit_addr := 0, jit_len := 0,
        inode := 0, dev := 0, mtime := 0, pgoffset := 0 }
    n_codemaps := MAX_CODEMAPS
    brk_cur := 65536, brk_min := 65536, trace := [] }

/-- The full table without its last slot: one slot is free. -/
def nearly_full_table : State :=
  { full_table with n_codemaps := MAX_CODEMAPS - 1 }

/-- The table after registering `[0x1000, 0x3000)` from the empty table. -/
def registered_once : State :=
  (add_code_region State.init 4096 8192 7 8 9 3).state

/-! ## Vocabulary of the statements on mm.c -/

/-- The protection argument of a `sys_mmap2` or `sys_mprotect` call. -/
def Event.prot? : Event → Option Nat
  | Event.sys_mmap2 _ _ prot _ _ _ => some prot
  | Event.sys_mprotect _ _ prot => some prot
  | _ => none

/-- The event is a raw system call. -/
def Event.is_kernel_call : Event → Bool
  | Event.sys_mmap2 _ _ _ _ _ _ => true
  | Event.sys_munmap _ _ => true
  | Event.sys_mprotect _ _ _ => true
  | Event.sys_fstat64 _ => true
  | Event.sys_brk _ => true
  | _ => false

/-- The trace when a call of codemap.c ended, by return or by `die`. -/
def Outcome.trace? : Outcome State → Option (List Event)
  | Outcome.ok st => some st.trace
  | Outcome.die s => some s.trace
  | Outcome.diverge => none

/-- The trace when a call of mm.c ended, by return or by `die`. -/
def Outcome.events : Outcome (Nat × State) → List Event
  | Outcome.ok r => r.2.trace
  | Outcome.die s => s.trace
  | Outcome.diverge => []

/-- The value a call of mm.c returned. -/
def Outcome.ret? : Outcome (Nat × State) → Option Nat
  | Outcome.ok r => some r.1
  | _ => none

/-- The live table after a call of mm.c that returned. -/
def Outcome.table_after? : Outcome (Nat × State) → Option (List code_map_t)
  | Outcome.ok r => some r.2.table
  | _ => none

/-- A layout for the examples: user ceiling at `0x60000000`, shadow memory
`0x60000000` above the guest address. -/
def example_layout : Layout :=
  { USER_END := 1610612736, TAINT_OFFSET := 1610612736 }

/-- A kernel that refuses every call with `-ENOMEM`. -/
def refusing_kernel : Kernel :=
  { sys_mmap2 := fun _ _ _ _ _ _ _ => 4294967284
    sys_munmap := fun _ _ _ => 4294967284
    sys_mprotect := fun _ _ _ _ => 4294967284
    sys_fstat64 := fun _ _ => (-9, { st_dev := 0, st_ino := 0, st_mtime := 0 })
    sys_brk := fun _ b => b }

/-- A kernel that grants every call: `sys_mmap2` maps at the requested address, the
other calls return 0, `sys_fstat64` reports device 8, inode 7, mtime 9. -/
def granting_kernel : Kernel :=
  { sys_mmap2 := fun _ addr _ _ _ _ _ => addr
    sys_munmap := fun _ _ _ => 0
    sys_mprotect := fun _ _ _ _ => 0
    sys_fstat64 := fun _ _ => (0, { st_dev := 8, st_ino := 7, st_mtime := 9 })
    sys_brk := fun _ b => b }

/-- The trace `t` extends the trace `tr0` by events that are no raw system calls. -/
def extends_quietly (tr0 t : List Event) : Prop :=
  ∃ evs, t = tr0 ++ evs ∧ ∀ e ∈ evs, e.is_kernel_call = false

/-! ## The program break (mm.c, lines 88-119) -/

/-- The function `set_brk_min(new_brk)`.  The answer of `sys_brk` is discarded, so the
kernel is no argument; `return -1` is returned as an `unsigned long`. -/
def set_brk_min (L : Layout) (st : State) (new_brk : Nat) : Nat × State :=
  if new_brk > L.USER_END then (neg_errno 1, st)
  else
    let st1 : State :=
      if new_brk > st.brk_min then { st with brk_cur := new_brk, brk_min := new_brk } else st
    let st2 := st1.emit (Event.sys_brk new_brk)
    (st2.brk_cur, st2)

/-- The function `user_brk(new_brk)`.  The values returned by `user_mmap2` and
`user_munmap` are discarded; when one of them ends in `die`, so does `user_brk`. -/
def user_brk (L : Layout) (K : Kernel) (st : State) (new_brk : Nat) : Outcome (Nat × State) :=
  if new_brk ≤ L.USER_END ∧ new_brk ≥ st.brk_min then
    let o : Outcome (Nat × State) :=
      if new_brk > st.brk_cur then
        user_mmap2 L K st st.brk_cur (new_brk - st.brk_cur) (PROT_READ ||| PROT_WRITE)
          (MAP_PRIVATE ||| MAP_FIXED ||| MAP_ANONYMOUS) (-1) 0
      else if new_brk < st.brk_cur then user_munmap L K st new_brk (st.brk_cur - new_brk)
      else Outcome.ok (0, st)
    match o with
    | Outcome.ok r => Outcome.ok (new_brk, { r.2 with brk_cur := new_brk })
    | Outcome.die s => Outcome.die s
    | Outcome.diverge => Outcome.diverge
  else Outcome.ok (st.brk_cur, st)

/-- A call of one of the two functions that move the program break. -/
inductive BrkCall where
  | set_brk_min (new_brk : Nat)
  | user_brk (new_brk : Nat)
  deriving DecidableEq, Repr

/-- Run one call on the break. -/
def BrkCall.exec (L : Layout) (K : Kernel) (st : State) : BrkCall → Outcome (Nat × State)
  | BrkCall.set_brk_min b => Outcome.ok (Minemu.set_brk_min L st b)
  | BrkCall.user_brk b => Minemu.user_brk L K st b

/-- Run a sequence of calls on the break, one after the other; a call that does not
return ends the run. -/
def run_brk_calls (L : Layout) (K : Kernel) : State → List BrkCall → Outcome State
  | st, [] => Outcome.ok st
  | st, c :: cs =>
    match c.exec L K st with
    | Outcome.ok r => run_brk_calls L K r.2 cs
    | Outcome.die s => Outcome.die s
    | Outcome.diverge => Outcome.diverge

/-- The state in which a call of mm.c ended, by return or by `die`. -/
def Outcome.after? : Outcome (Nat × State) → Option State
  | Outcome.ok r => some r.2
  | Outcome.die s => some s
  | Outcome.diverge => none

/-! ## Vocabulary of the statements on freeing, locking and array accesses -/

/-- The events of `del_code_map` for the deleted entry `m`: `clear_code_map` is
called when `m.jit_addr` is not NULL. -/
def clear_events (m : code_map_t) : List Event :=
  if m.jit_addr ≠ 0 then [Event.jit_mem_free m.jit_addr, Event.purge_caches m.addr m.len] else []

/-- The loop of `del_code_region` with a record of its calls of `del_code_map`: the
second component lists, in order, the state in which `del_code_map` was called and the
index it was called with.  The first component is the loop itself
(`del_code_region_loop_log_fst`). -/
def del_code_region_loop_log (addr len : Nat) :
    Nat → State → Int → Outcome State × List (State × Nat)
  | 0, st, i => (if 0 ≤ i then Outcome.diverge else Outcome.ok st, [])
  | fuel + 1, st, i =>
    if 0 ≤ i then
      if overlap addr len (st.codemaps i.toNat).addr (st.codemaps i.toNat).len = false then
        del_code_region_loop_log addr len fuel st (i - 1)
      else
        match del_code_region_body addr len st i.toNat with
        | Outcome.ok st1 =>
          ((del_code_region_loop_log addr len fuel st1 ((st1.n_codemaps : Int) - 1)).1,
           (st, i.toNat) ::
             (del_code_region_loop_log addr len fuel st1 ((st1.n_codemaps : Int) - 1)).2)
        | Outcome.die t => (Outcome.die t, [(st, i.toNat)])
        | Outcome.diverge => (Outcome.diverge, [(st, i.toNat)])
    else (Outcome.ok st, [])

/-- The calls of `del_code_map` in a run of `del_code_region(addr, len)`. -/
def del_code_region_deletions (st : State) (addr len : Nat) : List (State × Nat) :=
  (del_code_region_loop_log addr len (del_code_region_fuel st.n_codemaps)
    ((st.emit (Event.mutex_lock lock_t.jit_lock)).emit (Event.mutex_lock lock_t.codemap_lock))
    ((st.n_codemaps : Int) - 1)).2

/-- The entries deleted in a run of `del_code_region(addr, len)`, in the order of
their deletion. -/
def del_code_region_deleted (st : State) (addr len : Nat) : List code_map_t :=
  (del_code_region_deletions st addr len).map (fun d => d.1.codemaps d.2)

/-- The entry `m` overlaps the range, in the sense of the test of `del_code_region`. -/
def overlaps_range (addr len : Nat) (m : code_map_t) : Bool :=
  overlap addr len m.addr m.len

/-- One step of the lock discipline.  The pair tells whether `jit_lock` and whether
`codemap_lock` is held.  A lock is not taken twice, `jit_lock` is not taken while
`codemap_lock` is held, only a held lock is released, and `jit_mem_free` and
`purge_caches` need both locks; `none` marks a violation. -/
def lock_step (h : Bool × Bool) : Event → Option (Bool × Bool)
  | Event.mutex_lock lock_t.jit_lock => if h.1 || h.2 then none else some (true, h.2)
  | Event.mutex_lock lock_t.codemap_lock => if h.2 then none else some (h.1, true)
  | Event.mutex_unlock lock_t.jit_lock => if h.1 then some (false, h.2) else none
  | Event.mutex_unlock lock_t.codemap_lock => if h.2 then some (h.1, false) else none
  | Event.jit_mem_free _ => if h.1 && h.2 then some h else none
  | Event.purge_caches _ _ => if h.1 && h.2 then some h else none
  | _ => some h

/-- Follow the lock discipline along a list of events. -/
def lock_walk : List Event → Bool × Bool → Option (Bool × Bool)
  | [], h => some h
  | e :: es, h =>
    match lock_step h e with
    | some h1 => lock_walk es h1
    | none => none

/-- The event takes or releases `jit_lock`. -/
def Event.on_jit_lock : Event → Bool
  | Event.mutex_lock lock_t.jit_lock => true
  | Event.mutex_unlock lock_t.jit_lock => true
  | _ => false

/-- The event is a call of `jit_mem_free` or of `purge_caches`. -/
def Event.is_clear : Event → Bool
  | Event.jit_mem_free _ => true
  | Event.purge_caches _ _ => true
  | _ => false

/-- An access to an element of the array `codemaps`. -/
inductive Access where
  | read (i : Nat)
  | write (i : Nat)
  deriving DecidableEq, Repr

/-- The index of the accessed element. -/
def Access.index : Access → Nat
  | Access.read i => i
  | Access.write i => i

/-- The accesses of the loop `for (; i<n_codemaps; i++) codemaps[i] = codemaps[i+1];`,
in order; the arguments are those of `del_code_map_loop`. -/
def del_code_map_loop_accesses (n : Nat) : Nat → Nat → List Access
  | 0, _ => []
  | k + 1, i =>
    if i < n then Access.read (i + 1) :: Access.write i :: del_code_map_loop_accesses n k (i + 1)
    else []

/-- The accesses to `codemaps` in `del_code_map(i)`: `orig = codemaps[i]`, then the
loop. -/
def del_code_map_accesses (st : State) (i : Nat) : List Access :=
  Access.read i :: del_code_map_loop_accesses st.n_codemaps (st.n_codemaps - i) i

/-- A call of one of the entry points of codemap.c and mm.c. -/
inductive Op where
  | add_code_region (addr len inode dev mtime pgoffset : Nat)
  | del_code_region (addr len : Nat)
  | find_code_map (addr : Nat)
  | find_jit_code_map (jit_addr : Nat)
  | user_mmap2 (addr length prot flags : Nat) (fd : Int) (pgoffset : Nat)
  | user_munmap (addr length : Nat)
  | user_mprotect (addr length prot : Nat)
  | set_brk_min (new_brk : Nat)
  | user_brk (new_brk : Nat)
  deriving DecidableEq, Repr

/-- A value returned together with a state, without the value. -/
def Outcome.drop_ret : Outcome (Nat × State) → Outcome State
  | Outcome.ok r => Outcome.ok r.2
  | Outcome.die s => Outcome.die s
  | Outcome.diverge => Outcome.diverge

/-- Perform one call of an entry point; the value it returns is dropped. -/
def Op.exec (L : Layout) (K : Kernel) (st : State) : Op → Outcome State
  | Op.add_code_region addr len inode dev mtime pgoffset =>
    Minemu.add_code_region st addr len inode dev mtime pgoffset
  | Op.del_code_region addr len => Minemu.del_code_region st addr len
  | Op.find_code_map addr => Outcome.ok (Minemu.find_code_map st addr).2
  | Op.find_jit_code_map jit_addr => Outcome.ok (Minemu.find_jit_code_map st jit_addr).2
  | Op.user_mmap2 addr length prot flags fd pgoffset =>
    (Minemu.user_mmap2 L K st addr length prot flags fd pgoffset).drop_ret
  | Op.user_munmap addr length => (Minemu.user_munmap L K st addr length).drop_ret
  | Op.user_mprotect addr length prot => (Minemu.user_mprotect L K st addr length prot).drop_ret
  | Op.set_brk_min b => Outcome.ok (Minemu.set_brk_min L st b).2
  | Op.user_brk b => (Minemu.user_brk L K st b).drop_ret

/-- Perform the calls one after the other, stopping at the first that does not
return. -/
def run_ops (L : Layout) (K : Kernel) : State → List Op → Outcome State
  | st, [] => Outcome.ok st
  | st, c :: cs =>
    match c.exec L K st with
    | Outcome.ok st1 => run_ops L K st1 cs
    | Outcome.die t => Outcome.die t
    | Outcome.diverge => Outcome.diverge

/-- A layout for the examples with the user ceiling at `0xBFFFFFFF`. -/
def high_layout : Layout :=
  { USER_END := 3221225471, TAINT_OFFSET := 1073741824 }

/-- The full table with the program break at `0x80001000`, inside the region
`[0x80000000, 0x80003000)` of the last slot. -/
def full_table_heap : State :=
  { full_table with brk_cur := 2147487744 }

instance (l : List code_map_t) : Decidable (ranges_in_space l) := by
  unfold ranges_in_space; infer_instance

/-- The trace `tr` extends `tr0` by events that follow the lock discipline, starting with
the locks `h` held and ending with the locks `h1` held. -/
def walks_locks (tr0 tr : List Event) (h h1 : Bool × Bool) : Prop :=
  ∃ evs, tr = tr0 ++ evs ∧ lock_walk evs h = some h1

/-- The call with outcome `o`, started with trace `tr0` and no lock held, follows the lock
discipline: when it returns no lock is held, and up to a `die` no step violates it. -/
def follows_locks (tr0 : List Event) (o : Outcome State) : Prop :=
  (∀ s, o = Outcome.ok s → walks_locks tr0 s.trace (false, false) (false, false)) ∧
  (∀ s, o = Outcome.die s → ∃ h1, walks_locks tr0 s.trace (false, false) h1)

/-- The state after a call of mm.c that returned; the initial state when it did not. -/
def Outcome.state_after : Outcome (Nat × State) → State
  | Outcome.ok r => r.2
  | _ => State.init

/-- No entry of the table owns translated code and no `jit_mem_free` or `purge_caches`
has been called. -/
def nothing_translated (st : State) : Prop :=
  (∀ m ∈ st.table, m.jit_addr = 0) ∧ ∀ e ∈ st.trace, e.is_clear = false

/-- The state after mapping `[0x10000, 0x11000)` executable from the initial state. -/
def mapped_once : State :=
  (user_mmap2 example_layout granting_kernel State.init 65536 4096 5 50 (-1) 0).state_after

/-- The state after mapping the adjacent `[0x11000, 0x12000)` executable as well. -/
def mapped_twice : State :=
  (user_mmap2 example_layout granting_kernel mapped_once 69632 4096 5 50 (-1) 0).state_after

/-- The state after unmapping `[0x10000, 0x12000)`, which covers both regions. -/
def unmapped_both : State :=
  (user_munmap example_layout granting_kernel mapped_twice 65536 8192).state_after

/-- The calls that `clear_code_map(addr, len, jit_addr)` makes, in program order, each
with the state of the globals at the moment of the call. -/
def clear_code_map_calls (st : State) (addr len jit_addr : Nat) : List (Event × State) :=
  [(Event.jit_mem_free jit_addr, st),
   (Event.purge_caches addr len, st.emit (Event.jit_mem_free jit_addr))]

/-- The state of the globals in `del_code_map(i)` after the shift loop and
`n_codemaps--` (lines 49-52), before `clear_code_map` is reached. -/
def del_code_map_shifted (st : State) (i : Nat) : State :=
  { st with
    codemaps := del_code_map_loop st.n_codemaps (st.n_codemaps - i) st.codemaps i
    n_codemaps := st.n_codemaps - 1 }

/-- The calls of `jit_mem_free` and `purge_caches` in `del_code_map(i)`, statement by
statement: `orig` is read, the entries are shifted and `n_codemaps` is decremented, and
only then, when `orig.jit_addr` is not NULL, `clear_code_map` is called; each call is
recorded with the state of the globals at that moment. -/
def del_code_map_calls (st : State) (i : Nat) : List (Event × State) :=
  let orig := st.codemaps i
  let st1 := del_code_map_shifted st i
  if orig.jit_addr ≠ 0 then clear_code_map_calls st1 orig.addr orig.len orig.jit_addr else []

/-- The calls of `jit_mem_free` and `purge_caches` in a run of `del_code_region(addr, len)`,
in order, each with the state of the globals at the moment of the call. -/
def del_code_region_calls (st : State) (addr len : Nat) : List (Event × State) :=
  (del_code_region_deletions st addr len).flatMap (fun d => del_code_map_calls d.1 d.2)

/-- The entry owns translated code. -/
def has_code (m : code_map_t) : Bool := decide (m.jit_addr ≠ 0)

/-- Translated code is owned by one entry: no two entries at distinct positions of the
list have the same non-NULL `jit_addr`. -/
def exclusive_jit (l : List code_map_t) : Prop :=
  l.Pairwise (fun a b => a.jit_addr = 0 ∨ b.jit_addr = 0 ∨ a.jit_addr ≠ b.jit_addr)

instance (l : List code_map_t) : Decidable (exclusive_jit l) := by
  unfold exclusive_jit; infer_instance

/-- A table with the single region `[0xFFFFE000, 2^32)`, which ends at the top of the
address space. -/
def top_region : State :=
  State.of_list
    [{ addr := 4294959104, len := 8192, jit_addr := 0, jit_len := 0,
       inode := 0, dev := 0, mtime := 0, pgoffset := 0 }]

/-! ## The array loops, slot by slot -/

theorem del_code_map_loop_apply (n : Nat) :
    ∀ (k : Nat) (cm : Nat → code_map_t) (i j : Nat), n - i ≤ k →
      del_code_map_loop n k cm i j = if i ≤ j ∧ j < n then cm (j + 1) else cm j := by
  intro k
  induction k with
  | zero =>
    intro cm i j hk
    have : ¬ (i ≤ j ∧ j < n) := by omega
    simp [del_code_map_loop, this]
  | succ k ih =>
    intro cm i j hk
    unfold del_code_map_loop
    by_cases hin : i < n
    · rw [if_pos hin, ih _ _ _ (by omega)]
      by_cases h1 : i + 1 ≤ j ∧ j < n
      · have h2 : i ≤ j ∧ j < n := by omega
        have h3 : j + 1 ≠ i := by omega
        rw [if_pos h1, if_pos h2, Function.update_noteq h3]
      · rw [if_neg h1]
        by_cases hji : j = i
        · subst hji
          have h2 : j ≤ j ∧ j < n := by omega
          rw [if_pos h2, Function.update_same]
        · have h2 : ¬ (i ≤ j ∧ j < n) := by omega
          rw [if_neg h2, Function.update_noteq hji]
    · rw [if_neg hin]
      have : ¬ (i ≤ j ∧ j < n) := by omega
      rw [if_neg this]

theorem length_table (st : State) : st.table.length = st.n_codemaps := by
  simp [State.table]

theorem getElem_table (st : State) (j : Nat) (h : j < st.table.length) :
    st.table[j] = st.codemaps j := by
  simp [State.table]

theorem mem_table {st : State} {m : code_map_t} :
    m ∈ st.table ↔ ∃ j, j < st.n_codemaps ∧ st.codemaps j = m := by
  simp [State.table]

theorem table_del_code_map (st : State) (i : Nat) (hi : i < st.n_codemaps) :
    (del_code_map st i).table = st.table.eraseIdx i := by
  apply List.ext_getElem
  · rw [List.length_eraseIdx_of_lt (by rw [length_table]; exact hi)]
    simp [length_table, del_code_map]
  · intro j h1 h2
    rw [getElem_table, List.getElem_eraseIdx]
    simp only [del_code_map]
    rw [del_code_map_loop_apply _ _ _ _ _ (le_refl _)]
    have hj : j < st.n_codemaps - 1 := by
      simpa [length_table, del_code_map] using h1
    by_cases hji : j < i
    · have : ¬ (i ≤ j ∧ j < st.n_codemaps) := by omega
      simp [this, hji, getElem_table]
    · have : i ≤ j ∧ j < st.n_codemaps := by omega
      simp [this, hji, getElem_table]

theorem add_code_map_loop_spec (map : code_map_t) :
    ∀ (n : Nat) (cm : Nat → code_map_t),
      (add_code_map_loop map n cm).1 ≤ n ∧
      (∀ j, j ≤ (add_code_map_loop map n cm).1 → (add_code_map_loop map n cm).2 j = cm j) ∧
      (∀ j, (add_code_map_loop map n cm).1 < j → j ≤ n →
        (add_code_map_loop map n cm).2 j = cm (j - 1)) ∧
      (∀ j, n < j → (add_code_map_loop map n cm).2 j = cm j) ∧
      (∀ j, (add_code_map_loop map n cm).1 ≤ j → j < n → map.addr < (cm j).addr) ∧
      (0 < (add_code_map_loop map n cm).1 →
        (cm ((add_code_map_loop map n cm).1 - 1)).addr ≤ map.addr) := by
  intro n
  induction n with
  | zero =>
    intro cm
    refine ⟨le_refl _, fun j _ => rfl, ?_, fun j _ => rfl, ?_, ?_⟩
    · intro j h1 h2
      simp only [add_code_map_loop] at h1
      omega
    · intro j h1 h2; omega
    · intro h
      simp only [add_code_map_loop] at h
      omega
  | succ n ih =>
    intro cm
    unfold add_code_map_loop
    by_cases h : map.addr < (cm n).addr
    · rw [if_pos h]
      obtain ⟨h1, h2, h3, h4, h5, h6⟩ := ih (Function.update cm (n + 1) (cm n))
      refine ⟨by omega, ?_, ?_, ?_, ?_, ?_⟩
      · intro j hj
        rw [h2 j hj, Function.update_noteq (by omega)]
      · intro j hj1 hj2
        by_cases hjn : j = n + 1
        · subst hjn
          rw [h4 _ (by omega), Function.update_same]
          simp
        · rw [h3 j hj1 (by omega), Function.update_noteq (by omega)]
      · intro j hj
        rw [h4 j (by omega), Function.update_noteq (by omega)]
      · intro j hj1 hj2
        by_cases hjn : j = n
        · subst hjn; exact h
        · have := h5 j hj1 (by omega)
          rwa [Function.update_noteq (by omega)] at this
      · intro hp
        have := h6 hp
        rwa [Function.update_noteq (by omega)] at this
    · rw [if_neg h]
      refine ⟨le_refl _, fun j _ => rfl, ?_, fun j _ => rfl, ?_, ?_⟩
      · intro j hj1 hj2; omega
      · intro j hj1 hj2; omega
      · intro _
        simpa using h

theorem add_code_map_ok_iff (st : State) (map : code_map_t) :
    (add_code_map st map).isOk = true ↔ st.n_codemaps < MAX_CODEMAPS := by
  unfold add_code_map
  by_cases h : st.n_codemaps ≥ MAX_CODEMAPS
  · simp [h, Outcome.isOk]
  · simp [h, Outcome.isOk]; omega

/-- What `add_code_map` does to the live table: the new entry is placed at some
position `p`, every entry from `p` on has a larger start address and the entry
before `p`, if any, does not. -/
theorem table_add_code_map (st st1 : State) (map : code_map_t)
    (h : add_code_map st map = Outcome.ok st1) :
    st.n_codemaps < MAX_CODEMAPS ∧ st1.n_codemaps = st.n_codemaps + 1 ∧
    st1.trace = st.trace ∧ st1.brk_cur = st.brk_cur ∧ st1.brk_min = st.brk_min ∧
    ∃ p, p ≤ st.n_codemaps ∧
      st1.table = st.table.take p ++ map :: st.table.drop p ∧
      (∀ m ∈ st.table.drop p, map.addr < m.addr) ∧
      (∀ m ∈ (st.table.take p).getLast?, m.addr ≤ map.addr) := by
  unfold add_code_map at h
  by_cases hn : st.n_codemaps ≥ MAX_CODEMAPS
  · simp [hn] at h
  · rw [if_neg hn] at h
    simp only [Outcome.ok.injEq] at h
    subst h
    obtain ⟨h1, h2, h3, h4, h5, h6⟩ := add_code_map_loop_spec map st.n_codemaps st.codemaps
    refine ⟨by omega, rfl, rfl, rfl, rfl, (add_code_map_loop map st.n_codemaps st.codemaps).1,
      h1, ?_, ?_, ?_⟩
    · apply List.ext_getElem
      · simp [length_table]; omega
      · intro j hj1 hj2
        rw [getElem_table]
        simp only [length_table] at hj1
        generalize (add_code_map_loop map st.n_codemaps st.codemaps).1 = p at *
        generalize (add_code_map_loop map st.n_codemaps st.codemaps).2 = cm1 at *
        have hlt : (List.take p st.table).length = p := by
          simp [length_table]; omega
        rcases Nat.lt_trichotomy j p with hjp | hjp | hjp
        · rw [List.getElem_append_left (by omega)]
          simp only [Function.update_noteq (Nat.ne_of_lt hjp)]
          rw [h2 j (by omega)]
          simp [getElem_table]
        · subst hjp
          rw [List.getElem_append_right (by omega)]
          simp [hlt]
        · rw [List.getElem_append_right (by omega)]
          simp only [Function.update_noteq (Nat.ne_of_gt hjp)]
          rw [h3 j hjp (by omega)]
          simp only [hlt]
          have : j - p = (j - p - 1) + 1 := by omega
          rw [List.getElem_cons]
          simp only [show ¬ (j - p = 0) by omega, dite_false]
          rw [List.getElem_drop, getElem_table]
          congr 1
          omega
    · intro m hm
      rw [List.mem_iff_getElem] at hm
      obtain ⟨j, hj, rfl⟩ := hm
      rw [List.getElem_drop, getElem_table]
      simp [length_table] at hj
      exact h5 _ (by omega) (by omega)
    · intro m hm
      generalize (add_code_map_loop map st.n_codemaps st.codemaps).1 = p at *
      by_cases hp : p = 0
      · subst hp; simp at hm
      · have hlen : (List.take p st.table).length = p := by
          simp [length_table]; omega
        rw [List.getLast?_eq_getElem?] at hm
        simp only [hlen] at hm
        rw [List.getElem?_eq_getElem (by omega)] at hm
        simp only [Option.mem_def, Option.some.injEq] at hm
        subst hm
        rw [List.getElem_take, getElem_table]
        exact h6 (by omega)

/-! ## Insertion and deletion on the live table -/

theorem pairwise_le_getLast {α : Type} {R : α → α → Prop} {l : List α} {a z : α}
    (hp : l.Pairwise R) (ha : a ∈ l) (hz : z ∈ l.getLast?) : a = z ∨ R a z := by
  rw [Option.mem_def, List.getLast?_eq_some_iff] at hz
  obtain ⟨ys, rfl⟩ := hz
  rw [List.pairwise_append] at hp
  rcases List.mem_append.mp ha with h | h
  · exact Or.inr (hp.2.2 a h z (by simp))
  · left; simpa using h

theorem add_code_map_facts (st st1 : State) (map : code_map_t)
    (h : add_code_map st map = Outcome.ok st1) :
    st.n_codemaps < MAX_CODEMAPS ∧ st1.n_codemaps = st.n_codemaps + 1 ∧
    st1.trace = st.trace ∧ st1.brk_cur = st.brk_cur ∧ st1.brk_min = st.brk_min ∧
    st1.table.Perm (map :: st.table) ∧ st.table.Sublist st1.table ∧
    (sorted_by_addr st.table → sorted_by_addr st1.table) := by
  obtain ⟨h1, h2, h3, h4, h5, p, hp, htab, hgt, hle⟩ := table_add_code_map st st1 map h
  refine ⟨h1, h2, h3, h4, h5, ?_, ?_, ?_⟩
  · rw [htab]
    have := @List.perm_middle _ map (List.take p st.table) (List.drop p st.table)
    rwa [List.take_append_drop] at this
  · rw [htab]
    conv => lhs; rw [← List.take_append_drop p st.table]
    exact List.Sublist.append_left (List.sublist_cons_self _ _) _
  · intro hs
    unfold sorted_by_addr at hs ⊢
    rw [htab]
    rw [← List.take_append_drop p st.table, List.pairwise_append] at hs
    rw [List.pairwise_append]
    refine ⟨hs.1, ?_, ?_⟩
    · rw [List.pairwise_cons]
      exact ⟨fun m hm => Nat.le_of_lt (hgt m hm), hs.2.1⟩
    · intro a ha b hb
      have hamap : a.addr ≤ map.addr := by
        cases hlast : (List.take p st.table).getLast? with
        | none =>
          rw [List.getLast?_eq_none_iff] at hlast
          rw [hlast] at ha
          simp at ha
        | some z =>
          have hzm : z ∈ (List.take p st.table).getLast? := by rw [hlast]; simp
          have hz := hle z hzm
          rcases pairwise_le_getLast hs.1 ha hzm with h | h
          · rw [h]; exact hz
          · exact le_trans h hz
      rcases List.mem_cons.mp hb with h | h
      · rw [h]; exact hamap
      · exact le_trans hamap (Nat.le_of_lt (hgt b h))

theorem sorted_eraseIdx {l : List code_map_t} (i : Nat) (h : sorted_by_addr l) :
    sorted_by_addr (l.eraseIdx i) :=
  List.Pairwise.sublist (List.eraseIdx_sublist l i) h

theorem del_code_map_facts (st : State) (i : Nat) (hi : i < st.n_codemaps) :
    (del_code_map st i).table = st.table.eraseIdx i ∧
    (del_code_map st i).n_codemaps = st.n_codemaps - 1 ∧
    (del_code_map st i).brk_cur = st.brk_cur ∧ (del_code_map st i).brk_min = st.brk_min ∧
    (del_code_map st i).trace =
      (if (st.codemaps i).jit_addr ≠ 0 then
        st.trace ++ [Event.jit_mem_free (st.codemaps i).jit_addr,
          Event.purge_caches (st.codemaps i).addr (st.codemaps i).len]
       else st.trace) :=
  ⟨table_del_code_map st i hi, rfl, rfl, rfl, rfl⟩

/-- One pass of the loop body of `del_code_region` on a live slot `i`, when it
returns: slot `i` is replaced by its residuals, every other entry stays and keeps
its order, and the trace gains the free and the purge of slot `i` when that slot
owned translated code. -/
theorem del_code_region_body_facts (addr len : Nat) (st st1 : State) (i : Nat)
    (hi : i < st.n_codemaps) (h : del_code_region_body addr len st i = Outcome.ok st1) :
    st1.table.Perm (residuals addr len (st.codemaps i) ++ st.table.eraseIdx i) ∧
    (st.table.eraseIdx i).Sublist st1.table ∧
    (sorted_by_addr st.table → sorted_by_addr st1.table) ∧
    st1.n_codemaps + 1 = st.n_codemaps + (residuals addr len (st.codemaps i)).length ∧
    st1.brk_cur = st.brk_cur ∧ st1.brk_min = st.brk_min ∧
    st1.trace =
      (if (st.codemaps i).jit_addr ≠ 0 then
        st.trace ++ [Event.jit_mem_free (st.codemaps i).jit_addr,
          Event.purge_caches (st.codemaps i).addr (st.codemaps i).len]
       else st.trace) := by
  obtain ⟨d1, d2, d3, d4, d5⟩ := del_code_map_facts st i hi
  unfold del_code_region_body at h
  simp only [gt_iff_lt] at h
  unfold residuals left_residual right_residual
  simp only [gt_iff_lt]
  by_cases hl : (st.codemaps i).addr < addr
  · simp only [if_pos hl] at h ⊢
    cases ha : add_code_map (del_code_map st i)
        { st.codemaps i with jit_addr := 0, jit_len := 0, len := addr - (st.codemaps i).addr } with
    | die t => rw [ha] at h; simp at h
    | diverge => rw [ha] at h; simp at h
    | ok st2 =>
      rw [ha] at h
      simp only at h
      obtain ⟨a1, a2, a3, a4, a5, a6, a7, a8⟩ := add_code_map_facts _ _ _ ha
      by_cases hr : (addr + len) % ULONG_SIZE < ((st.codemaps i).addr + (st.codemaps i).len) % ULONG_SIZE
      · simp only [if_pos hr] at h ⊢
        obtain ⟨b1, b2, b3, b4, b5, b6, b7, b8⟩ := add_code_map_facts _ _ _ h
        refine ⟨?_, ?_, ?_, ?_, ?_, ?_, ?_⟩
        · refine b6.trans ?_
          rw [d1] at a6
          refine (List.Perm.cons _ a6).trans ?_
          simp only [List.singleton_append, List.cons_append, List.nil_append]
          exact List.Perm.swap _ _ _
        · rw [← d1]; exact a7.trans b7
        · intro hs; exact b8 (a8 (by rw [d1]; exact sorted_eraseIdx i hs))
        · simp; omega
        · rw [b4, a4, d3]
        · rw [b5, a5, d4]
        · rw [b3, a3, d5]
      · simp only [if_neg hr] at h ⊢
        simp only [Outcome.ok.injEq] at h
        subst h
        refine ⟨?_, ?_, ?_, ?_, ?_, ?_, ?_⟩
        · rw [d1] at a6; simpa using a6
        · rw [← d1]; exact a7
        · intro hs; exact a8 (by rw [d1]; exact sorted_eraseIdx i hs)
        · simp; omega
        · rw [a4, d3]
        · rw [a5, d4]
        · rw [a3, d5]
  · simp only [if_neg hl] at h ⊢
    by_cases hr : (addr + len) % ULONG_SIZE < ((st.codemaps i).addr + (st.codemaps i).len) % ULONG_SIZE
    · simp only [if_pos hr] at h ⊢
      obtain ⟨b1, b2, b3, b4, b5, b6, b7, b8⟩ := add_code_map_facts _ _ _ h
      refine ⟨?_, ?_, ?_, ?_, ?_, ?_, ?_⟩
      · rw [d1] at b6; simpa using b6
      · rw [← d1]; exact b7
      · intro hs; exact b8 (by rw [d1]; exact sorted_eraseIdx i hs)
      · simp; omega
      · rw [b4, d3]
      · rw [b5, d4]
      · rw [b3, d5]
    · simp only [if_neg hr] at h ⊢
      simp only [Outcome.ok.injEq] at h
      subst h
      refine ⟨?_, ?_, ?_, ?_, ?_, ?_, ?_⟩
      · rw [d1]; simp
      · rw [← d1]
      · intro hs; rw [d1]; exact sorted_eraseIdx i hs
      · simp; omega
      · exact d3
      · exact d4
      · exact d5

/-! ## The loop of `del_code_region` -/

theorem overlap_comm (a1 l1 a2 l2 : Nat) : overlap a1 l1 a2 l2 = overlap a2 l2 a1 l1 := by
  unfold overlap
  exact Bool.and_comm _ _

theorem overlap_eq_true_iff (a1 l1 a2 l2 : Nat) :
    overlap a1 l1 a2 l2 = true ↔
      a1 < (a2 + l2) % ULONG_SIZE ∧ a2 < (a1 + l1) % ULONG_SIZE := by
  simp [overlap]

theorem overlap_eq_false_iff (a1 l1 a2 l2 : Nat) :
    overlap a1 l1 a2 l2 = false ↔
      (a2 + l2) % ULONG_SIZE ≤ a1 ∨ (a1 + l1) % ULONG_SIZE ≤ a2 := by
  rw [← Bool.not_eq_true, overlap_eq_true_iff]
  omega

theorem contains_eq_true_iff (a l x : Nat) :
    contains a l x = true ↔ a ≤ x ∧ x < (a + l) % ULONG_SIZE := by
  simp [contains]

/-- No residual overlaps the range it was cut away from, whatever the arguments. -/
theorem overlap_residual (addr len : Nat) (m r : code_map_t) (hr : r ∈ residuals addr len m) :
    overlap addr len r.addr r.len = false := by
  unfold residuals at hr
  rw [List.mem_append] at hr
  rw [overlap_eq_false_iff]
  rcases hr with hr | hr
  · by_cases h : addr > m.addr
    · rw [if_pos h] at hr
      simp only [List.mem_singleton] at hr
      subst hr
      simp only [left_residual]
      left
      have : m.addr + (addr - m.addr) = addr := by omega
      rw [this]
      exact Nat.mod_le _ _
    · rw [if_neg h] at hr; simp at hr
  · by_cases h : (m.addr + m.len) % ULONG_SIZE > (addr + len) % ULONG_SIZE
    · rw [if_pos h] at hr
      simp only [List.mem_singleton] at hr
      subst hr
      simp only [right_residual]
      right
      exact le_refl _
    · rw [if_neg h] at hr; simp at hr

theorem split_entry_of_not_overlap (addr len : Nat) (m : code_map_t)
    (h : overlap addr len m.addr m.len = false) : split_entry addr len m = [m] := by
  simp [split_entry, h]

theorem flatMap_split_entry_eq_self (addr len : Nat) (l : List code_map_t)
    (h : ∀ m ∈ l, overlap addr len m.addr m.len = false) :
    l.flatMap (split_entry addr len) = l := by
  induction l with
  | nil => rfl
  | cons a l ih =>
    rw [List.flatMap_cons, split_entry_of_not_overlap addr len a (h a (by simp)),
      ih (fun m hm => h m (by simp [hm]))]
    rfl

theorem perm_cons_eraseIdx {α : Type} (l : List α) (i : Nat) (h : i < l.length) :
    l.Perm (l[i] :: l.eraseIdx i) := by
  induction l generalizing i with
  | nil => simp at h
  | cons a l ih =>
    cases i with
    | zero => simp
    | succ i =>
      simp only [List.length_cons, Nat.add_lt_add_iff_right] at h
      simp only [List.getElem_cons_succ, List.eraseIdx_cons_succ]
      exact ((ih i h).cons a).trans (List.Perm.swap _ _ _)

theorem del_code_region_body_ne_diverge (addr len : Nat) (st : State) (i : Nat) :
    del_code_region_body addr len st i ≠ Outcome.diverge := by
  have hadd : ∀ (s : State) (m : code_map_t), add_code_map s m ≠ Outcome.diverge := by
    intro s m
    unfold add_code_map
    split <;> simp
  unfold del_code_region_body
  simp only
  split
  · split
    · exact hadd _ _
    · simp
  · simp
  · rename_i h
    split at h
    · exact absurd h (hadd _ _)
    · simp at h

/-- One pass of the loop body lowers by one the number of live entries that overlap
`[addr, addr+len)`. -/
theorem countP_overlap_body (addr len : Nat) (st st1 : State) (i : Nat)
    (hi : i < st.n_codemaps)
    (hov : overlap addr len (st.codemaps i).addr (st.codemaps i).len = true)
    (h : del_code_region_body addr len st i = Outcome.ok st1) :
    st1.table.countP (fun m => overlap addr len m.addr m.len) + 1 =
      st.table.countP (fun m => overlap addr len m.addr m.len) := by
  obtain ⟨hperm, -⟩ := del_code_region_body_facts addr len st st1 i hi h
  have hlen : i < st.table.length := by rw [length_table]; exact hi
  rw [hperm.countP_eq, (perm_cons_eraseIdx st.table i hlen).countP_eq, List.countP_append,
    List.countP_cons, getElem_table, if_pos hov]
  have : List.countP (fun m => overlap addr len m.addr m.len)
      (residuals addr len (st.codemaps i)) = 0 := by
    rw [List.countP_eq_zero]
    intro r hr
    simp [overlap_residual addr len _ r hr]
  omega

theorem del_code_region_loop_ne_diverge (addr len : Nat) :
    ∀ (fuel : Nat) (st : State) (i : Int), -1 ≤ i → i < st.n_codemaps →
      (i + 1).toNat + st.table.countP (fun m => overlap addr len m.addr m.len) *
        (st.n_codemaps + st.table.countP (fun m => overlap addr len m.addr m.len)) ≤ fuel →
      del_code_region_loop addr len fuel st i ≠ Outcome.diverge := by
  intro fuel
  induction fuel with
  | zero =>
    intro st i h1 h2 h3
    have : ¬ (0 ≤ i) := by omega
    simp [del_code_region_loop, this]
  | succ fuel ih =>
    intro st i h1 h2 h3
    unfold del_code_region_loop
    by_cases hi : 0 ≤ i
    · rw [if_pos hi]
      by_cases hov : overlap addr len (st.codemaps i.toNat).addr (st.codemaps i.toNat).len = false
      · rw [if_pos hov]
        apply ih st (i - 1) (by omega) (by omega)
        have : (i - 1 + 1).toNat + 1 = (i + 1).toNat := by omega
        omega
      · rw [if_neg hov]
        simp only [Bool.not_eq_false] at hov
        cases hb : del_code_region_body addr len st i.toNat with
        | diverge => exact absurd hb (del_code_region_body_ne_diverge _ _ _ _)
        | die t => simp
        | ok st1 =>
          simp only
          have hin : i.toNat < st.n_codemaps := by omega
          have hc := countP_overlap_body addr len st st1 i.toNat hin hov hb
          obtain ⟨-, -, -, hn, -⟩ := del_code_region_body_facts addr len st st1 i.toNat hin hb
          have hres : (residuals addr len (st.codemaps i.toNat)).length ≤ 2 := by
            unfold residuals
            split <;> split <;> simp
          apply ih st1 _ (by omega) (by omega)
          generalize st1.table.countP (fun m => overlap addr len m.addr m.len) = c1 at *
          generalize st.table.countP (fun m => overlap addr len m.addr m.len) = c at *
          subst hc
          have e1 : ((st1.n_codemaps : Int) - 1 + 1).toNat = st1.n_codemaps := by omega
          have e2 : (c1 + 1) * (st.n_codemaps + (c1 + 1)) =
              c1 * (st.n_codemaps + (c1 + 1)) + (st.n_codemaps + (c1 + 1)) := by ring
          have e3 : c1 * (st1.n_codemaps + c1) ≤ c1 * (st.n_codemaps + (c1 + 1)) :=
            Nat.mul_le_mul_left _ (by omega)
          have e4 : 1 ≤ (i + 1).toNat := by omega
          rw [e1]
          rw [e2] at h3
          omega
    · rw [if_neg hi]; simp

theorem del_code_region_fuel_enough (addr len : Nat) (st : State) :
    ((st.n_codemaps : Int) - 1 + 1).toNat +
      st.table.countP (fun m => overlap addr len m.addr m.len) *
        (st.n_codemaps + st.table.countP (fun m => overlap addr len m.addr m.len)) ≤
      del_code_region_fuel st.n_codemaps := by
  have hc : st.table.countP (fun m => overlap addr len m.addr m.len) ≤ st.n_codemaps := by
    have := List.countP_le_length (fun m => overlap addr len m.addr m.len) (l := st.table)
    rwa [length_table] at this
  generalize st.table.countP (fun m => overlap addr len m.addr m.len) = c at *
  have e1 : ((st.n_codemaps : Int) - 1 + 1).toNat = st.n_codemaps := by omega
  have e2 : c * (st.n_codemaps + c) ≤ st.n_codemaps * (st.n_codemaps + st.n_codemaps) :=
    Nat.mul_le_mul hc (by omega)
  rw [e1]
  unfold del_code_region_fuel
  have e3 : 2 * (st.n_codemaps + 1) * (st.n_codemaps + 1) =
      st.n_codemaps * (st.n_codemaps + st.n_codemaps) + (4 * st.n_codemaps + 2) := by ring
  omega

/-! ## Invariants of the loop -/

@[simp] theorem table_emit (st : State) (e : Event) : (st.emit e).table = st.table := rfl

@[simp] theorem n_codemaps_emit (st : State) (e : Event) :
    (st.emit e).n_codemaps = st.n_codemaps := rfl

@[simp] theorem codemaps_emit (st : State) (e : Event) : (st.emit e).codemaps = st.codemaps := rfl

@[simp] theorem trace_emit (st : State) (e : Event) : (st.emit e).trace = st.trace ++ [e] := rfl

@[simp] theorem brk_cur_emit (st : State) (e : Event) : (st.emit e).brk_cur = st.brk_cur := rfl

@[simp] theorem brk_min_emit (st : State) (e : Event) : (st.emit e).brk_min = st.brk_min := rfl

/-- Loop rule for `del_code_region`: a property kept by every pass of the body
holds when the loop returns, and then no live entry overlaps the range. -/
theorem del_code_region_loop_inv (addr len : Nat) (Inv : State → Prop)
    (hstep : ∀ (st : State) (i : Nat) (st1 : State), Inv st → i < st.n_codemaps →
      overlap addr len (st.codemaps i).addr (st.codemaps i).len = true →
      del_code_region_body addr len st i = Outcome.ok st1 → Inv st1) :
    ∀ (fuel : Nat) (st : State) (i : Int) (st' : State), i < st.n_codemaps → Inv st →
      (∀ j : Nat, i < (j : Int) → j < st.n_codemaps →
        overlap addr len (st.codemaps j).addr (st.codemaps j).len = false) →
      del_code_region_loop addr len fuel st i = Outcome.ok st' →
      Inv st' ∧ ∀ m ∈ st'.table, overlap addr len m.addr m.len = false := by
  intro fuel
  induction fuel with
  | zero =>
    intro st i st' h1 h2 h3 h4
    unfold del_code_region_loop at h4
    by_cases hi : 0 ≤ i
    · simp [hi] at h4
    · rw [if_neg hi] at h4
      simp only [Outcome.ok.injEq] at h4
      subst h4
      refine ⟨h2, ?_⟩
      intro m hm
      obtain ⟨j, hj, rfl⟩ := mem_table.mp hm
      exact h3 j (by omega) hj
  | succ fuel ih =>
    intro st i st' h1 h2 h3 h4
    unfold del_code_region_loop at h4
    by_cases hi : 0 ≤ i
    · rw [if_pos hi] at h4
      by_cases hov : overlap addr len (st.codemaps i.toNat).addr (st.codemaps i.toNat).len = false
      · rw [if_pos hov] at h4
        refine ih st (i - 1) st' (by omega) h2 ?_ h4
        intro j hj1 hj2
        by_cases hji : (j : Int) = i
        · have : j = i.toNat := by omega
          rw [this]; exact hov
        · exact h3 j (by omega) hj2
      · rw [if_neg hov] at h4
        simp only [Bool.not_eq_false] at hov
        cases hb : del_code_region_body addr len st i.toNat with
        | diverge => rw [hb] at h4; simp at h4
        | die t => rw [hb] at h4; simp at h4
        | ok st1 =>
          rw [hb] at h4
          simp only at h4
          have hin : i.toNat < st.n_codemaps := by omega
          refine ih st1 _ st' (by omega) (hstep st i.toNat st1 h2 hin hov hb) ?_ h4
          intro j hj1 hj2
          omega
    · rw [if_neg hi] at h4
      simp only [Outcome.ok.injEq] at h4
      subst h4
      refine ⟨h2, ?_⟩
      intro m hm
      obtain ⟨j, hj, rfl⟩ := mem_table.mp hm
      exact h3 j (by omega) hj

/-- When, in addition, no pass of the body can end in `die`, the loop does not. -/
theorem del_code_region_loop_ne_die (addr len : Nat) (Inv : State → Prop)
    (hstep : ∀ (st : State) (i : Nat) (st1 : State), Inv st → i < st.n_codemaps →
      overlap addr len (st.codemaps i).addr (st.codemaps i).len = true →
      del_code_region_body addr len st i = Outcome.ok st1 → Inv st1)
    (hsafe : ∀ (st : State) (i : Nat), Inv st → i < st.n_codemaps →
      overlap addr len (st.codemaps i).addr (st.codemaps i).len = true →
      (del_code_region_body addr len st i).isOk = true) :
    ∀ (fuel : Nat) (st : State) (i : Int) (t : State), i < st.n_codemaps → Inv st →
      del_code_region_loop addr len fuel st i ≠ Outcome.die t := by
  intro fuel
  induction fuel with
  | zero =>
    intro st i t h1 h2
    unfold del_code_region_loop
    split <;> simp
  | succ fuel ih =>
    intro st i t h1 h2
    unfold del_code_region_loop
    by_cases hi : 0 ≤ i
    · rw [if_pos hi]
      by_cases hov : overlap addr len (st.codemaps i.toNat).addr (st.codemaps i.toNat).len = false
      · rw [if_pos hov]
        exact ih st (i - 1) t (by omega) h2
      · rw [if_neg hov]
        simp only [Bool.not_eq_false] at hov
        have hin : i.toNat < st.n_codemaps := by omega
        have hs := hsafe st i.toNat h2 hin hov
        cases hb : del_code_region_body addr len st i.toNat with
        | diverge => simp
        | die t1 => rw [hb] at hs; simp [Outcome.isOk] at hs
        | ok st1 =>
          simp only
          exact ih st1 _ t (by omega) (hstep st i.toNat st1 h2 hin hov hb)
    · rw [if_neg hi]; simp

theorem filter_eraseIdx_of_false {α : Type} (p : α → Bool) :
    ∀ (l : List α) (i : Nat) (h : i < l.length), p l[i] = false →
      (l.eraseIdx i).filter p = l.filter p := by
  intro l
  induction l with
  | nil => intro i h; simp at h
  | cons a l ih =>
    intro i h hp
    cases i with
    | zero =>
      simp only [List.getElem_cons_zero] at hp
      simp [List.filter_cons, hp]
    | succ i =>
      simp only [List.length_cons, Nat.add_lt_add_iff_right] at h
      simp only [List.getElem_cons_succ] at hp
      simp only [List.eraseIdx_cons_succ, List.filter_cons, ih i h hp]

/-- The loop of `del_code_region` never runs out of iterations. -/
theorem del_code_region_ne_diverge (st : State) (addr len : Nat) :
    del_code_region st addr len ≠ Outcome.diverge := by
  unfold del_code_region
  simp only
  have h := del_code_region_loop_ne_diverge addr len
    (del_code_region_fuel st.n_codemaps)
    ((st.emit (Event.mutex_lock lock_t.jit_lock)).emit (Event.mutex_lock lock_t.codemap_lock))
    ((st.n_codemaps : Int) - 1) (by omega) (by simp) (del_code_region_fuel_enough addr len _)
  simp only [n_codemaps_emit]
  split
  · simp
  · simp
  · rename_i hd
    exact absurd hd h

/-- Unfolding of `del_code_region` when it returns. -/
theorem del_code_region_ok (st st' : State) (addr len : Nat)
    (h : del_code_region st addr len = Outcome.ok st') :
    ∃ st1, del_code_region_loop addr len (del_code_region_fuel st.n_codemaps)
        ((st.emit (Event.mutex_lock lock_t.jit_lock)).emit (Event.mutex_lock lock_t.codemap_lock))
        ((st.n_codemaps : Int) - 1) = Outcome.ok st1 ∧
      st' = (st1.emit (Event.mutex_unlock lock_t.codemap_lock)).emit
        (Event.mutex_unlock lock_t.jit_lock) := by
  unfold del_code_region at h
  simp only [n_codemaps_emit] at h
  split at h
  · rename_i st1 h1
    simp only [Outcome.ok.injEq] at h
    exact ⟨st1, h1, h.symm⟩
  · simp at h
  · simp at h

/-- Rule for `del_code_region`: a property of the state that ignores the trace and
is kept by every pass of the loop body holds when the call returns; no live entry
overlaps the range then. -/
theorem del_code_region_inv (addr len : Nat) (Inv : State → Prop)
    (hemit : ∀ (st : State) (e : Event), Inv st → Inv (st.emit e))
    (hstep : ∀ (st : State) (i : Nat) (st1 : State), Inv st → i < st.n_codemaps →
      overlap addr len (st.codemaps i).addr (st.codemaps i).len = true →
      del_code_region_body addr len st i = Outcome.ok st1 → Inv st1)
    (st st' : State) (h0 : Inv st) (h : del_code_region st addr len = Outcome.ok st') :
    Inv st' ∧ ∀ m ∈ st'.table, overlap addr len m.addr m.len = false := by
  obtain ⟨st1, h1, rfl⟩ := del_code_region_ok st st' addr len h
  have := del_code_region_loop_inv addr len Inv hstep _ _ _ st1 (by simp) (hemit _ _ (hemit _ _ h0))
    (by intro j hj1 hj2; simp at hj2; omega) h1
  exact ⟨hemit _ _ (hemit _ _ this.1), by simpa using this.2⟩

/-- Rule for `del_code_region`: when no pass of the loop body can end in `die`, the
call returns. -/
theorem del_code_region_isOk (addr len : Nat) (Inv : State → Prop)
    (hemit : ∀ (st : State) (e : Event), Inv st → Inv (st.emit e))
    (hstep : ∀ (st : State) (i : Nat) (st1 : State), Inv st → i < st.n_codemaps →
      overlap addr len (st.codemaps i).addr (st.codemaps i).len = true →
      del_code_region_body addr len st i = Outcome.ok st1 → Inv st1)
    (hsafe : ∀ (st : State) (i : Nat), Inv st → i < st.n_codemaps →
      overlap addr len (st.codemaps i).addr (st.codemaps i).len = true →
      (del_code_region_body addr len st i).isOk = true)
    (st : State) (h0 : Inv st) : ∃ st', del_code_region st addr len = Outcome.ok st' := by
  cases h : del_code_region st addr len with
  | ok st' => exact ⟨st', rfl⟩
  | diverge => exact absurd h (del_code_region_ne_diverge st addr len)
  | die t =>
    exfalso
    unfold del_code_region at h
    simp only [n_codemaps_emit] at h
    split at h
    · simp at h
    · rename_i t1 h1
      exact del_code_region_loop_ne_die addr len Inv hstep hsafe _ _ _ t1 (by simp)
        (hemit _ _ (hemit _ _ h0)) h1
    · simp at h

/-! ## What `del_code_region` does to the table -/

/-- When `del_code_region` returns, the live table is, up to order, the old table with
each entry replaced by `split_entry`; no entry overlaps the range; sortedness is
kept; the entries that did not overlap the range are all still there, in their
old order; the break pointers are untouched. -/
theorem del_code_region_table (st st' : State) (addr len : Nat)
    (h : del_code_region st addr len = Outcome.ok st') :
    st'.table.Perm (st.table.flatMap (split_entry addr len)) ∧
    (∀ m ∈ st'.table, overlap addr len m.addr m.len = false) ∧
    (sorted_by_addr st.table → sorted_by_addr st'.table) ∧
    (st.table.filter (fun m : code_map_t => !overlap addr len m.addr m.len)).Sublist st'.table ∧
    st'.brk_cur = st.brk_cur ∧ st'.brk_min = st.brk_min := by
  have key := del_code_region_inv addr len
    (fun s : State => (s.table.flatMap (split_entry addr len)).Perm
        (st.table.flatMap (split_entry addr len)) ∧
      (sorted_by_addr st.table → sorted_by_addr s.table) ∧
      (st.table.filter (fun m : code_map_t => !overlap addr len m.addr m.len)).Sublist s.table ∧
      s.brk_cur = st.brk_cur ∧ s.brk_min = st.brk_min)
    (fun _ _ hs => hs)
    (by
      intro s i s1 ⟨i1, i2, i3, i4, i5⟩ hi hov hb
      obtain ⟨b1, b2, b3, b4, b5, b6, b7⟩ := del_code_region_body_facts addr len s s1 i hi hb
      have hlen : i < s.table.length := by rw [length_table]; exact hi
      refine ⟨?_, fun hs => b3 (i2 hs), ?_, by rw [b5, i4], by rw [b6, i5]⟩
      · refine List.Perm.trans ?_ i1
        refine (List.Perm.flatMap_right _ b1).trans ?_
        refine List.Perm.trans ?_ (List.Perm.flatMap_right _ (perm_cons_eraseIdx s.table i hlen)).symm
        rw [List.flatMap_append, List.flatMap_cons, getElem_table,
          flatMap_split_entry_eq_self addr len _ (fun r hr => overlap_residual addr len _ r hr)]
        simp [split_entry, hov]
      · refine List.Sublist.trans ?_ b2
        have e1 : (s.table.eraseIdx i).filter (fun m : code_map_t => !overlap addr len m.addr m.len) =
            s.table.filter (fun m : code_map_t => !overlap addr len m.addr m.len) :=
          filter_eraseIdx_of_false _ s.table i hlen (by rw [getElem_table]; simp [hov])
        have e2 := List.Sublist.filter (fun m : code_map_t => !overlap addr len m.addr m.len) i3
        rw [List.filter_filter] at e2
        simp only [Bool.and_self] at e2
        rw [← e1] at e2
        exact e2.trans (List.filter_sublist _))
    st st' ⟨List.Perm.refl _, fun hs => hs, List.filter_sublist _, rfl, rfl⟩ h
  obtain ⟨⟨k1, k2, k3, k4, k5⟩, k6⟩ := key
  refine ⟨?_, k6, k2, k3, k4, k5⟩
  rw [flatMap_split_entry_eq_self addr len _ k6] at k1
  exact k1

/-- The loop of `del_code_region` leaves the state alone when it starts at slot `i`
and no slot from `i` down overlaps the range. -/
theorem del_code_region_loop_skip (addr len : Nat) :
    ∀ (fuel : Nat) (st : State) (i : Int),
      (∀ j : Nat, (j : Int) ≤ i →
        overlap addr len (st.codemaps j).addr (st.codemaps j).len = false) →
      (i + 1).toNat ≤ fuel → del_code_region_loop addr len fuel st i = Outcome.ok st := by
  intro fuel
  induction fuel with
  | zero =>
    intro st i h1 h2
    have : ¬ (0 ≤ i) := by omega
    simp [del_code_region_loop, this]
  | succ fuel ih =>
    intro st i h1 h2
    unfold del_code_region_loop
    by_cases hi : 0 ≤ i
    · rw [if_pos hi, if_pos (h1 i.toNat (by omega))]
      exact ih st (i - 1) (fun j hj => h1 j (by omega)) (by omega)
    · rw [if_neg hi]

/-- On a table without an entry that overlaps the range, `del_code_region` only takes
and releases the two locks. -/
theorem del_code_region_of_no_overlap (st : State) (addr len : Nat)
    (h : ∀ m ∈ st.table, overlap addr len m.addr m.len = false) :
    del_code_region st addr len = Outcome.ok
      { st with trace := st.trace ++ [Event.mutex_lock lock_t.jit_lock,
          Event.mutex_lock lock_t.codemap_lock, Event.mutex_unlock lock_t.codemap_lock,
          Event.mutex_unlock lock_t.jit_lock] } := by
  unfold del_code_region
  simp only [n_codemaps_emit]
  rw [del_code_region_loop_skip addr len]
  · simp [State.emit]
  · intro j hj
    simp only [codemaps_emit]
    exact h _ (mem_table.mpr ⟨j, by omega, rfl⟩)
  · unfold del_code_region_fuel
    have : ((st.n_codemaps : Int) - 1 + 1).toNat = st.n_codemaps := by omega
    rw [this]
    have : 2 * (st.n_codemaps + 1) * (st.n_codemaps + 1) =
      2 * st.n_codemaps * st.n_codemaps + (4 * st.n_codemaps + 2) := by ring
    omega

/-! ## The state at a capacity abort -/

theorem add_code_map_die (st s : State) (map : code_map_t)
    (h : add_code_map st map = Outcome.die s) : s = st ∧ MAX_CODEMAPS ≤ st.n_codemaps := by
  unfold add_code_map at h
  split at h
  · rename_i hn
    simp only [Outcome.die.injEq] at h
    exact ⟨h.symm, hn⟩
  · simp at h

/-- The state in which a pass of the loop body ends in `die`: slot `i` is deleted, the
other entries are all there in their order, and the table is full. -/
theorem del_code_region_body_die (addr len : Nat) (st s : State) (i : Nat)
    (hi : i < st.n_codemaps) (h : del_code_region_body addr len st i = Outcome.die s) :
    (st.table.eraseIdx i).Sublist s.table ∧ MAX_CODEMAPS ≤ s.n_codemaps := by
  obtain ⟨d1, d2, -⟩ := del_code_map_facts st i hi
  unfold del_code_region_body at h
  simp only [gt_iff_lt] at h
  by_cases hl : (st.codemaps i).addr < addr
  · simp only [if_pos hl] at h
    cases ha : add_code_map (del_code_map st i)
        { st.codemaps i with jit_addr := 0, jit_len := 0, len := addr - (st.codemaps i).addr } with
    | diverge => rw [ha] at h; simp at h
    | die t =>
      rw [ha] at h
      simp only [Outcome.die.injEq] at h
      obtain ⟨a1, a2⟩ := add_code_map_die _ _ _ ha
      rw [← h, a1, d1]
      exact ⟨List.Sublist.refl _, a2⟩
    | ok st2 =>
      rw [ha] at h
      simp only at h
      obtain ⟨a1, a2, -, -, -, -, a7, -⟩ := add_code_map_facts _ _ _ ha
      split at h
      · obtain ⟨b1, b2⟩ := add_code_map_die _ _ _ h
        rw [b1, ← d1]
        exact ⟨a7, b2⟩
      · simp at h
  · simp only [if_neg hl] at h
    split at h
    · obtain ⟨b1, b2⟩ := add_code_map_die _ _ _ h
      rw [b1, d1]
      exact ⟨List.Sublist.refl _, b2⟩
    · simp at h

/-- Loop rule for a run of `del_code_region` that ends in `die`: a property kept by every
pass of the body that returns, and passed on to the state of a pass that ends in
`die`, holds in the state of the abort. -/
theorem del_code_region_loop_die_inv (addr len : Nat) (Inv : State → Prop)
    (hstep : ∀ (st : State) (i : Nat) (st1 : State), Inv st → i < st.n_codemaps →
      overlap addr len (st.codemaps i).addr (st.codemaps i).len = true →
      del_code_region_body addr len st i = Outcome.ok st1 → Inv st1)
    (hdie : ∀ (st : State) (i : Nat) (s : State), Inv st → i < st.n_codemaps →
      overlap addr len (st.codemaps i).addr (st.codemaps i).len = true →
      del_code_region_body addr len st i = Outcome.die s → Inv s) :
    ∀ (fuel : Nat) (st : State) (i : Int) (s : State), i < st.n_codemaps → Inv st →
      del_code_region_loop addr len fuel st i = Outcome.die s → Inv s := by
  intro fuel
  induction fuel with
  | zero =>
    intro st i s h1 h2 h
    unfold del_code_region_loop at h
    split at h <;> simp at h
  | succ fuel ih =>
    intro st i s h1 h2 h
    unfold del_code_region_loop at h
    by_cases hi : 0 ≤ i
    · rw [if_pos hi] at h
      by_cases hov : overlap addr len (st.codemaps i.toNat).addr (st.codemaps i.toNat).len = false
      · rw [if_pos hov] at h
        exact ih st (i - 1) s (by omega) h2 h
      · rw [if_neg hov] at h
        simp only [Bool.not_eq_false] at hov
        have hin : i.toNat < st.n_codemaps := by omega
        cases hb : del_code_region_body addr len st i.toNat with
        | diverge => rw [hb] at h; simp at h
        | die t =>
          rw [hb] at h
          simp only [Outcome.die.injEq] at h
          rw [← h]
          exact hdie st i.toNat t h2 hin hov hb
        | ok st1 =>
          rw [hb] at h
          simp only at h
          exact ih st1 _ s (by omega) (hstep st i.toNat st1 h2 hin hov hb) h
    · rw [if_neg hi] at h
      simp at h

/-- Rule for a call of `del_code_region` that ends in `die`. -/
theorem del_code_region_die_inv (addr len : Nat) (Inv : State → Prop)
    (hemit : ∀ (st : State) (e : Event), Inv st → Inv (st.emit e))
    (hstep : ∀ (st : State) (i : Nat) (st1 : State), Inv st → i < st.n_codemaps →
      overlap addr len (st.codemaps i).addr (st.codemaps i).len = true →
      del_code_region_body addr len st i = Outcome.ok st1 → Inv st1)
    (hdie : ∀ (st : State) (i : Nat) (s : State), Inv st → i < st.n_codemaps →
      overlap addr len (st.codemaps i).addr (st.codemaps i).len = true →
      del_code_region_body addr len st i = Outcome.die s → Inv s)
    (st s : State) (h0 : Inv st) (h : del_code_region st addr len = Outcome.die s) : Inv s := by
  unfold del_code_region at h
  simp only [n_codemaps_emit] at h
  split at h
  · simp at h
  · rename_i t1 h1
    simp only [Outcome.die.injEq] at h
    rw [← h]
    exact del_code_region_loop_die_inv addr len Inv hstep hdie _ _ _ t1 (by simp)
      (hemit _ _ (hemit _ _ h0)) h1
  · simp at h

theorem sublist_filter_eraseIdx {α : Type} (p : α → Bool) (l0 l : List α) (i : Nat)
    (hi : i < l.length) (hp : p l[i] = false) (h : (l0.filter p).Sublist l) :
    (l0.filter p).Sublist (l.eraseIdx i) := by
  have e2 := List.Sublist.filter p h
  rw [List.filter_filter] at e2
  simp only [Bool.and_self] at e2
  rw [← filter_eraseIdx_of_false p l i hi hp] at e2
  exact e2.trans (List.filter_sublist _)

/-- In the state in which `del_code_region` ends, by return or by `die`, the entries
of the old table that do not overlap the range are all there, in their old
order. -/
theorem del_code_region_frame (st s : State) (addr len : Nat)
    (h : (del_code_region st addr len).final? = some s) :
    (st.table.filter (fun m => !overlap addr len m.addr m.len)).Sublist s.table := by
  have hstep : ∀ (s0 : State) (i : Nat) (s1 : State),
      (st.table.filter (fun m => !overlap addr len m.addr m.len)).Sublist s0.table →
      i < s0.n_codemaps →
      overlap addr len (s0.codemaps i).addr (s0.codemaps i).len = true →
      del_code_region_body addr len s0 i = Outcome.ok s1 →
      (st.table.filter (fun m => !overlap addr len m.addr m.len)).Sublist s1.table := by
    intro s0 i s1 hs hi hov hb
    obtain ⟨-, b2, -⟩ := del_code_region_body_facts addr len s0 s1 i hi hb
    exact (sublist_filter_eraseIdx _ _ _ i (by rw [length_table]; exact hi)
      (by rw [getElem_table]; simp [hov]) hs).trans b2
  have hdie : ∀ (s0 : State) (i : Nat) (s1 : State),
      (st.table.filter (fun m => !overlap addr len m.addr m.len)).Sublist s0.table →
      i < s0.n_codemaps →
      overlap addr len (s0.codemaps i).addr (s0.codemaps i).len = true →
      del_code_region_body addr len s0 i = Outcome.die s1 →
      (st.table.filter (fun m => !overlap addr len m.addr m.len)).Sublist s1.table := by
    intro s0 i s1 hs hi hov hb
    obtain ⟨b2, -⟩ := del_code_region_body_die addr len s0 s1 i hi hb
    exact (sublist_filter_eraseIdx _ _ _ i (by rw [length_table]; exact hi)
      (by rw [getElem_table]; simp [hov]) hs).trans b2
  cases hd : del_code_region st addr len with
  | diverge => rw [hd] at h; simp [Outcome.final?] at h
  | ok s1 =>
    rw [hd] at h
    simp only [Outcome.final?, Option.some.injEq] at h
    rw [← h]
    exact (del_code_region_inv addr len
      (fun s0 : State =>
        (st.table.filter (fun m : code_map_t => !overlap addr len m.addr m.len)).Sublist s0.table)
      (fun _ _ hs => hs) hstep st s1 (List.filter_sublist _) hd).1
  | die s1 =>
    rw [hd] at h
    simp only [Outcome.final?, Option.some.injEq] at h
    rw [← h]
    exact del_code_region_die_inv addr len
      (fun s0 : State =>
        (st.table.filter (fun m : code_map_t => !overlap addr len m.addr m.len)).Sublist s0.table)
      (fun _ _ hs => hs) hstep hdie st s1 (List.filter_sublist _) hd

/-! ## Capacity: when `del_code_region` returns -/

theorem length_residuals (addr len : Nat) (m : code_map_t) :
    (residuals addr len m).length =
      (if m.addr < addr then 1 else 0) +
      (if (addr + len) % ULONG_SIZE < (m.addr + m.len) % ULONG_SIZE then 1 else 0) := by
  unfold residuals
  simp only [gt_iff_lt]
  split <;> split <;> simp

theorem add_code_map_isOk (st : State) (map : code_map_t) (h : st.n_codemaps < MAX_CODEMAPS) :
    ∃ st1, add_code_map st map = Outcome.ok st1 := by
  have := (add_code_map_ok_iff st map).mpr h
  cases hc : add_code_map st map with
  | ok st1 => exact ⟨st1, rfl⟩
  | die t => rw [hc] at this; simp [Outcome.isOk] at this
  | diverge => rw [hc] at this; simp [Outcome.isOk] at this

/-- One pass of the loop body returns when the table, after the deletion, has room
for the residuals of the deleted entry. -/
theorem del_code_region_body_isOk (addr len : Nat) (st : State) (i : Nat)
    (hi : i < st.n_codemaps)
    (hcap : st.n_codemaps + (residuals addr len (st.codemaps i)).length ≤ MAX_CODEMAPS + 1) :
    (del_code_region_body addr len st i).isOk = true := by
  rw [length_residuals] at hcap
  obtain ⟨d1, d2, d3, d4, d5⟩ := del_code_map_facts st i hi
  unfold del_code_region_body
  simp only [gt_iff_lt]
  by_cases hl : (st.codemaps i).addr < addr
  · simp only [if_pos hl] at hcap ⊢
    obtain ⟨st2, ha⟩ := add_code_map_isOk (del_code_map st i)
      { st.codemaps i with jit_addr := 0, jit_len := 0, len := addr - (st.codemaps i).addr }
      (by rw [d2]; omega)
    rw [ha]
    simp only
    obtain ⟨a1, a2, -⟩ := add_code_map_facts _ _ _ ha
    by_cases hr : (addr + len) % ULONG_SIZE <
        ((st.codemaps i).addr + (st.codemaps i).len) % ULONG_SIZE
    · simp only [if_pos hr] at hcap ⊢
      rw [add_code_map_ok_iff, a2, d2]
      omega
    · simp only [if_neg hr]
      rfl
  · simp only [if_neg hl] at hcap ⊢
    by_cases hr : (addr + len) % ULONG_SIZE <
        ((st.codemaps i).addr + (st.codemaps i).len) % ULONG_SIZE
    · simp only [if_pos hr] at hcap ⊢
      rw [add_code_map_ok_iff, d2]
      omega
    · simp only [if_neg hr]
      rfl

theorem length_residuals_of_overlap (addr len : Nat) (m : code_map_t)
    (hov : overlap addr len m.addr m.len = true) :
    (residuals addr len m).length ≤ 1 + (if splits_in_two addr len m then 1 else 0) := by
  rw [length_residuals]
  unfold splits_in_two
  simp only [hov, Bool.true_and, Bool.and_eq_true, decide_eq_true_eq]
  split <;> split <;> simp_all

theorem splits_in_two_residual (addr len : Nat) (m r : code_map_t)
    (hr : r ∈ residuals addr len m) : splits_in_two addr len r = false := by
  simp [splits_in_two, overlap_residual addr len m r hr]

/-- The call `del_code_region` returns when the table has a free slot for every entry that the
range splits in two. -/
theorem del_code_region_returns (st : State) (addr len : Nat)
    (hcap : st.n_codemaps + st.table.countP (splits_in_two addr len) ≤ MAX_CODEMAPS) :
    ∃ st', del_code_region st addr len = Outcome.ok st' := by
  have hstep : ∀ (s : State) (i : Nat) (s1 : State),
      s.n_codemaps + s.table.countP (splits_in_two addr len) ≤ MAX_CODEMAPS →
      i < s.n_codemaps →
      overlap addr len (s.codemaps i).addr (s.codemaps i).len = true →
      del_code_region_body addr len s i = Outcome.ok s1 →
      s1.n_codemaps + s1.table.countP (splits_in_two addr len) ≤ MAX_CODEMAPS := by
    intro s i s1 hs hi hov hb
    obtain ⟨b1, -, -, b4, -⟩ := del_code_region_body_facts addr len s s1 i hi hb
    have hlen : i < s.table.length := by rw [length_table]; exact hi
    have hres : List.countP (splits_in_two addr len) (residuals addr len (s.codemaps i)) = 0 := by
      rw [List.countP_eq_zero]
      intro r hr
      simp [splits_in_two_residual addr len _ r hr]
    have hle := length_residuals_of_overlap addr len (s.codemaps i) hov
    rw [(perm_cons_eraseIdx s.table i hlen).countP_eq, List.countP_cons, getElem_table] at hs
    rw [b1.countP_eq, List.countP_append, hres]
    split at hle <;> rename_i hsp
    · rw [if_pos hsp] at hs; omega
    · rw [if_neg hsp] at hs; omega
  refine del_code_region_isOk addr len
    (fun s : State => s.n_codemaps + s.table.countP (splits_in_two addr len) ≤ MAX_CODEMAPS)
    (fun _ _ hs => hs) hstep ?_ st hcap
  intro s i hs hi hov
  apply del_code_region_body_isOk addr len s i hi
  have hlen : i < s.table.length := by rw [length_table]; exact hi
  have hle := length_residuals_of_overlap addr len (s.codemaps i) hov
  simp only at hs
  rw [(perm_cons_eraseIdx s.table i hlen).countP_eq, List.countP_cons, getElem_table] at hs
  split at hle <;> rename_i hsp
  · rw [if_pos hsp] at hs; omega
  · omega

theorem countP_le_one_of_pairwise {α : Type} (p : α → Bool) (R : α → α → Prop)
    (hpR : ∀ a b, p a = true → p b = true → ¬ R a b) :
    ∀ l : List α, l.Pairwise R → l.countP p ≤ 1 := by
  intro l
  induction l with
  | nil => intro _; simp
  | cons a l ih =>
    intro hl
    rw [List.pairwise_cons] at hl
    rw [List.countP_cons]
    by_cases hpa : p a = true
    · have : l.countP p = 0 := by
        rw [List.countP_eq_zero]
        intro b hb hpb
        exact hpR a b hpa hpb (hl.1 b hb)
      simp [this, hpa]
    · simp only [hpa, Bool.false_eq_true, if_false]
      have := ih hl.2
      omega

/-- In a table of pairwise disjoint ranges at most one entry sticks out on both
sides of a range that does not wrap. -/
theorem countP_splits_in_two_le_one (addr len : Nat) (l : List code_map_t)
    (hwrap : addr + len < ULONG_SIZE) (hl : non_overlapping l) :
    l.countP (splits_in_two addr len) ≤ 1 := by
  apply countP_le_one_of_pairwise _ disjoint_ranges _ l hl
  intro a b ha hb hd
  simp only [splits_in_two, Bool.and_eq_true, decide_eq_true_eq] at ha hb
  have e : (addr + len) % ULONG_SIZE = addr + len := Nat.mod_eq_of_lt hwrap
  rw [e] at ha hb
  have ha2 : (a.addr + a.len) % ULONG_SIZE ≤ a.addr + a.len := Nat.mod_le _ _
  have hb2 : (b.addr + b.len) % ULONG_SIZE ≤ b.addr + b.len := Nat.mod_le _ _
  unfold disjoint_ranges at hd
  omega

/-- The call `del_code_region` returns on a table of pairwise disjoint ranges with a free slot,
for every range that does not wrap. -/
theorem del_code_region_returns_of_room (st : State) (addr len : Nat)
    (hwrap : addr + len < ULONG_SIZE) (hl : non_overlapping st.table)
    (hn : st.n_codemaps < MAX_CODEMAPS) :
    ∃ st', del_code_region st addr len = Outcome.ok st' := by
  apply del_code_region_returns
  have := countP_splits_in_two_le_one addr len st.table hwrap hl
  omega

/-! ## The non-overlap invariant -/

theorem disjoint_ranges_symm {a b : code_map_t} (h : disjoint_ranges a b) :
    disjoint_ranges b a := by
  unfold disjoint_ranges at h ⊢
  omega

/-- A residual of an entry that overlaps the range lies inside that entry and ends
inside the address space. -/
theorem residual_subrange (addr len : Nat) (m r : code_map_t)
    (hov : overlap addr len m.addr m.len = true) (hr : r ∈ residuals addr len m) :
    m.addr ≤ r.addr ∧ r.addr + r.len ≤ m.addr + m.len ∧
      (addr < ULONG_SIZE → r.addr + r.len < ULONG_SIZE) := by
  rw [overlap_eq_true_iff] at hov
  have hm : (m.addr + m.len) % ULONG_SIZE ≤ m.addr + m.len := Nat.mod_le _ _
  have hm2 : (m.addr + m.len) % ULONG_SIZE < ULONG_SIZE := Nat.mod_lt _ (by decide)
  unfold residuals at hr
  rw [List.mem_append] at hr
  rcases hr with hr | hr
  · by_cases h : addr > m.addr
    · rw [if_pos h] at hr
      simp only [List.mem_singleton] at hr
      subst hr
      simp only [left_residual]
      omega
    · rw [if_neg h] at hr; simp at hr
  · by_cases h : (m.addr + m.len) % ULONG_SIZE > (addr + len) % ULONG_SIZE
    · rw [if_pos h] at hr
      simp only [List.mem_singleton] at hr
      subst hr
      simp only [right_residual]
      omega
    · rw [if_neg h] at hr; simp at hr

theorem pairwise_residuals (addr len : Nat) (m : code_map_t) (hwrap : addr + len < ULONG_SIZE) :
    (residuals addr len m).Pairwise disjoint_ranges := by
  have e : (addr + len) % ULONG_SIZE = addr + len := Nat.mod_eq_of_lt hwrap
  unfold residuals
  split <;> split
  · simp only [List.singleton_append, List.pairwise_cons, List.mem_singleton, forall_eq,
      List.not_mem_nil, false_implies, implies_true, List.Pairwise.nil, and_self, and_true]
    unfold disjoint_ranges left_residual right_residual
    simp only
    omega
  · simp
  · simp
  · simp

/-- One pass of the loop body keeps the ranges pairwise disjoint and inside the
address space. -/
theorem del_code_region_body_disjoint (addr len : Nat) (hwrap : addr + len < ULONG_SIZE)
    (st st1 : State) (i : Nat)
    (hinv : non_overlapping st.table ∧ ranges_in_space st.table) (hi : i < st.n_codemaps)
    (hov : overlap addr len (st.codemaps i).addr (st.codemaps i).len = true)
    (hb : del_code_region_body addr len st i = Outcome.ok st1) :
    non_overlapping st1.table ∧ ranges_in_space st1.table := by
  obtain ⟨b1, -⟩ := del_code_region_body_facts addr len st st1 i hi hb
  have hlen : i < st.table.length := by rw [length_table]; exact hi
  have hp := perm_cons_eraseIdx st.table i hlen
  rw [getElem_table] at hp
  obtain ⟨h1, h2⟩ := hinv
  unfold non_overlapping at h1 ⊢
  have h1c := (hp.pairwise_iff (fun h => disjoint_ranges_symm h)).mp h1
  rw [List.pairwise_cons] at h1c
  constructor
  · rw [b1.pairwise_iff (fun h => disjoint_ranges_symm h), List.pairwise_append]
    refine ⟨pairwise_residuals addr len _ hwrap, h1c.2, ?_⟩
    intro r hr b hb
    have hsub := residual_subrange addr len _ r hov hr
    have hd := h1c.1 b hb
    unfold disjoint_ranges at hd ⊢
    omega
  · intro r hr
    rcases List.mem_append.mp (b1.mem_iff.mp hr) with h | h
    · exact (residual_subrange addr len _ r hov h).2.2 (by omega)
    · exact h2 r ((List.eraseIdx_sublist _ _).subset h)

/-- The call `del_code_region` keeps the ranges pairwise disjoint and inside the address
space, for every range that does not wrap. -/
theorem del_code_region_disjoint (st st' : State) (addr len : Nat)
    (hwrap : addr + len < ULONG_SIZE)
    (hinv : non_overlapping st.table ∧ ranges_in_space st.table)
    (h : del_code_region st addr len = Outcome.ok st') :
    non_overlapping st'.table ∧ ranges_in_space st'.table :=
  (del_code_region_inv addr len
    (fun s : State => non_overlapping s.table ∧ ranges_in_space s.table)
    (fun _ _ hs => hs)
    (fun s i s1 hs hi hov hb => del_code_region_body_disjoint addr len hwrap s s1 i hs hi hov hb)
    st st' hinv h).1

/-- Unfolding of `add_code_region` when it returns. -/
theorem add_code_region_ok (st st' : State) (addr len inode dev mtime pgoffset : Nat)
    (h : add_code_region st addr len inode dev mtime pgoffset = Outcome.ok st') :
    ∃ st1 st2, del_code_region st addr len = Outcome.ok st1 ∧
      add_code_map (st1.emit (Event.mutex_lock lock_t.codemap_lock))
        { addr := addr, len := len, jit_addr := 0, jit_len := 0,
          dev := dev, inode := inode, mtime := mtime, pgoffset := pgoffset } = Outcome.ok st2 ∧
      st' = st2.emit (Event.mutex_unlock lock_t.codemap_lock) := by
  unfold add_code_region at h
  cases h1 : del_code_region st addr len with
  | die t => rw [h1] at h; simp at h
  | diverge => rw [h1] at h; simp at h
  | ok st1 =>
    rw [h1] at h
    simp only at h
    cases h2 : add_code_map (st1.emit (Event.mutex_lock lock_t.codemap_lock))
        { addr := addr, len := len, jit_addr := 0, jit_len := 0,
          dev := dev, inode := inode, mtime := mtime, pgoffset := pgoffset } with
    | die t => rw [h2] at h; simp at h
    | diverge => rw [h2] at h; simp at h
    | ok st2 =>
      rw [h2] at h
      simp only [Outcome.ok.injEq] at h
      exact ⟨st1, st2, rfl, h2, h.symm⟩

theorem add_code_region_ne_diverge (st : State) (addr len inode dev mtime pgoffset : Nat) :
    add_code_region st addr len inode dev mtime pgoffset ≠ Outcome.diverge := by
  unfold add_code_region
  cases h1 : del_code_region st addr len with
  | die t => simp
  | diverge => exact absurd h1 (del_code_region_ne_diverge _ _ _)
  | ok st1 =>
    simp only
    cases h2 : add_code_map (st1.emit (Event.mutex_lock lock_t.codemap_lock))
        { addr := addr, len := len, jit_addr := 0, jit_len := 0,
          dev := dev, inode := inode, mtime := mtime, pgoffset := pgoffset } with
    | die t => simp
    | ok st2 => simp
    | diverge =>
      exfalso
      unfold add_code_map at h2
      split at h2 <;> simp at h2

/-- The call `add_code_region` keeps the ranges pairwise disjoint and inside the address
space, for every range that does not wrap. -/
theorem add_code_region_disjoint (st st' : State) (addr len inode dev mtime pgoffset : Nat)
    (hwrap : addr + len < ULONG_SIZE)
    (hinv : non_overlapping st.table ∧ ranges_in_space st.table)
    (h : add_code_region st addr len inode dev mtime pgoffset = Outcome.ok st') :
    non_overlapping st'.table ∧ ranges_in_space st'.table := by
  obtain ⟨st1, st2, h1, h2, rfl⟩ := add_code_region_ok _ _ _ _ _ _ _ _ h
  obtain ⟨d1, d2⟩ := del_code_region_disjoint st st1 addr len hwrap hinv h1
  obtain ⟨-, hno, -⟩ := del_code_region_table st st1 addr len h1
  obtain ⟨-, -, -, -, -, a6, -⟩ := add_code_map_facts _ _ _ h2
  simp only [table_emit] at a6 ⊢
  have e : (addr + len) % ULONG_SIZE = addr + len := Nat.mod_eq_of_lt hwrap
  constructor
  · unfold non_overlapping at d1 ⊢
    rw [a6.pairwise_iff (fun h => disjoint_ranges_symm h), List.pairwise_cons]
    refine ⟨?_, d1⟩
    intro m hm
    have h3 := hno m hm
    have h4 := d2 m hm
    rw [overlap_eq_false_iff, e, Nat.mod_eq_of_lt h4] at h3
    unfold disjoint_ranges
    simp only
    omega
  · intro m hm
    rcases List.mem_cons.mp (a6.mem_iff.mp hm) with h | h
    · rw [h]; exact hwrap
    · exact d2 m h

theorem run_calls_disjoint :
    ∀ (calls : List Call) (st st' : State), (∀ c ∈ calls, c.range_in_space) →
      non_overlapping st.table ∧ ranges_in_space st.table →
      run_calls st calls = Outcome.ok st' →
      non_overlapping st'.table ∧ ranges_in_space st'.table := by
  intro calls
  induction calls with
  | nil =>
    intro st st' _ hinv h
    simp only [run_calls, Outcome.ok.injEq] at h
    rw [← h]; exact hinv
  | cons c cs ih =>
    intro st st' hsp hinv h
    unfold run_calls at h
    cases hc : c.exec st with
    | die t => rw [hc] at h; simp at h
    | diverge => rw [hc] at h; simp at h
    | ok st1 =>
      rw [hc] at h
      simp only at h
      refine ih st1 st' (fun c hc => hsp c (by simp [hc])) ?_ h
      have hcs := hsp c (by simp)
      cases c with
      | add_code_region addr len inode dev mtime pgoffset =>
        exact add_code_region_disjoint st st1 addr len inode dev mtime pgoffset hcs hinv hc
      | del_code_region addr len =>
        exact del_code_region_disjoint st st1 addr len hcs hinv hc

theorem run_calls_ne_diverge :
    ∀ (calls : List Call) (st : State), run_calls st calls ≠ Outcome.diverge := by
  intro calls
  induction calls with
  | nil => intro st; simp [run_calls]
  | cons c cs ih =>
    intro st
    unfold run_calls
    cases hc : c.exec st with
    | die t => simp
    | ok st1 => exact ih st1
    | diverge =>
      exfalso
      cases c with
      | add_code_region addr len inode dev mtime pgoffset =>
        exact add_code_region_ne_diverge _ _ _ _ _ _ _ hc
      | del_code_region addr len => exact del_code_region_ne_diverge _ _ _ hc

theorem pairwise_getElem_table {R : code_map_t → code_map_t → Prop} (st : State)
    (h : st.table.Pairwise R) (i j : Nat) (hij : i < j) (hj : j < st.n_codemaps) :
    R (st.codemaps i) (st.codemaps j) := by
  rw [List.pairwise_iff_getElem] at h
  have := h i j (by rw [length_table]; omega) (by rw [length_table]; omega) hij
  rwa [getElem_table, getElem_table] at this

/-! ## Claims on the invariants of the table -/

/-- C1 (non-overlap invariant).  Start from the empty table and perform any finite
sequence of `add_code_region` and `del_code_region` calls whose ranges do not wrap
around the address space.  If the sequence returns (no capacity abort), any two
distinct live slots have disjoint half-open guest ranges: one ends no later than
the other starts, and `overlap` is false on them. -/
theorem non_overlap_invariant (calls : List Call) (st' : State)
    (hspace : ∀ c ∈ calls, c.range_in_space)
    (hrun : run_calls State.init calls = Outcome.ok st') :
    ∀ i j, i < st'.n_codemaps → j < st'.n_codemaps → i ≠ j →
      disjoint_ranges (st'.codemaps i) (st'.codemaps j) ∧
      overlap (st'.codemaps i).addr (st'.codemaps i).len
        (st'.codemaps j).addr (st'.codemaps j).len = false := by
  have hinit : non_overlapping State.init.table ∧ ranges_in_space State.init.table := by
    constructor
    · simp [non_overlapping, State.table, State.init]
    · intro m hm; simp [State.table, State.init] at hm
  obtain ⟨h1, h2⟩ := run_calls_disjoint calls State.init st' hspace hinit hrun
  have key : ∀ i j, i < st'.n_codemaps → j < st'.n_codemaps → i ≠ j →
      disjoint_ranges (st'.codemaps i) (st'.codemaps j) := by
    intro i j hi hj hij
    rcases Nat.lt_or_gt_of_ne hij with h | h
    · exact pairwise_getElem_table st' h1 i j h hj
    · exact disjoint_ranges_symm (pairwise_getElem_table st' h1 j i h hi)
  intro i j hi hj hij
  refine ⟨key i j hi hj hij, ?_⟩
  have hd := key i j hi hj hij
  have si := h2 _ (mem_table.mpr ⟨i, hi, rfl⟩)
  have sj := h2 _ (mem_table.mpr ⟨j, hj, rfl⟩)
  rw [overlap_eq_false_iff, Nat.mod_eq_of_lt si, Nat.mod_eq_of_lt sj]
  unfold disjoint_ranges at hd
  omega

/-- Witness for C1: after registering `[0x1000, 0x3000)` and unregistering
`[0x1800, 0x2000)` the two live slots are disjoint. -/
theorem non_overlap_invariant_witness :
    disjoint_ranges ((run_calls State.init example_calls).state.codemaps 0)
        ((run_calls State.init example_calls).state.codemaps 1) ∧
      overlap ((run_calls State.init example_calls).state.codemaps 0).addr
        ((run_calls State.init example_calls).state.codemaps 0).len
        ((run_calls State.init example_calls).state.codemaps 1).addr
        ((run_calls State.init example_calls).state.codemaps 1).len = false :=
  non_overlap_invariant example_calls (run_calls State.init example_calls).state
    (by decide) rfl 0 1 (by decide) (by decide) (by decide)

theorem table_del_code_map_sublist (st : State) (i : Nat) :
    (del_code_map st i).table.Sublist st.table := by
  by_cases hi : i < st.n_codemaps
  · rw [table_del_code_map st i hi]
    exact List.eraseIdx_sublist _ _
  · have hcm : ∀ j, (del_code_map st i).codemaps j = st.codemaps j := by
      intro j
      simp only [del_code_map]
      rw [del_code_map_loop_apply _ _ _ _ _ (le_refl _)]
      have : ¬ (i ≤ j ∧ j < st.n_codemaps) := by omega
      rw [if_neg this]
    have hf : (del_code_map st i).codemaps = st.codemaps := funext hcm
    unfold State.table
    rw [hf]
    apply List.Sublist.map
    rw [List.range_sublist]
    simp [del_code_map]

theorem sorted_del_code_region (st st' : State) (addr len : Nat)
    (hs : sorted_by_addr st.table) (h : del_code_region st addr len = Outcome.ok st') :
    sorted_by_addr st'.table :=
  (del_code_region_table st st' addr len h).2.2.1 hs

theorem sorted_add_code_region (st st' : State) (addr len inode dev mtime pgoffset : Nat)
    (hs : sorted_by_addr st.table)
    (h : add_code_region st addr len inode dev mtime pgoffset = Outcome.ok st') :
    sorted_by_addr st'.table := by
  obtain ⟨st1, st2, h1, h2, rfl⟩ := add_code_region_ok _ _ _ _ _ _ _ _ h
  have s1 := sorted_del_code_region st st1 addr len hs h1
  exact (add_code_map_facts _ _ _ h2).2.2.2.2.2.2.2 s1

theorem sorted_run_calls :
    ∀ (calls : List Call) (st st' : State), sorted_by_addr st.table →
      run_calls st calls = Outcome.ok st' → sorted_by_addr st'.table := by
  intro calls
  induction calls with
  | nil =>
    intro st st' hs h
    simp only [run_calls, Outcome.ok.injEq] at h
    rw [← h]; exact hs
  | cons c cs ih =>
    intro st st' hs h
    unfold run_calls at h
    cases hc : c.exec st with
    | die t => rw [hc] at h; simp at h
    | diverge => rw [hc] at h; simp at h
    | ok st1 =>
      rw [hc] at h
      simp only at h
      refine ih st1 st' ?_ h
      cases c with
      | add_code_region addr len inode dev mtime pgoffset =>
        exact sorted_add_code_region st st1 addr len inode dev mtime pgoffset hs hc
      | del_code_region addr len => exact sorted_del_code_region st st1 addr len hs hc

/-- C2 (sort invariant).  A live table sorted ascending by guest start address is
still sorted after `add_code_map`, after `del_code_map`, after `add_code_region` and
after `del_code_region`, whenever these return; hence the table is sorted after
every sequence of `add_code_region` and `del_code_region` calls that starts from the
empty table and returns. -/
theorem sort_invariant :
    (∀ (st st1 : State) (map : code_map_t), sorted_by_addr st.table →
      add_code_map st map = Outcome.ok st1 → sorted_by_addr st1.table) ∧
    (∀ (st : State) (i : Nat), sorted_by_addr st.table →
      sorted_by_addr (del_code_map st i).table) ∧
    (∀ (st st1 : State) (addr len inode dev mtime pgoffset : Nat), sorted_by_addr st.table →
      add_code_region st addr len inode dev mtime pgoffset = Outcome.ok st1 →
      sorted_by_addr st1.table) ∧
    (∀ (st st1 : State) (addr len : Nat), sorted_by_addr st.table →
      del_code_region st addr len = Outcome.ok st1 → sorted_by_addr st1.table) ∧
    (∀ (calls : List Call) (st' : State), run_calls State.init calls = Outcome.ok st' →
      sorted_by_addr st'.table ∧
      ∀ i j, i < j → j < st'.n_codemaps → (st'.codemaps i).addr ≤ (st'.codemaps j).addr) := by
  refine ⟨?_, ?_, ?_, ?_, ?_⟩
  · intro st st1 map hs h
    exact (add_code_map_facts _ _ _ h).2.2.2.2.2.2.2 hs
  · intro st i hs
    exact List.Pairwise.sublist (table_del_code_map_sublist st i) hs
  · intro st st1 addr len inode dev mtime pgoffset hs h
    exact sorted_add_code_region st st1 addr len inode dev mtime pgoffset hs h
  · intro st st1 addr len hs h
    exact sorted_del_code_region st st1 addr len hs h
  · intro calls st' h
    have hs : sorted_by_addr st'.table :=
      sorted_run_calls calls State.init st' (by simp [sorted_by_addr, State.table, State.init]) h
    exact ⟨hs, fun i j hij hj => pairwise_getElem_table st' hs i j hij hj⟩

/-- Witness for C2: the table left by registering `[0x1000, 0x3000)` and unregistering
`[0x1800, 0x2000)` is sorted, the slot 0 starting no later than slot 1. -/
theorem sort_invariant_witness :
    ((run_calls State.init example_calls).state.codemaps 0).addr ≤
      ((run_calls State.init example_calls).state.codemaps 1).addr :=
  (sort_invariant.2.2.2.2 example_calls (run_calls State.init example_calls).state rfl).2
    0 1 (by decide) (by decide)

/-! ## Claims on `del_code_region` -/

/-- The addresses covered by what `del_code_region(addr, len)` leaves of an entry are the
addresses of the entry outside `[addr, addr+len)`. -/
theorem contains_split_entry (addr len : Nat) (m : code_map_t) (x : Nat)
    (hwrap : addr + len < ULONG_SIZE) :
    (∃ r ∈ split_entry addr len m, contains r.addr r.len x = true) ↔
      contains m.addr m.len x = true ∧ ¬ (addr ≤ x ∧ x < addr + len) := by
  have e : (addr + len) % ULONG_SIZE = addr + len := Nat.mod_eq_of_lt hwrap
  have hm2 : (m.addr + m.len) % ULONG_SIZE < ULONG_SIZE := Nat.mod_lt _ (by decide)
  unfold split_entry
  by_cases hov : overlap addr len m.addr m.len = true
  · rw [if_pos hov]
    rw [overlap_eq_true_iff, e] at hov
    unfold residuals
    simp only [gt_iff_lt, e, List.mem_append]
    by_cases hl : m.addr < addr <;>
      by_cases hr : addr + len < (m.addr + m.len) % ULONG_SIZE
    · simp only [if_pos hl, if_pos hr, List.mem_singleton]
      have e1 : (m.addr + (addr - m.addr)) % ULONG_SIZE = addr := by
        rw [show m.addr + (addr - m.addr) = addr by omega]
        exact Nat.mod_eq_of_lt (by omega)
      have e2 : (addr + len + ((m.addr + m.len) % ULONG_SIZE - (addr + len))) % ULONG_SIZE =
          (m.addr + m.len) % ULONG_SIZE := by
        rw [show addr + len + ((m.addr + m.len) % ULONG_SIZE - (addr + len)) =
          (m.addr + m.len) % ULONG_SIZE by omega]
        exact Nat.mod_eq_of_lt hm2
      constructor
      · rintro ⟨r, hr1 | hr1, hc⟩
        · subst hr1
          simp only [left_residual, contains_eq_true_iff, e1] at hc
          rw [contains_eq_true_iff]
          omega
        · subst hr1
          simp only [right_residual, contains_eq_true_iff, e, e2] at hc
          rw [contains_eq_true_iff]
          omega
      · rintro ⟨hc, hx⟩
        rw [contains_eq_true_iff] at hc
        by_cases hxa : x < addr
        · refine ⟨left_residual addr m, Or.inl rfl, ?_⟩
          simp only [left_residual, contains_eq_true_iff, e1]
          omega
        · refine ⟨right_residual addr len m, Or.inr rfl, ?_⟩
          simp only [right_residual, contains_eq_true_iff, e, e2]
          omega
    · simp only [if_pos hl, if_neg hr, List.mem_singleton, List.not_mem_nil, or_false]
      have e1 : (m.addr + (addr - m.addr)) % ULONG_SIZE = addr := by
        rw [show m.addr + (addr - m.addr) = addr by omega]
        exact Nat.mod_eq_of_lt (by omega)
      constructor
      · rintro ⟨r, hr1, hc⟩
        subst hr1
        simp only [left_residual, contains_eq_true_iff, e1] at hc
        rw [contains_eq_true_iff]
        omega
      · rintro ⟨hc, hx⟩
        rw [contains_eq_true_iff] at hc
        refine ⟨left_residual addr m, rfl, ?_⟩
        simp only [left_residual, contains_eq_true_iff, e1]
        omega
    · simp only [if_neg hl, if_pos hr, List.mem_singleton, List.not_mem_nil, false_or]
      have e2 : (addr + len + ((m.addr + m.len) % ULONG_SIZE - (addr + len))) % ULONG_SIZE =
          (m.addr + m.len) % ULONG_SIZE := by
        rw [show addr + len + ((m.addr + m.len) % ULONG_SIZE - (addr + len)) =
          (m.addr + m.len) % ULONG_SIZE by omega]
        exact Nat.mod_eq_of_lt hm2
      constructor
      · rintro ⟨r, hr1, hc⟩
        subst hr1
        simp only [right_residual, contains_eq_true_iff, e, e2] at hc
        rw [contains_eq_true_iff]
        omega
      · rintro ⟨hc, hx⟩
        rw [contains_eq_true_iff] at hc
        refine ⟨right_residual addr len m, rfl, ?_⟩
        simp only [right_residual, contains_eq_true_iff, e, e2]
        omega
    · simp only [if_neg hl, if_neg hr, List.not_mem_nil, or_false, false_and, exists_false,
        false_iff, not_and, not_not]
      intro hc
      rw [contains_eq_true_iff] at hc
      omega
  · rw [if_neg hov]
    simp only [Bool.not_eq_true] at hov
    rw [overlap_eq_false_iff, e] at hov
    simp only [List.mem_singleton, exists_eq_left, contains_eq_true_iff]
    omega

/-- C3 (unregister removes exactly the requested range).  On a table of pairwise
disjoint ranges with room for one more entry, and for a range `[addr, addr+len)`
that does not wrap, `del_code_region(addr, len)` returns; afterwards no live slot
overlaps the range, and an address is contained in some live slot exactly when
it was contained in some live slot before and does not lie in `[addr, addr+len)`.
Nothing is assumed on how many entries the range spans, nor on the order of the
table. -/
theorem unregister_removes_range (st : State) (addr len : Nat)
    (hwrap : addr + len < ULONG_SIZE) (hdisj : non_overlapping st.table)
    (hroom : st.n_codemaps < MAX_CODEMAPS) :
    ∃ st', del_code_region st addr len = Outcome.ok st' ∧
      (∀ j, j < st'.n_codemaps →
        overlap addr len (st'.codemaps j).addr (st'.codemaps j).len = false) ∧
      ∀ x, (∃ j, j < st'.n_codemaps ∧
              contains (st'.codemaps j).addr (st'.codemaps j).len x = true) ↔
           ((∃ j, j < st.n_codemaps ∧
              contains (st.codemaps j).addr (st.codemaps j).len x = true) ∧
            ¬ (addr ≤ x ∧ x < addr + len)) := by
  obtain ⟨st', h⟩ := del_code_region_returns_of_room st addr len hwrap hdisj hroom
  obtain ⟨hperm, hno, -⟩ := del_code_region_table st st' addr len h
  refine ⟨st', h, fun j hj => hno _ (mem_table.mpr ⟨j, hj, rfl⟩), ?_⟩
  intro x
  constructor
  · rintro ⟨j, hj, hc⟩
    have hmem : st'.codemaps j ∈ st.table.flatMap (split_entry addr len) :=
      hperm.mem_iff.mp (mem_table.mpr ⟨j, hj, rfl⟩)
    rw [List.mem_flatMap] at hmem
    obtain ⟨m, hm, hr⟩ := hmem
    have := (contains_split_entry addr len m x hwrap).mp ⟨_, hr, hc⟩
    obtain ⟨k, hk, rfl⟩ := mem_table.mp hm
    exact ⟨⟨k, hk, this.1⟩, this.2⟩
  · rintro ⟨⟨k, hk, hc⟩, hx⟩
    obtain ⟨r, hr, hrc⟩ := (contains_split_entry addr len (st.codemaps k) x hwrap).mpr ⟨hc, hx⟩
    have hmem : r ∈ st'.table := by
      rw [hperm.mem_iff, List.mem_flatMap]
      exact ⟨_, mem_table.mpr ⟨k, hk, rfl⟩, hr⟩
    obtain ⟨j, hj, rfl⟩ := mem_table.mp hmem
    exact ⟨j, hj, hrc⟩

theorem flatMap_perm_eraseIdx {α β : Type} (f : α → List β) (l : List α) (i : Nat)
    (h : i < l.length) : (l.flatMap f).Perm (f l[i] ++ (l.eraseIdx i).flatMap f) := by
  have := List.Perm.flatMap_right f (perm_cons_eraseIdx l i h)
  rwa [List.flatMap_cons] at this

/-- What `split_entry` makes of a region `[a, d)` when `[b, e)` lies strictly inside. -/
theorem split_entry_strictly_inside (m : code_map_t) (a b e d : Nat)
    (ha : m.addr = a) (hl : m.len = d - a) (hab : a < b) (hbe : b < e) (hed : e < d)
    (hd : d < ULONG_SIZE) :
    split_entry b (e - b) m =
      [{ m with jit_addr := 0, jit_len := 0, len := b - a },
       { m with
          jit_addr := 0, jit_len := 0, addr := e, len := d - e,
          pgoffset := (m.pgoffset + (e - a) / 4096) % ULONG_SIZE }] := by
  subst ha
  have e1 : (b + (e - b)) % ULONG_SIZE = e := by
    rw [show b + (e - b) = e by omega]; exact Nat.mod_eq_of_lt (by omega)
  have e2 : (m.addr + m.len) % ULONG_SIZE = d := by
    rw [hl, show m.addr + (d - m.addr) = d by omega]; exact Nat.mod_eq_of_lt hd
  have e3 : (e + ULONG_SIZE - m.addr) % ULONG_SIZE = e - m.addr := by
    rw [show e + ULONG_SIZE - m.addr = (e - m.addr) + ULONG_SIZE by omega, Nat.add_mod_right]
    exact Nat.mod_eq_of_lt (by omega)
  have hov : overlap b (e - b) m.addr m.len = true := by
    rw [overlap_eq_true_iff, e1, e2]; omega
  unfold split_entry
  rw [if_pos hov]
  unfold residuals left_residual right_residual
  simp only [e1, e2, gt_iff_lt, hab, hed, if_true, e3]
  rfl

/-- In a table of pairwise disjoint ranges, a range inside the region of slot `k`
overlaps no other slot. -/
theorem split_entry_others (st : State) (k a b e d : Nat) (hk : k < st.n_codemaps)
    (ha : (st.codemaps k).addr = a) (hl : (st.codemaps k).len = d - a)
    (hab : a < b) (hbe : b < e) (hed : e < d) (hd : d < ULONG_SIZE)
    (hdisj : non_overlapping st.table) :
    (st.table.eraseIdx k).flatMap (split_entry b (e - b)) = st.table.eraseIdx k := by
  apply flatMap_split_entry_eq_self
  intro m hm
  have hlen : k < st.table.length := by rw [length_table]; exact hk
  have hp := (perm_cons_eraseIdx st.table k hlen).pairwise_iff
    (fun h => disjoint_ranges_symm h) |>.mp hdisj
  rw [List.pairwise_cons, getElem_table] at hp
  have hdm := hp.1 m hm
  have e1 : (b + (e - b)) % ULONG_SIZE = e := by
    rw [show b + (e - b) = e by omega]; exact Nat.mod_eq_of_lt (by omega)
  have hm2 : (m.addr + m.len) % ULONG_SIZE ≤ m.addr + m.len := Nat.mod_le _ _
  rw [overlap_eq_false_iff, e1]
  unfold disjoint_ranges at hdm
  rw [ha, hl] at hdm
  omega

/-- C4 (split correctness), amended for the capacity abort and for a region that ends
at the top of the address space.  Let slot `k` hold a region `[a, d)` that ends
inside the 32-bit address space (`d < 2^32`, so that `addr + len` does not wrap) and
let `a < b < e < d`.  Whenever `del_code_region(b, e-b)` returns,
the new table is, up to order, the old one with slot `k` replaced by exactly the
two residuals `[a, b)` and `[e, d)`, both with `jit_addr = NULL`, `jit_len = 0`
and the `dev`, `inode` and `mtime` of the region, the left one with its
`pgoffset`, the right one with `pgoffset + (e-a)/4096` (an `unsigned long` sum),
and with every other entry replaced by its own `split_entry`; when the ranges
of the table are pairwise disjoint every other entry is unchanged.  The call
does return when the ranges are pairwise disjoint and a slot is free. -/
theorem split_correctness (st : State) (k a b e d : Nat) (hk : k < st.n_codemaps)
    (ha : (st.codemaps k).addr = a) (hl : (st.codemaps k).len = d - a)
    (hab : a < b) (hbe : b < e) (hed : e < d) (hd : d < ULONG_SIZE) :
    (∀ st', del_code_region st b (e - b) = Outcome.ok st' →
      st'.table.Perm
        ({ st.codemaps k with jit_addr := 0, jit_len := 0, len := b - a } ::
         { st.codemaps k with
            jit_addr := 0, jit_len := 0, addr := e, len := d - e,
            pgoffset := ((st.codemaps k).pgoffset + (e - a) / 4096) % ULONG_SIZE } ::
         (st.table.eraseIdx k).flatMap (split_entry b (e - b))) ∧
      (non_overlapping st.table →
        st'.table.Perm
          ({ st.codemaps k with jit_addr := 0, jit_len := 0, len := b - a } ::
           { st.codemaps k with
              jit_addr := 0, jit_len := 0, addr := e, len := d - e,
              pgoffset := ((st.codemaps k).pgoffset + (e - a) / 4096) % ULONG_SIZE } ::
           st.table.eraseIdx k))) ∧
    (non_overlapping st.table → st.n_codemaps < MAX_CODEMAPS →
      ∃ st', del_code_region st b (e - b) = Outcome.ok st') := by
  have hlen : k < st.table.length := by rw [length_table]; exact hk
  have hsp := split_entry_strictly_inside (st.codemaps k) a b e d ha hl hab hbe hed hd
  constructor
  · intro st' h
    obtain ⟨hperm, -⟩ := del_code_region_table st st' (b) (e - b) h
    have h1 := hperm.trans (flatMap_perm_eraseIdx (split_entry b (e - b)) st.table k hlen)
    rw [getElem_table, hsp] at h1
    refine ⟨h1, ?_⟩
    intro hdisj
    rw [split_entry_others st k a b e d hk ha hl hab hbe hed hd hdisj] at h1
    exact h1
  · intro hdisj hroom
    exact del_code_region_returns_of_room st b (e - b) (by omega) hdisj hroom

theorem del_code_region_fuel_pos (n : Nat) : 0 < del_code_region_fuel n := by
  unfold del_code_region_fuel
  positivity

/-- One pass of the loop body ends in `die` on a full table when the deleted entry
has a residual on both sides. -/
theorem del_code_region_body_dies (addr len : Nat) (st : State) (i : Nat)
    (hi : i < st.n_codemaps) (hn : MAX_CODEMAPS ≤ st.n_codemaps)
    (hl : (st.codemaps i).addr < addr)
    (hr : (addr + len) % ULONG_SIZE < ((st.codemaps i).addr + (st.codemaps i).len) % ULONG_SIZE) :
    (del_code_region_body addr len st i).isDie = true := by
  unfold del_code_region_body
  simp only [gt_iff_lt, if_pos hl, if_pos hr]
  cases ha : add_code_map (del_code_map st i)
      { st.codemaps i with jit_addr := 0, jit_len := 0, len := addr - (st.codemaps i).addr } with
  | die t => rfl
  | diverge =>
    exfalso
    unfold add_code_map at ha
    split at ha <;> simp at ha
  | ok st2 =>
    simp only
    obtain ⟨-, a2, -⟩ := add_code_map_facts _ _ _ ha
    have d2 : (del_code_map st i).n_codemaps = st.n_codemaps - 1 := rfl
    unfold add_code_map
    rw [if_pos (by omega)]
    rfl

/-- On a full table whose last entry sticks out on both sides of the range,
`del_code_region` ends in `die`. -/
theorem del_code_region_dies (st : State) (addr len : Nat)
    (hn : st.n_codemaps = MAX_CODEMAPS)
    (hs : splits_in_two addr len (st.codemaps (MAX_CODEMAPS - 1)) = true) :
    (del_code_region st addr len).isDie = true := by
  simp only [splits_in_two, Bool.and_eq_true, decide_eq_true_eq] at hs
  obtain ⟨⟨hov, hl⟩, hr⟩ := hs
  unfold del_code_region
  simp only [n_codemaps_emit]
  obtain ⟨f, hf⟩ := Nat.exists_eq_succ_of_ne_zero
    (Nat.pos_iff_ne_zero.mp (del_code_region_fuel_pos st.n_codemaps))
  rw [hf, Nat.succ_eq_add_one]
  unfold del_code_region_loop
  have hi : (0 : Int) ≤ (st.n_codemaps : Int) - 1 := by rw [hn]; decide
  have hidx : ((st.n_codemaps : Int) - 1).toNat = MAX_CODEMAPS - 1 := by rw [hn]; decide
  rw [if_pos hi, hidx]
  simp only [codemaps_emit]
  rw [if_neg (by rw [hov]; simp)]
  have hb := del_code_region_body_dies addr len
    ((st.emit (Event.mutex_lock lock_t.jit_lock)).emit (Event.mutex_lock lock_t.codemap_lock))
    (MAX_CODEMAPS - 1) (by simp [hn]) (by simp [hn]) hl hr
  cases hc : del_code_region_body addr len
    ((st.emit (Event.mutex_lock lock_t.jit_lock)).emit (Event.mutex_lock lock_t.codemap_lock))
    (MAX_CODEMAPS - 1) with
  | die t => rfl
  | ok s => rw [hc] at hb; simp [Outcome.isDie] at hb
  | diverge => rw [hc] at hb; simp [Outcome.isDie] at hb

/-- Counterexample to C4 as stated, in two parts.  In the full table the last slot
holds the region `[0x80000000, 0x80003000)`, and `del_code_region(0x80001000, 0x1000)`,
whose range lies strictly inside, ends in `die` and replaces nothing.  In the table
`top_region`, whose only region `[0xFFFFE000, 2^32)` ends at the top of the address
space, `del_code_region(0xFFFFE800, 0x800)`, whose range lies strictly inside, returns
and leaves the table as it was: the end `addr + len` of the region wraps to 0 and the
region is not seen to overlap. -/
theorem split_correctness_counterexample :
    (full_table.n_codemaps = MAX_CODEMAPS ∧
      (full_table.codemaps 32767).addr = 2147483648 ∧
      (full_table.codemaps 32767).len = 12288 ∧
      (del_code_region full_table 2147487744 4096).isDie = true) ∧
    (top_region.n_codemaps = 1 ∧ non_overlapping top_region.table ∧
      (top_region.codemaps 0).addr = 4294959104 ∧
      (top_region.codemaps 0).addr + (top_region.codemaps 0).len = 4294967296 ∧
      (del_code_region top_region 4294961152 2048).table? = some top_region.table) :=
  ⟨⟨rfl, by decide, by decide, del_code_region_dies full_table 2147487744 4096 rfl (by decide)⟩,
   ⟨by decide, by decide, by decide, by decide, by decide⟩⟩

/-- Witness for C4, the example of the specification: registering `[0x1000, 0x3000)`
and unregistering `[0x1800, 0x2000)` leaves exactly `[0x1000, 0x1800)` and
`[0x2000, 0x3000)`, neither with translated code. -/
theorem split_correctness_witness :
    (run_calls State.init example_calls).table? =
      some [{ addr := 4096, len := 2048, jit_addr := 0, jit_len := 0,
              inode := 7, dev := 8, mtime := 9, pgoffset := 3 },
            { addr := 8192, len := 4096, jit_addr := 0, jit_len := 0,
              inode := 7, dev := 8, mtime := 9, pgoffset := 4 }] ∧
    (del_code_region registered_once 6144 (8192 - 6144)).state.table.Perm
      ({ registered_once.codemaps 0 with jit_addr := 0, jit_len := 0, len := 6144 - 4096 } ::
       { registered_once.codemaps 0 with
          jit_addr := 0, jit_len := 0, addr := 8192, len := 12288 - 8192,
          pgoffset := ((registered_once.codemaps 0).pgoffset + (8192 - 4096) / 4096)
            % ULONG_SIZE } ::
       registered_once.table.eraseIdx 0) :=
  ⟨by decide,
   ((split_correctness registered_once 0 4096 6144 8192 12288 (by decide) (by decide)
      (by decide) (by decide) (by decide) (by decide) (by decide)).1 _ rfl).2 (by decide)⟩

/-- Witness for C3: unregistering `[0x2000, 0x4800)`, which spans both regions of
`two_regions`, returns and leaves `[0x1000, 0x2000)` and `[0x4800, 0x5000)`. -/
theorem unregister_removes_range_witness :
    (del_code_region two_regions 8192 10240).table? =
      some [{ addr := 4096, len := 4096, jit_addr := 0, jit_len := 0,
              inode := 7, dev := 8, mtime := 9, pgoffset := 3 },
            { addr := 18432, len := 2048, jit_addr := 0, jit_len := 0,
              inode := 0, dev := 0, mtime := 0, pgoffset := 0 }] ∧
    ∃ st', del_code_region two_regions 8192 10240 = Outcome.ok st' ∧
      (∀ j, j < st'.n_codemaps →
        overlap 8192 10240 (st'.codemaps j).addr (st'.codemaps j).len = false) ∧
      ∀ x, (∃ j, j < st'.n_codemaps ∧
              contains (st'.codemaps j).addr (st'.codemaps j).len x = true) ↔
           ((∃ j, j < two_regions.n_codemaps ∧
              contains (two_regions.codemaps j).addr (two_regions.codemaps j).len x = true) ∧
            ¬ (8192 ≤ x ∧ x < 8192 + 10240)) :=
  ⟨by decide, unregister_removes_range two_regions 8192 10240 (by decide) (by decide) (by decide)⟩

/-! ## Lookup -/

theorem find_loop_some (key : code_map_t → Nat × Nat) (cm : Nat → code_map_t) (n target : Nat) :
    ∀ (k i j : Nat), find_loop key cm n target k i = some j →
      i ≤ j ∧ j < n ∧ contains (key (cm j)).1 (key (cm j)).2 target = true ∧
      ∀ j', i ≤ j' → j' < j → contains (key (cm j')).1 (key (cm j')).2 target = false := by
  intro k
  induction k with
  | zero => intro i j h; simp [find_loop] at h
  | succ k ih =>
    intro i j h
    unfold find_loop at h
    by_cases hin : i < n
    · rw [if_pos hin] at h
      by_cases hc : contains (key (cm i)).1 (key (cm i)).2 target = true
      · rw [if_pos hc] at h
        simp only [Option.some.injEq] at h
        subst h
        exact ⟨le_refl _, hin, hc, fun j' h1 h2 => by omega⟩
      · rw [if_neg hc] at h
        obtain ⟨h1, h2, h3, h4⟩ := ih (i + 1) j h
        refine ⟨by omega, h2, h3, ?_⟩
        intro j' hj1 hj2
        by_cases hji : j' = i
        · subst hji; simpa using hc
        · exact h4 j' (by omega) hj2
    · rw [if_neg hin] at h
      simp at h

theorem find_loop_none (key : code_map_t → Nat × Nat) (cm : Nat → code_map_t) (n target : Nat) :
    ∀ (k i : Nat), n - i ≤ k → find_loop key cm n target k i = none →
      ∀ j, i ≤ j → j < n → contains (key (cm j)).1 (key (cm j)).2 target = false := by
  intro k
  induction k with
  | zero => intro i hk _ j h1 h2; omega
  | succ k ih =>
    intro i hk h j h1 h2
    unfold find_loop at h
    by_cases hin : i < n
    · rw [if_pos hin] at h
      by_cases hc : contains (key (cm i)).1 (key (cm i)).2 target = true
      · rw [if_pos hc] at h; simp at h
      · rw [if_neg hc] at h
        by_cases hji : j = i
        · subst hji; simpa using hc
        · exact ih (i + 1) (by omega) h j (by omega) h2
    · omega

/-- The lookup `find_code_map` returns the first live slot whose guest range contains the
address, and NULL when there is none. -/
theorem find_code_map_spec (st : State) (x : Nat) :
    (∀ j, (find_code_map st x).1 = some j →
      j < st.n_codemaps ∧ contains (st.codemaps j).addr (st.codemaps j).len x = true ∧
      ∀ j', j' < j → contains (st.codemaps j').addr (st.codemaps j').len x = false) ∧
    ((find_code_map st x).1 = none →
      ∀ j, j < st.n_codemaps → contains (st.codemaps j).addr (st.codemaps j).len x = false) := by
  constructor
  · intro j h
    obtain ⟨-, h2, h3, h4⟩ := find_loop_some _ _ _ _ _ _ _ h
    exact ⟨h2, h3, fun j' hj => h4 j' (Nat.zero_le _) hj⟩
  · intro h j hj
    exact find_loop_none _ _ _ _ _ _ (by omega) h j (Nat.zero_le _) hj

theorem overlap_of_contains (addr len : Nat) (m : code_map_t) (hwrap : addr + len < ULONG_SIZE)
    (hlen : 0 < len) (hc : contains m.addr m.len addr = true) :
    overlap addr len m.addr m.len = true := by
  rw [contains_eq_true_iff] at hc
  rw [overlap_eq_true_iff, Nat.mod_eq_of_lt hwrap]
  omega

theorem del_code_region_body_count (addr len : Nat) (s s1 : State) (i : Nat)
    (hi : i < s.n_codemaps)
    (hov : overlap addr len (s.codemaps i).addr (s.codemaps i).len = true)
    (hb : del_code_region_body addr len s i = Outcome.ok s1) :
    s1.n_codemaps + s1.table.countP (splits_in_two addr len) ≤
      s.n_codemaps + s.table.countP (splits_in_two addr len) := by
  obtain ⟨b1, -, -, b4, -⟩ := del_code_region_body_facts addr len s s1 i hi hb
  have hlen : i < s.table.length := by rw [length_table]; exact hi
  have hres : List.countP (splits_in_two addr len) (residuals addr len (s.codemaps i)) = 0 := by
    rw [List.countP_eq_zero]
    intro r hr
    simp [splits_in_two_residual addr len _ r hr]
  have hle := length_residuals_of_overlap addr len (s.codemaps i) hov
  rw [(perm_cons_eraseIdx s.table i hlen).countP_eq (splits_in_two addr len), List.countP_cons,
    getElem_table, b1.countP_eq, List.countP_append, hres]
  split at hle <;> rename_i hsp
  · rw [if_pos hsp]; omega
  · rw [if_neg hsp]; omega

/-- The call `del_code_region` adds at most one entry for each entry that the range splits in
two. -/
theorem del_code_region_count (st st' : State) (addr len : Nat)
    (h : del_code_region st addr len = Outcome.ok st') :
    st'.n_codemaps + st'.table.countP (splits_in_two addr len) ≤
      st.n_codemaps + st.table.countP (splits_in_two addr len) :=
  (del_code_region_inv addr len
    (fun s : State => s.n_codemaps + s.table.countP (splits_in_two addr len) ≤
      st.n_codemaps + st.table.countP (splits_in_two addr len))
    (fun _ _ hs => hs)
    (fun s i s1 hs hi hov hb =>
      le_trans (del_code_region_body_count addr len s s1 i hi hov hb) hs)
    st st' (le_refl _) h).1

/-- After `add_code_region(addr, len, ...)` has returned, for `len > 0` and `addr + len`
not wrapping, `find_code_map(addr)` returns a slot that holds the new region, whatever
the table was. -/
theorem find_code_map_add_code_region (st st' : State) (addr len inode dev mtime pgoffset : Nat)
    (hwrap : addr + len < ULONG_SIZE) (hlen : 0 < len)
    (h : add_code_region st addr len inode dev mtime pgoffset = Outcome.ok st') :
    ∃ k, (find_code_map st' addr).1 = some k ∧
      st'.codemaps k = { addr := addr, len := len, jit_addr := 0, jit_len := 0,
                         inode := inode, dev := dev, mtime := mtime, pgoffset := pgoffset } := by
  obtain ⟨st1, st2, h1, h2, h3⟩ := add_code_region_ok _ _ _ _ _ _ _ _ h
  obtain ⟨-, hno, -⟩ := del_code_region_table st st1 addr len h1
  obtain ⟨-, -, -, -, -, a6, -⟩ := add_code_map_facts _ _ _ h2
  simp only [table_emit] at a6
  subst h3
  have hmem := a6.mem_iff.mpr (List.mem_cons_self _ _)
  obtain ⟨p, hp, hpe⟩ := mem_table.mp hmem
  obtain ⟨s1, s2⟩ := find_code_map_spec (st2.emit (Event.mutex_unlock lock_t.codemap_lock)) addr
  simp only [n_codemaps_emit, codemaps_emit] at s1 s2
  cases hf : (find_code_map (st2.emit (Event.mutex_unlock lock_t.codemap_lock)) addr).1 with
  | none =>
    exfalso
    have := s2 hf p hp
    rw [hpe, ← Bool.not_eq_true, contains_eq_true_iff, Nat.mod_eq_of_lt hwrap] at this
    simp only at this
    omega
  | some k =>
    refine ⟨k, rfl, ?_⟩
    obtain ⟨k1, k2, -⟩ := s1 k hf
    simp only [codemaps_emit]
    have hk : st2.codemaps k ∈ st2.table := mem_table.mpr ⟨k, k1, rfl⟩
    rcases List.mem_cons.mp (a6.mem_iff.mp hk) with h | h
    · exact h
    · exfalso
      have h3 := hno _ h
      rw [overlap_of_contains addr len _ hwrap hlen k2] at h3
      simp at h3

/-- The call `add_code_region(addr, len, ...)` returns when `n_codemaps` plus the number of
entries that stick out of the range on both sides is below `MAX_CODEMAPS`. -/
theorem add_code_region_returns_of_count (st : State) (addr len inode dev mtime pgoffset : Nat)
    (hroom : st.n_codemaps + st.table.countP (splits_in_two addr len) < MAX_CODEMAPS) :
    ∃ st', add_code_region st addr len inode dev mtime pgoffset = Outcome.ok st' := by
  obtain ⟨st1, h1⟩ := del_code_region_returns st addr len (by omega)
  have hcnt := del_code_region_count st st1 addr len h1
  obtain ⟨st2, h2⟩ := add_code_map_isOk (st1.emit (Event.mutex_lock lock_t.codemap_lock))
    { addr := addr, len := len, jit_addr := 0, jit_len := 0,
      inode := inode, dev := dev, mtime := mtime, pgoffset := pgoffset }
    (by simp only [n_codemaps_emit]; omega)
  refine ⟨st2.emit (Event.mutex_unlock lock_t.codemap_lock), ?_⟩
  unfold add_code_region
  rw [h1]
  simp only
  rw [h2]

/-- C5 (round trip), amended for the capacity abort.  For every table, sorted and
non-overlapping or not, and every `len > 0` with `addr + len` not wrapping: the call
`add_code_region(addr, len, inode, dev, mtime, pgoffset)` returns or ends in `die`;
whenever it returns, `find_code_map(addr)` right after it returns a slot that holds
the guest range `[addr, addr+len)`, `jit_addr = NULL`, `jit_len = 0` and the given
`inode`, `dev`, `mtime` and `pgoffset`.  The call returns when `n_codemaps` plus the
number of entries that stick out of the range on both sides is below
`MAX_CODEMAPS`: with one free slot when no entry sticks out on both sides, and with
two free slots on every table of pairwise disjoint ranges. -/
theorem register_then_find (st : State) (addr len inode dev mtime pgoffset : Nat)
    (hwrap : addr + len < ULONG_SIZE) (hlen : 0 < len) :
    add_code_region st addr len inode dev mtime pgoffset ≠ Outcome.diverge ∧
    (∀ st', add_code_region st addr len inode dev mtime pgoffset = Outcome.ok st' →
      ∃ k, (find_code_map st' addr).1 = some k ∧
        st'.codemaps k = { addr := addr, len := len, jit_addr := 0, jit_len := 0,
                           inode := inode, dev := dev, mtime := mtime, pgoffset := pgoffset }) ∧
    (st.n_codemaps + st.table.countP (splits_in_two addr len) < MAX_CODEMAPS →
      ∃ st', add_code_region st addr len inode dev mtime pgoffset = Outcome.ok st') ∧
    (st.n_codemaps < MAX_CODEMAPS → (∀ m ∈ st.table, splits_in_two addr len m = false) →
      ∃ st', add_code_region st addr len inode dev mtime pgoffset = Outcome.ok st') ∧
    (non_overlapping st.table → st.n_codemaps + 2 ≤ MAX_CODEMAPS →
      ∃ st', add_code_region st addr len inode dev mtime pgoffset = Outcome.ok st') := by
  refine ⟨add_code_region_ne_diverge _ _ _ _ _ _ _,
    fun st' h => find_code_map_add_code_region st st' addr len inode dev mtime pgoffset hwrap hlen h,
    fun hroom => add_code_region_returns_of_count st addr len inode dev mtime pgoffset hroom,
    ?_, ?_⟩
  · intro hn hns
    apply add_code_region_returns_of_count
    have : st.table.countP (splits_in_two addr len) = 0 := by
      rw [List.countP_eq_zero]
      intro m hm
      simp [hns m hm]
    omega
  · intro hdisj hroom
    apply add_code_region_returns_of_count
    have hone := countP_splits_in_two_le_one addr len st.table hwrap hdisj
    omega

/-- Witness for C5: registering `[0x2000, 0x3000)` over `two_regions` returns, and looking
up `0x2000` finds the new region. -/
theorem register_then_find_witness :
    (∃ st', add_code_region two_regions 8192 4096 1 2 3 4 = Outcome.ok st') ∧
    ∀ st', add_code_region two_regions 8192 4096 1 2 3 4 = Outcome.ok st' →
      ∃ k, (find_code_map st' 8192).1 = some k ∧
        st'.codemaps k = { addr := 8192, len := 4096, jit_addr := 0, jit_len := 0,
                           inode := 1, dev := 2, mtime := 3, pgoffset := 4 } :=
  ⟨(register_then_find two_regions 8192 4096 1 2 3 4 (by decide) (by decide)).2.2.2.2
      (by decide) (by decide),
   (register_then_find two_regions 8192 4096 1 2 3 4 (by decide) (by decide)).2.1⟩

theorem add_code_region_dies_of_full (st st1 : State) (addr len inode dev mtime pgoffset : Nat)
    (h1 : del_code_region st addr len = Outcome.ok st1)
    (hfull : MAX_CODEMAPS ≤ st1.n_codemaps) :
    (add_code_region st addr len inode dev mtime pgoffset).isDie = true := by
  unfold add_code_region
  rw [h1]
  simp only
  unfold add_code_map
  rw [if_pos (by simpa using hfull)]
  rfl

theorem codemaps_nearly_full_table (j : Nat) :
    nearly_full_table.codemaps j =
      { addr := 65536 * (j + 1), len := 12288, jit_addr := 0, jit_len := 0,
        inode := 0, dev := 0, mtime := 0, pgoffset := 0 } := rfl

theorem pairwise_nearly_full_table (R : code_map_t → code_map_t → Prop)
    (h : ∀ i j : Nat, i < j → j < MAX_CODEMAPS - 1 →
      R (nearly_full_table.codemaps i) (nearly_full_table.codemaps j)) :
    nearly_full_table.table.Pairwise R := by
  rw [List.pairwise_iff_getElem]
  intro i j hi hj hij
  rw [getElem_table, getElem_table]
  rw [length_table] at hj
  exact h i j hij hj

theorem non_overlapping_nearly_full_table : non_overlapping nearly_full_table.table := by
  apply pairwise_nearly_full_table
  intro i j hij hj
  simp only [codemaps_nearly_full_table, disjoint_ranges]
  omega

theorem sorted_nearly_full_table : sorted_by_addr nearly_full_table.table := by
  apply pairwise_nearly_full_table
  intro i j hij hj
  simp only [codemaps_nearly_full_table]
  omega

/-- The number of entries that `del_code_region` leaves when only the last entry overlaps
the range. -/
theorem length_flatMap_split_last (st : State) (addr len : Nat) (hn : 0 < st.n_codemaps)
    (hothers : ∀ j, j + 1 < st.n_codemaps →
      overlap addr len (st.codemaps j).addr (st.codemaps j).len = false) :
    (st.table.flatMap (split_entry addr len)).length =
      st.n_codemaps - 1 + (split_entry addr len (st.codemaps (st.n_codemaps - 1))).length := by
  obtain ⟨k, hk⟩ := Nat.exists_eq_succ_of_ne_zero (Nat.pos_iff_ne_zero.mp hn)
  unfold State.table
  rw [hk, Nat.succ_eq_add_one] at hothers ⊢
  rw [List.range_succ, List.map_append, List.flatMap_append, List.length_append,
    flatMap_split_entry_eq_self addr len _ (by
      intro m hm
      simp only [List.mem_map, List.mem_range] at hm
      obtain ⟨j, hj, rfl⟩ := hm
      exact hothers j (by omega))]
  simp

/-- Counterexample to C5 as stated: the table `nearly_full_table` is sorted, its ranges
are pairwise disjoint and it is below capacity, yet registering
`[0x7FFF1000, 0x7FFF2000)`, strictly inside its last region, ends in `die`: the split
takes the free slot and the insertion finds the table full. -/
theorem register_then_find_counterexample :
    nearly_full_table.n_codemaps < MAX_CODEMAPS ∧
    sorted_by_addr nearly_full_table.table ∧
    non_overlapping nearly_full_table.table ∧
    (add_code_region nearly_full_table 2147422208 4096 0 0 0 0).isDie = true := by
  refine ⟨by decide, sorted_nearly_full_table, non_overlapping_nearly_full_table, ?_⟩
  obtain ⟨st1, h1⟩ := del_code_region_returns_of_room nearly_full_table 2147422208 4096
    (by decide) non_overlapping_nearly_full_table (by decide)
  apply add_code_region_dies_of_full _ st1 _ _ _ _ _ _ h1
  obtain ⟨hperm, -⟩ := del_code_region_table _ _ _ _ h1
  have hlen := hperm.length_eq
  have hz := split_entry_strictly_inside (nearly_full_table.codemaps 32766)
    2147418112 2147422208 2147426304 2147430400 (by decide) (by decide) (by decide) (by decide)
    (by decide) (by decide)
  rw [show (2147426304 : Nat) - 2147422208 = 4096 by decide] at hz
  have hn : nearly_full_table.n_codemaps = 32767 := rfl
  rw [length_table, length_flatMap_split_last nearly_full_table 2147422208 4096 (by decide) (by
      intro j hj
      rw [hn] at hj
      rw [overlap_eq_false_iff]
      simp only [codemaps_nearly_full_table, ULONG_SIZE]
      omega), hn, hz] at hlen
  rw [hlen]
  decide

/-- C6 (frame of unregister).  The call `del_code_region(addr, len)` returns or ends in
`die`; it never loops for ever.  In the state in which it ends, by return or by
`die`, the entries of the old table whose guest range does not overlap
`[addr, addr+len)` are all in the table, with all their fields and in their old
relative order.  When no live entry overlaps the range the call returns, the
array, `n_codemaps` and the break pointers are unchanged, and the trace only
gains the taking and the release of the two locks: neither `jit_mem_free` nor
`purge_caches` is called. -/
theorem unregister_frame (st : State) (addr len : Nat) :
    del_code_region st addr len ≠ Outcome.diverge ∧
    (∀ st', (del_code_region st addr len).final? = some st' →
      (st.table.filter (fun m => !overlap addr len m.addr m.len)).Sublist st'.table) ∧
    ((∀ j, j < st.n_codemaps →
        overlap addr len (st.codemaps j).addr (st.codemaps j).len = false) →
      del_code_region st addr len = Outcome.ok
        { st with trace := st.trace ++ [Event.mutex_lock lock_t.jit_lock,
            Event.mutex_lock lock_t.codemap_lock, Event.mutex_unlock lock_t.codemap_lock,
            Event.mutex_unlock lock_t.jit_lock] }) := by
  refine ⟨del_code_region_ne_diverge st addr len, ?_, ?_⟩
  · intro st' h
    exact del_code_region_frame st st' addr len h
  · intro h
    apply del_code_region_of_no_overlap
    intro m hm
    obtain ⟨j, hj, rfl⟩ := mem_table.mp hm
    exact h j hj

/-- Witness for C6: unregistering `[0x3000, 0x4000)`, which lies between the two
regions of `two_regions`, changes nothing but the trace; unregistering
`[0x2000, 0x3000)` keeps the second region. -/
theorem unregister_frame_witness :
    del_code_region two_regions 12288 4096 = Outcome.ok
      { two_regions with trace := two_regions.trace ++ [Event.mutex_lock lock_t.jit_lock,
          Event.mutex_lock lock_t.codemap_lock, Event.mutex_unlock lock_t.codemap_lock,
          Event.mutex_unlock lock_t.jit_lock] } ∧
    (two_regions.table.filter (fun m => !overlap 8192 4096 m.addr m.len)).Sublist
      (del_code_region two_regions 8192 4096).state.table :=
  ⟨(unregister_frame two_regions 12288 4096).2.2 (by decide),
   (unregister_frame two_regions 8192 4096).2.1 _ rfl⟩

/-! ## The trace of the calls of codemap.c -/

theorem extends_quietly_refl (t : List Event) : extends_quietly t t :=
  ⟨[], by simp, by simp⟩

theorem extends_quietly_trans {a b c : List Event} (h1 : extends_quietly a b)
    (h2 : extends_quietly b c) : extends_quietly a c := by
  obtain ⟨e1, rfl, k1⟩ := h1
  obtain ⟨e2, rfl, k2⟩ := h2
  refine ⟨e1 ++ e2, by simp, ?_⟩
  intro e he
  rcases List.mem_append.mp he with h | h
  · exact k1 e h
  · exact k2 e h

theorem extends_quietly_append (t evs : List Event)
    (h : ∀ e ∈ evs, e.is_kernel_call = false) : extends_quietly t (t ++ evs) :=
  ⟨evs, rfl, h⟩

theorem trace_add_code_map (st : State) (map : code_map_t) :
    (add_code_map st map).trace? = some st.trace := by
  unfold add_code_map
  split <;> rfl

theorem trace_del_code_map (st : State) (i : Nat) :
    extends_quietly st.trace (del_code_map st i).trace := by
  simp only [del_code_map]
  split
  · apply extends_quietly_append
    intro e he
    simp only [List.mem_cons, List.mem_singleton, List.not_mem_nil, or_false] at he
    rcases he with rfl | rfl <;> rfl
  · exact extends_quietly_refl _

theorem trace_del_code_region_body (addr len : Nat) (st : State) (i : Nat) :
    ∀ t, (del_code_region_body addr len st i).trace? = some t → extends_quietly st.trace t := by
  intro t ht
  have hd := trace_del_code_map st i
  unfold del_code_region_body at ht
  simp only [gt_iff_lt] at ht
  by_cases hl : (st.codemaps i).addr < addr
  · simp only [if_pos hl] at ht
    have ha := trace_add_code_map (del_code_map st i)
      { st.codemaps i with jit_addr := 0, jit_len := 0, len := addr - (st.codemaps i).addr }
    cases hc : add_code_map (del_code_map st i)
      { st.codemaps i with jit_addr := 0, jit_len := 0, len := addr - (st.codemaps i).addr } with
    | diverge => rw [hc] at ht; simp [Outcome.trace?] at ht
    | die t1 =>
      rw [hc] at ht ha
      simp only [Outcome.trace?, Option.some.injEq] at ht ha
      rw [← ht, ha]; exact hd
    | ok st2 =>
      rw [hc] at ht ha
      simp only [Outcome.trace?, Option.some.injEq] at ha
      simp only at ht
      split at ht
      · rw [trace_add_code_map, Option.some.injEq] at ht
        rw [← ht, ha]; exact hd
      · simp only [Outcome.trace?, Option.some.injEq] at ht
        rw [← ht, ha]; exact hd
  · simp only [if_neg hl] at ht
    split at ht
    · rw [trace_add_code_map, Option.some.injEq] at ht
      rw [← ht]; exact hd
    · simp only [Outcome.trace?, Option.some.injEq] at ht
      rw [← ht]; exact hd

theorem trace_del_code_region_loop (addr len : Nat) :
    ∀ (fuel : Nat) (st : State) (i : Int) (t : List Event),
      (del_code_region_loop addr len fuel st i).trace? = some t → extends_quietly st.trace t := by
  intro fuel
  induction fuel with
  | zero =>
    intro st i t ht
    unfold del_code_region_loop at ht
    split at ht
    · simp [Outcome.trace?] at ht
    · simp only [Outcome.trace?, Option.some.injEq] at ht
      rw [← ht]; exact extends_quietly_refl _
  | succ fuel ih =>
    intro st i t ht
    unfold del_code_region_loop at ht
    by_cases hi : 0 ≤ i
    · rw [if_pos hi] at ht
      by_cases hov : overlap addr len (st.codemaps i.toNat).addr (st.codemaps i.toNat).len = false
      · rw [if_pos hov] at ht
        exact ih st (i - 1) t ht
      · rw [if_neg hov] at ht
        have hb := trace_del_code_region_body addr len st i.toNat
        cases hc : del_code_region_body addr len st i.toNat with
        | diverge => rw [hc] at ht; simp [Outcome.trace?] at ht
        | die t1 =>
          rw [hc] at ht hb
          simp only [Outcome.trace?, Option.some.injEq] at ht
          rw [← ht]; exact hb t1.trace rfl
        | ok st1 =>
          rw [hc] at ht hb
          simp only at ht
          exact extends_quietly_trans (hb st1.trace rfl) (ih st1 _ t ht)
    · rw [if_neg hi] at ht
      simp only [Outcome.trace?, Option.some.injEq] at ht
      rw [← ht]; exact extends_quietly_refl _

theorem extends_quietly_emit_lock (st : State) (e : Event) (he : e.is_kernel_call = false) :
    extends_quietly st.trace (st.emit e).trace := by
  apply extends_quietly_append
  intro e1 h1
  simp only [List.mem_singleton] at h1
  rw [h1]; exact he

/-- Whether it returns or ends in `die`, `del_code_region` issues no raw system call. -/
theorem trace_del_code_region (st : State) (addr len : Nat) :
    ∀ t, (del_code_region st addr len).trace? = some t → extends_quietly st.trace t := by
  intro t ht
  unfold del_code_region at ht
  simp only [n_codemaps_emit] at ht
  have h0 : extends_quietly st.trace
      ((st.emit (Event.mutex_lock lock_t.jit_lock)).emit (Event.mutex_lock lock_t.codemap_lock)).trace :=
    extends_quietly_trans
      (extends_quietly_emit_lock st (Event.mutex_lock lock_t.jit_lock) rfl)
      (extends_quietly_emit_lock _ (Event.mutex_lock lock_t.codemap_lock) rfl)
  have hl := trace_del_code_region_loop addr len (del_code_region_fuel st.n_codemaps)
    ((st.emit (Event.mutex_lock lock_t.jit_lock)).emit (Event.mutex_lock lock_t.codemap_lock))
    ((st.n_codemaps : Int) - 1)
  split at ht
  · rename_i st1 h1
    rw [h1] at hl
    simp only [Outcome.trace?, Option.some.injEq] at ht
    rw [← ht]
    exact extends_quietly_trans h0 (extends_quietly_trans (hl st1.trace rfl)
      (extends_quietly_trans
        (extends_quietly_emit_lock st1 (Event.mutex_unlock lock_t.codemap_lock) rfl)
        (extends_quietly_emit_lock _ (Event.mutex_unlock lock_t.jit_lock) rfl)))
  · rename_i t1 h1
    rw [h1] at hl
    simp only [Outcome.trace?, Option.some.injEq] at ht
    rw [← ht]
    exact extends_quietly_trans h0 (hl t1.trace rfl)
  · simp [Outcome.trace?] at ht

/-- Whether it returns or ends in `die`, `add_code_region` issues no raw system call. -/
theorem trace_add_code_region (st : State) (addr len inode dev mtime pgoffset : Nat) :
    ∀ t, (add_code_region st addr len inode dev mtime pgoffset).trace? = some t →
      extends_quietly st.trace t := by
  intro t ht
  unfold add_code_region at ht
  have hd := trace_del_code_region st addr len
  cases h1 : del_code_region st addr len with
  | diverge => rw [h1] at ht; simp [Outcome.trace?] at ht
  | die t1 =>
    rw [h1] at ht hd
    simp only [Outcome.trace?, Option.some.injEq] at ht
    rw [← ht]; exact hd t1.trace rfl
  | ok st1 =>
    rw [h1] at ht hd
    simp only at ht
    have ha := trace_add_code_map (st1.emit (Event.mutex_lock lock_t.codemap_lock))
      { addr := addr, len := len, jit_addr := 0, jit_len := 0,
        dev := dev, inode := inode, mtime := mtime, pgoffset := pgoffset }
    have h2 := extends_quietly_trans (hd st1.trace rfl)
      (extends_quietly_emit_lock st1 (Event.mutex_lock lock_t.codemap_lock) rfl)
    cases hc : add_code_map (st1.emit (Event.mutex_lock lock_t.codemap_lock))
      { addr := addr, len := len, jit_addr := 0, jit_len := 0,
        dev := dev, inode := inode, mtime := mtime, pgoffset := pgoffset } with
    | diverge => rw [hc] at ht; simp [Outcome.trace?] at ht
    | die t2 =>
      rw [hc] at ht ha
      simp only [Outcome.trace?, Option.some.injEq] at ht ha
      rw [← ht, ha]; exact h2
    | ok st2 =>
      rw [hc] at ht ha
      simp only [Outcome.trace?, Option.some.injEq] at ht ha
      rw [← ht]
      refine extends_quietly_trans h2 ?_
      rw [← ha]
      exact extends_quietly_emit_lock st2 (Event.mutex_unlock lock_t.codemap_lock) rfl

/-! ## mm.c: the ceiling check and the protection handed to the kernel -/

theorem events_then_return (o : Outcome State) (ret : Nat) :
    (o.then_return ret).events = o.trace?.getD [] := by
  cases o <;> rfl

theorem prot_of_quiet (e : Event) (h : e.is_kernel_call = false) : e.prot? = none := by
  cases e <;> first | rfl | simp [Event.is_kernel_call] at h

/-- The events that a call into codemap.c adds to a trace `tr0 ++ pre` are no raw
system calls, whether the call returns or ends in `die`. -/
theorem drop_events_quiet (tr0 pre : List Event) (st2 : State) (o : Outcome State) (ret : Nat)
    (hst2 : st2.trace = tr0 ++ pre) (hne : o ≠ Outcome.diverge)
    (h : ∀ t, o.trace? = some t → extends_quietly st2.trace t) :
    ∃ evs, (∀ e ∈ evs, e.is_kernel_call = false) ∧
      (o.then_return ret).events.drop tr0.length = pre ++ evs := by
  rw [events_then_return]
  cases o with
  | diverge => exact absurd rfl hne
  | ok s =>
    obtain ⟨evs, h1, h2⟩ := h s.trace rfl
    refine ⟨evs, h2, ?_⟩
    simp only [Outcome.trace?, Option.getD_some, h1, hst2, List.append_assoc]
    simp
  | die t =>
    obtain ⟨evs, h1, h2⟩ := h t.trace rfl
    refine ⟨evs, h2, ?_⟩
    simp only [Outcome.trace?, Option.getD_some, h1, hst2, List.append_assoc]
    simp

theorem drop_events_add_code_region (tr0 pre : List Event) (st2 : State)
    (hst2 : st2.trace = tr0 ++ pre) (addr len inode dev mtime pgoffset ret : Nat) :
    ∃ evs, (∀ e ∈ evs, e.is_kernel_call = false) ∧
      ((add_code_region st2 addr len inode dev mtime pgoffset).then_return ret).events.drop
        tr0.length = pre ++ evs :=
  drop_events_quiet tr0 pre st2 _ ret hst2 (add_code_region_ne_diverge _ _ _ _ _ _ _)
    (trace_add_code_region _ _ _ _ _ _ _)

theorem drop_events_del_code_region (tr0 pre : List Event) (st2 : State)
    (hst2 : st2.trace = tr0 ++ pre) (addr len ret : Nat) :
    ∃ evs, (∀ e ∈ evs, e.is_kernel_call = false) ∧
      ((del_code_region st2 addr len).then_return ret).events.drop tr0.length = pre ++ evs :=
  drop_events_quiet tr0 pre st2 _ ret hst2 (del_code_region_ne_diverge _ _ _)
    (trace_del_code_region _ _ _)

/-- The events of an in-ceiling `user_mmap2` call: the real mapping; when the kernel
grants it, the shadow mapping, the `sys_fstat64` of an executable mapping with a
descriptor, and then events that are no raw system calls. -/
theorem user_mmap2_events (L : Layout) (K : Kernel) (st : State)
    (addr length prot flags : Nat) (fd : Int) (pgoffset : Nat)
    (hceil : ¬ (addr > L.USER_END ∨ (addr + length) % ULONG_SIZE > L.USER_END)) :
    ∃ evs, (∀ e ∈ evs, e.is_kernel_call = false) ∧
      (user_mmap2 L K st addr length prot flags fd pgoffset).events.drop st.trace.length =
        if K.sys_mmap2 st.trace addr length (mmap_new_prot prot) flags fd pgoffset &&& PG_MASK = 0
        then
          [Event.sys_mmap2 addr length (mmap_new_prot prot) flags fd pgoffset,
           Event.sys_mmap2
            ((K.sys_mmap2 st.trace addr length (mmap_new_prot prot) flags fd pgoffset +
              L.TAINT_OFFSET) % ULONG_SIZE)
            length (mmap_new_prot prot) (MAP_PRIVATE ||| MAP_FIXED ||| MAP_ANONYMOUS) (-1) 0] ++
          (if prot &&& PROT_EXEC ≠ 0 ∧ ¬ fd < 0 then [Event.sys_fstat64 fd] else []) ++ evs
        else [Event.sys_mmap2 addr length (mmap_new_prot prot) flags fd pgoffset] := by
  unfold user_mmap2
  rw [if_neg hceil]
  simp only
  generalize K.sys_mmap2 st.trace addr length (mmap_new_prot prot) flags fd pgoffset = ret
  generalize mmap_new_prot prot = np
  by_cases hret : ret &&& PG_MASK = 0
  · simp only [if_pos hret]
    by_cases hx : prot &&& PROT_EXEC ≠ 0
    · rw [if_pos hx]
      by_cases hfd : fd < 0
      · have hc : ¬ (prot &&& PROT_EXEC ≠ 0 ∧ ¬ fd < 0) := fun h => h.2 hfd
        rw [if_neg hc]
        simp only [if_pos hfd, List.append_nil]
        exact drop_events_add_code_region st.trace _ _ (by simp [State.emit]) _ _ _ _ _ _ _
      · have hc : prot &&& PROT_EXEC ≠ 0 ∧ ¬ fd < 0 := ⟨hx, hfd⟩
        rw [if_pos hc]
        simp only [if_neg hfd]
        exact drop_events_add_code_region st.trace _ _ (by simp [State.emit]) _ _ _ _ _ _ _
    · have hc : ¬ (prot &&& PROT_EXEC ≠ 0 ∧ ¬ fd < 0) := fun h => hx h.1
      rw [if_neg hx, if_neg hc]
      simp only [List.append_nil]
      exact drop_events_del_code_region st.trace _ _ (by simp [State.emit]) _ _ _
  · simp only [if_neg hret]
    exact ⟨[], by simp, by simp [Outcome.events]⟩

/-- The events of an in-ceiling `user_mprotect` call: the protection change of the real
range and of the shadow range, then events that are no raw system calls. -/
theorem user_mprotect_events (L : Layout) (K : Kernel) (st : State) (addr length prot : Nat)
    (hceil : ¬ (addr > L.USER_END ∨ (addr + length) % ULONG_SIZE > L.USER_END)) :
    ∃ evs, (∀ e ∈ evs, e.is_kernel_call = false) ∧
      (user_mprotect L K st addr length prot).events.drop st.trace.length =
        [Event.sys_mprotect addr length (prot &&& (ULONG_SIZE - 1 - PROT_EXEC)),
         Event.sys_mprotect ((L.TAINT_OFFSET + addr) % ULONG_SIZE) length
          (prot &&& (ULONG_SIZE - 1 - PROT_EXEC))] ++ evs := by
  unfold user_mprotect
  rw [if_neg hceil]
  simp only
  generalize K.sys_mprotect st.trace addr length (prot &&& (ULONG_SIZE - 1 - PROT_EXEC)) = ret
  by_cases hret : ret &&& PG_MASK = 0
  · simp only [if_pos hret]
    by_cases hx : prot &&& PROT_EXEC ≠ 0
    · rw [if_pos hx]
      exact drop_events_add_code_region st.trace _ _ (by simp [State.emit]) _ _ _ _ _ _ _
    · rw [if_neg hx]
      exact drop_events_del_code_region st.trace _ _ (by simp [State.emit]) _ _ _
  · simp only [if_neg hret]
    exact ⟨[], by simp, by simp [Outcome.events]⟩

/-- The events of an in-ceiling `user_munmap` call: the unmapping, then events that are
no raw system calls. -/
theorem user_munmap_events (L : Layout) (K : Kernel) (st : State) (addr length : Nat)
    (hceil : ¬ (addr > L.USER_END ∨ (addr + length) % ULONG_SIZE > L.USER_END)) :
    ∃ evs, (∀ e ∈ evs, e.is_kernel_call = false) ∧
      (user_munmap L K st addr length).events.drop st.trace.length =
        [Event.sys_munmap addr length] ++ evs := by
  unfold user_munmap
  rw [if_neg hceil]
  simp only
  generalize K.sys_munmap st.trace addr length = ret
  by_cases hret : ret &&& PG_MASK = 0
  · simp only [if_pos hret]
    exact drop_events_del_code_region st.trace _ _ (by simp [State.emit]) _ _ _
  · simp only [if_neg hret]
    exact ⟨[], by simp, by simp [Outcome.events]⟩

/-- A request that the check of the three calls finds beyond the ceiling returns
`-EFAULT` and leaves the whole state, trace included, as it was. -/
theorem ceiling_rejected (L : Layout) (K : Kernel) (st : State) (addr length prot flags : Nat)
    (fd : Int) (pgoffset : Nat)
    (h : addr > L.USER_END ∨ (addr + length) % ULONG_SIZE > L.USER_END) :
    user_mmap2 L K st addr length prot flags fd pgoffset = Outcome.ok (neg_errno EFAULT, st) ∧
    user_munmap L K st addr length = Outcome.ok (neg_errno EFAULT, st) ∧
    user_mprotect L K st addr length prot = Outcome.ok (neg_errno EFAULT, st) := by
  refine ⟨?_, ?_, ?_⟩
  · unfold user_mmap2; rw [if_pos h]
  · unfold user_munmap; rw [if_pos h]
  · unfold user_mprotect; rw [if_pos h]

/-- C7 (ceiling enforcement), the code at the failing input `addr = 1`,
`length = 0xFFFFFFFF` with the ceiling at `0x60000000`: the range `[1, 2^32)` extends
beyond the ceiling, but `addr + length` wraps to 0, the check passes, each of the
three calls reaches the kernel and returns the kernel's result `-ENOMEM`
instead of `-EFAULT`. -/
theorem ceiling_check_wraps :
    example_layout.USER_END < 1 + 4294967295 ∧
    neg_errno EFAULT = 4294967282 ∧
    (user_mmap2 example_layout refusing_kernel State.init 1 4294967295 4 34 (-1) 0).events =
      [Event.sys_mmap2 1 4294967295 1 34 (-1) 0] ∧
    (user_mmap2 example_layout refusing_kernel State.init 1 4294967295 4 34 (-1) 0).ret? =
      some 4294967284 ∧
    (user_munmap example_layout refusing_kernel State.init 1 4294967295).events =
      [Event.sys_munmap 1 4294967295] ∧
    (user_munmap example_layout refusing_kernel State.init 1 4294967295).ret? =
      some 4294967284 ∧
    (user_mprotect example_layout refusing_kernel State.init 1 4294967295 4).events =
      [Event.sys_mprotect 1 4294967295 0, Event.sys_mprotect 1610612737 4294967295 0] ∧
    (user_mprotect example_layout refusing_kernel State.init 1 4294967295 4).ret? =
      some 4294967284 := by
  decide

theorem mask_and_exec (prot : Nat) : (prot &&& (ULONG_SIZE - 1 - PROT_EXEC)) &&& PROT_EXEC = 0 := by
  rw [Nat.and_assoc]
  have : (ULONG_SIZE - 1 - PROT_EXEC) &&& PROT_EXEC = 0 := by decide
  rw [this, Nat.and_zero]

theorem mmap_new_prot_and_exec (prot : Nat) : mmap_new_prot prot &&& PROT_EXEC = 0 := by
  unfold mmap_new_prot
  split
  · rw [Nat.and_comm, Nat.and_or_distrib_left, Nat.and_comm, mask_and_exec]
    decide
  · rename_i h
    simpa using h

theorem testBit_exec_mask (i : Nat) (hi : i < 32) (h2 : i ≠ 2) :
    (ULONG_SIZE - 1 - PROT_EXEC).testBit i = true := by
  interval_cases i <;> first | omega | decide

theorem mmap_new_prot_of_exec (prot : Nat) (h : prot &&& PROT_EXEC ≠ 0) :
    mmap_new_prot prot &&& PROT_READ = PROT_READ ∧
    ∀ i, i < 32 → i ≠ 0 → i ≠ 2 → (mmap_new_prot prot).testBit i = prot.testBit i := by
  unfold mmap_new_prot
  rw [if_pos h]
  constructor
  · rw [Nat.and_comm, Nat.and_or_distrib_left]
    have h1 : PROT_READ &&& PROT_READ = 1 := by decide
    rw [h1]
    simp only [PROT_READ, Nat.one_and_eq_mod_two]
    have : (prot &&& (ULONG_SIZE - 1 - PROT_EXEC)) % 2 = 0 ∨
        (prot &&& (ULONG_SIZE - 1 - PROT_EXEC)) % 2 = 1 := by omega
    rcases this with h | h <;> rw [h] <;> decide
  · intro i hi h0 h2
    rw [Nat.testBit_or, Nat.testBit_and, testBit_exec_mask i hi h2]
    have : Nat.testBit PROT_READ i = false := by
      have := @Nat.testBit_two_pow 0 i
      simp only [pow_zero] at this
      rw [show PROT_READ = 1 from rfl, this]
      simp; omega
    rw [this]
    simp

/-- C8 (execute permission never reaches the kernel).  Every protection argument of
a `sys_mmap2` call made by `user_mmap2` is `new_prot`, and every protection argument
of a `sys_mprotect` call made by `user_mprotect` is `prot & ~PROT_EXEC`, for the real
range and for the shadow range, whether the call returns or ends in `die`.  Both
values have `PROT_EXEC` cleared.  When `PROT_EXEC` is requested, `new_prot` has
`PROT_READ` set and agrees with `prot` on every other bit of the word; when it is not
requested, `new_prot` is `prot`. -/
theorem exec_never_reaches_kernel (L : Layout) (K : Kernel) (st : State)
    (addr length prot flags : Nat) (fd : Int) (pgoffset : Nat) :
    (∀ e ∈ (user_mmap2 L K st addr length prot flags fd pgoffset).events.drop st.trace.length,
      ∀ p, e.prot? = some p → p = mmap_new_prot prot) ∧
    (∀ e ∈ (user_mprotect L K st addr length prot).events.drop st.trace.length,
      ∀ p, e.prot? = some p → p = prot &&& (ULONG_SIZE - 1 - PROT_EXEC)) ∧
    mmap_new_prot prot &&& PROT_EXEC = 0 ∧
    (prot &&& (ULONG_SIZE - 1 - PROT_EXEC)) &&& PROT_EXEC = 0 ∧
    (prot &&& PROT_EXEC ≠ 0 →
      mmap_new_prot prot &&& PROT_READ = PROT_READ ∧
      ∀ i, i < 32 → i ≠ 0 → i ≠ 2 → (mmap_new_prot prot).testBit i = prot.testBit i) ∧
    (prot &&& PROT_EXEC = 0 → mmap_new_prot prot = prot) := by
  refine ⟨?_, ?_, mmap_new_prot_and_exec prot, mask_and_exec prot, mmap_new_prot_of_exec prot, ?_⟩
  · by_cases hceil : addr > L.USER_END ∨ (addr + length) % ULONG_SIZE > L.USER_END
    · rw [(ceiling_rejected L K st addr length prot flags fd pgoffset hceil).1]
      simp [Outcome.events]
    · obtain ⟨evs, h1, h2⟩ := user_mmap2_events L K st addr length prot flags fd pgoffset hceil
      rw [h2]
      intro e he p hp
      split at he
      · simp only [List.append_assoc, List.mem_append, List.mem_cons, List.mem_singleton,
          List.not_mem_nil, or_false] at he
        rcases he with (rfl | rfl) | he | he
        · simpa [Event.prot?] using hp.symm
        · simpa [Event.prot?] using hp.symm
        · split at he
          · simp only [List.mem_singleton] at he
            rw [he] at hp
            simp [Event.prot?] at hp
          · simp at he
        · rw [prot_of_quiet e (h1 e he)] at hp
          simp at hp
      · simp only [List.mem_singleton] at he
        rw [he] at hp
        simpa [Event.prot?] using hp.symm
  · by_cases hceil : addr > L.USER_END ∨ (addr + length) % ULONG_SIZE > L.USER_END
    · rw [(ceiling_rejected L K st addr length prot flags fd pgoffset hceil).2.2]
      simp [Outcome.events]
    · obtain ⟨evs, h1, h2⟩ := user_mprotect_events L K st addr length prot hceil
      rw [h2]
      intro e he p hp
      simp only [List.mem_append, List.mem_cons, List.mem_singleton, List.not_mem_nil,
        or_false] at he
      rcases he with (rfl | rfl) | he
      · simpa [Event.prot?] using hp.symm
      · simpa [Event.prot?] using hp.symm
      · rw [prot_of_quiet e (h1 e he)] at hp
        simp at hp
  · intro h
    unfold mmap_new_prot
    rw [if_neg (by simpa using h)]

/-- Witness for C8: a request for read, write and execute reaches the kernel as read
and write. -/
theorem exec_never_reaches_kernel_witness :
    mmap_new_prot 7 = 3 ∧ mmap_new_prot 7 &&& PROT_EXEC = 0 ∧
    (user_mmap2 example_layout granting_kernel State.init 65536 8192 7 34 (-1) 0).events.take 2 =
      [Event.sys_mmap2 65536 8192 3 34 (-1) 0, Event.sys_mmap2 1610678272 8192 3 50 (-1) 0] :=
  ⟨by decide,
   (exec_never_reaches_kernel example_layout granting_kernel State.init 65536 8192 7 34 (-1)
      0).2.2.1,
   by decide⟩

/-! ## mm.c: the table follows the mappings -/

theorem then_return_eq_ok (o : Outcome State) (ret r : Nat) (st' : State)
    (h : o.then_return ret = Outcome.ok (r, st')) : r = ret ∧ o = Outcome.ok st' := by
  cases o with
  | ok s =>
    simp only [Outcome.then_return, Outcome.ok.injEq, Prod.mk.injEq] at h
    exact ⟨h.1.symm, by rw [h.2]⟩
  | die t => simp [Outcome.then_return] at h
  | diverge => simp [Outcome.then_return] at h

theorem then_return_isOk (o : Outcome State) (ret : Nat) :
    (o.then_return ret).isOk = o.isOk := by
  cases o <;> rfl

theorem then_return_isDie (o : Outcome State) (ret : Nat) :
    (o.then_return ret).isDie = o.isDie := by
  cases o <;> rfl

/-- After `add_code_region` has returned, some live slot holds the new region. -/
theorem add_code_region_has_region (st st' : State) (addr len inode dev mtime pgoffset : Nat)
    (h : add_code_region st addr len inode dev mtime pgoffset = Outcome.ok st') :
    ∃ k, k < st'.n_codemaps ∧
      st'.codemaps k = { addr := addr, len := len, jit_addr := 0, jit_len := 0,
                         inode := inode, dev := dev, mtime := mtime, pgoffset := pgoffset } := by
  obtain ⟨st1, st2, h1, h2, rfl⟩ := add_code_region_ok _ _ _ _ _ _ _ _ h
  obtain ⟨-, -, -, -, -, a6, -⟩ := add_code_map_facts _ _ _ h2
  have hmem := a6.mem_iff.mpr (List.mem_cons_self _ _)
  obtain ⟨p, hp, hpe⟩ := mem_table.mp hmem
  exact ⟨p, by simpa using hp, by simpa using hpe⟩

/-- After `del_code_region(addr, len)` has returned, for a range that does not wrap,
`find_code_map` returns NULL on every address of the range. -/
theorem del_code_region_find_none (st st' : State) (addr len : Nat)
    (hwrap : addr + len < ULONG_SIZE) (h : del_code_region st addr len = Outcome.ok st') :
    ∀ x, addr ≤ x → x < addr + len → (find_code_map st' x).1 = none := by
  obtain ⟨-, hno, -⟩ := del_code_region_table st st' addr len h
  intro x hx1 hx2
  cases hf : (find_code_map st' x).1 with
  | none => rfl
  | some k =>
    exfalso
    obtain ⟨k1, k2, -⟩ := (find_code_map_spec st' x).1 k hf
    have h3 := hno _ (mem_table.mpr ⟨k, k1, rfl⟩)
    rw [overlap_eq_false_iff, Nat.mod_eq_of_lt hwrap] at h3
    rw [contains_eq_true_iff] at k2
    omega

/-- The call `add_code_region` returns on a table of pairwise disjoint ranges with two free
slots, for every range that does not wrap. -/
theorem add_code_region_returns (st : State) (addr len inode dev mtime pgoffset : Nat)
    (hwrap : addr + len < ULONG_SIZE) (hdisj : non_overlapping st.table)
    (hroom : st.n_codemaps + 2 ≤ MAX_CODEMAPS) :
    ∃ st', add_code_region st addr len inode dev mtime pgoffset = Outcome.ok st' := by
  obtain ⟨st1, h1⟩ := del_code_region_returns_of_room st addr len hwrap hdisj (by omega)
  have hcnt := del_code_region_count st st1 addr len h1
  have hone := countP_splits_in_two_le_one addr len st.table hwrap hdisj
  obtain ⟨st2, h2⟩ := add_code_map_isOk (st1.emit (Event.mutex_lock lock_t.codemap_lock))
    { addr := addr, len := len, jit_addr := 0, jit_len := 0,
      inode := inode, dev := dev, mtime := mtime, pgoffset := pgoffset }
    (by simp only [n_codemaps_emit]; omega)
  refine ⟨st2.emit (Event.mutex_unlock lock_t.codemap_lock), ?_⟩
  unfold add_code_region
  rw [h1]
  simp only
  rw [h2]

/-- The three cases of an in-ceiling `user_mmap2` call. -/
theorem user_mmap2_follows (L : Layout) (K : Kernel) (st : State)
    (addr length prot flags : Nat) (fd : Int) (pgoffset : Nat)
    (hceil : ¬ (addr > L.USER_END ∨ (addr + length) % ULONG_SIZE > L.USER_END)) :
    (K.sys_mmap2 st.trace addr length (mmap_new_prot prot) flags fd pgoffset &&& PG_MASK ≠ 0 →
      user_mmap2 L K st addr length prot flags fd pgoffset =
        Outcome.ok (K.sys_mmap2 st.trace addr length (mmap_new_prot prot) flags fd pgoffset,
          st.emit (Event.sys_mmap2 addr length (mmap_new_prot prot) flags fd pgoffset))) ∧
    (K.sys_mmap2 st.trace addr length (mmap_new_prot prot) flags fd pgoffset &&& PG_MASK = 0 →
      ∀ r st', user_mmap2 L K st addr length prot flags fd pgoffset = Outcome.ok (r, st') →
        r = K.sys_mmap2 st.trace addr length (mmap_new_prot prot) flags fd pgoffset ∧
        (prot &&& PROT_EXEC = 0 → r + PAGE_NEXT length < ULONG_SIZE →
          ∀ x, r ≤ x → x < r + PAGE_NEXT length → (find_code_map st' x).1 = none) ∧
        (prot &&& PROT_EXEC ≠ 0 →
          ∃ k, k < st'.n_codemaps ∧ (st'.codemaps k).addr = r ∧
            (st'.codemaps k).len = PAGE_NEXT length ∧
            (st'.codemaps k).jit_addr = 0 ∧ (st'.codemaps k).jit_len = 0)) ∧
    (K.sys_mmap2 st.trace addr length (mmap_new_prot prot) flags fd pgoffset &&& PG_MASK = 0 →
      K.sys_mmap2 st.trace addr length (mmap_new_prot prot) flags fd pgoffset + PAGE_NEXT length
        < ULONG_SIZE →
      non_overlapping st.table → st.n_codemaps + 2 ≤ MAX_CODEMAPS →
      (user_mmap2 L K st addr length prot flags fd pgoffset).isOk = true) := by
  unfold user_mmap2
  rw [if_neg hceil]
  simp only
  generalize K.sys_mmap2 st.trace addr length (mmap_new_prot prot) flags fd pgoffset = ret
  generalize mmap_new_prot prot = np
  refine ⟨?_, ?_, ?_⟩
  · intro hret
    rw [if_neg hret]
  · intro hret r st' h
    rw [if_pos hret] at h
    by_cases hx : prot &&& PROT_EXEC ≠ 0
    · rw [if_pos hx] at h
      obtain ⟨h1, h2⟩ := then_return_eq_ok _ _ _ _ h
      refine ⟨h1, fun h0 => absurd h0 hx, fun _ => ?_⟩
      obtain ⟨k, hk, hke⟩ := add_code_region_has_region _ _ _ _ _ _ _ _ h2
      refine ⟨k, hk, ?_⟩
      rw [hke, h1]
      exact ⟨rfl, rfl, rfl, rfl⟩
    · rw [if_neg hx] at h
      obtain ⟨h1, h2⟩ := then_return_eq_ok _ _ _ _ h
      refine ⟨h1, fun _ hwrap => ?_, fun h0 => absurd h0 hx⟩
      rw [h1] at hwrap ⊢
      exact del_code_region_find_none _ _ _ _ hwrap h2
  · intro hret hwrap hdisj hroom
    rw [if_pos hret]
    by_cases hx : prot &&& PROT_EXEC ≠ 0
    · rw [if_pos hx, then_return_isOk]
      by_cases hfd : fd < 0
      · simp only [if_pos hfd]
        obtain ⟨st', h⟩ := add_code_region_returns
          ((st.emit (Event.sys_mmap2 addr length np flags fd pgoffset)).emit
            (Event.sys_mmap2 ((ret + L.TAINT_OFFSET) % ULONG_SIZE) length np
              (MAP_PRIVATE ||| MAP_FIXED ||| MAP_ANONYMOUS) (-1) 0))
          ret (PAGE_NEXT length) 0 0 0 pgoffset hwrap hdisj hroom
        rw [h]; rfl
      · simp only [if_neg hfd]
        obtain ⟨st', h⟩ := add_code_region_returns
          (((st.emit (Event.sys_mmap2 addr length np flags fd pgoffset)).emit
            (Event.sys_mmap2 ((ret + L.TAINT_OFFSET) % ULONG_SIZE) length np
              (MAP_PRIVATE ||| MAP_FIXED ||| MAP_ANONYMOUS) (-1) 0)).emit (Event.sys_fstat64 fd))
          ret (PAGE_NEXT length) _ _ _ pgoffset hwrap hdisj hroom
        rw [h]; rfl
    · rw [if_neg hx, then_return_isOk]
      obtain ⟨st', h⟩ := del_code_region_returns_of_room
        ((st.emit (Event.sys_mmap2 addr length np flags fd pgoffset)).emit
          (Event.sys_mmap2 ((ret + L.TAINT_OFFSET) % ULONG_SIZE) length np
            (MAP_PRIVATE ||| MAP_FIXED ||| MAP_ANONYMOUS) (-1) 0))
        ret (PAGE_NEXT length) hwrap hdisj (by simp only [n_codemaps_emit]; omega)
      rw [h]; rfl

/-- The three cases of an in-ceiling `user_mprotect` call. -/
theorem user_mprotect_follows (L : Layout) (K : Kernel) (st : State) (addr length prot : Nat)
    (hceil : ¬ (addr > L.USER_END ∨ (addr + length) % ULONG_SIZE > L.USER_END)) :
    (K.sys_mprotect st.trace addr length (prot &&& (ULONG_SIZE - 1 - PROT_EXEC)) &&& PG_MASK ≠ 0 →
      user_mprotect L K st addr length prot =
        Outcome.ok (K.sys_mprotect st.trace addr length (prot &&& (ULONG_SIZE - 1 - PROT_EXEC)),
          (st.emit (Event.sys_mprotect addr length (prot &&& (ULONG_SIZE - 1 - PROT_EXEC)))).emit
            (Event.sys_mprotect ((L.TAINT_OFFSET + addr) % ULONG_SIZE) length
              (prot &&& (ULONG_SIZE - 1 - PROT_EXEC))))) ∧
    (K.sys_mprotect st.trace addr length (prot &&& (ULONG_SIZE - 1 - PROT_EXEC)) &&& PG_MASK = 0 →
      ∀ r st', user_mprotect L K st addr length prot = Outcome.ok (r, st') →
        r = K.sys_mprotect st.trace addr length (prot &&& (ULONG_SIZE - 1 - PROT_EXEC)) ∧
        (prot &&& PROT_EXEC = 0 → addr + PAGE_NEXT length < ULONG_SIZE →
          ∀ x, addr ≤ x → x < addr + PAGE_NEXT length → (find_code_map st' x).1 = none) ∧
        (prot &&& PROT_EXEC ≠ 0 →
          ∃ k, k < st'.n_codemaps ∧
            st'.codemaps k = { addr := addr, len := PAGE_NEXT length, jit_addr := 0,
                               jit_len := 0, inode := 0, dev := 0, mtime := 0, pgoffset := 0 })) ∧
    (K.sys_mprotect st.trace addr length (prot &&& (ULONG_SIZE - 1 - PROT_EXEC)) &&& PG_MASK = 0 →
      addr + PAGE_NEXT length < ULONG_SIZE →
      non_overlapping st.table → st.n_codemaps + 2 ≤ MAX_CODEMAPS →
      (user_mprotect L K st addr length prot).isOk = true) := by
  unfold user_mprotect
  rw [if_neg hceil]
  simp only
  generalize K.sys_mprotect st.trace addr length (prot &&& (ULONG_SIZE - 1 - PROT_EXEC)) = ret
  refine ⟨?_, ?_, ?_⟩
  · intro hret
    rw [if_neg hret]
  · intro hret r st' h
    rw [if_pos hret] at h
    by_cases hx : prot &&& PROT_EXEC ≠ 0
    · rw [if_pos hx] at h
      obtain ⟨h1, h2⟩ := then_return_eq_ok _ _ _ _ h
      exact ⟨h1, fun h0 => absurd h0 hx,
        fun _ => add_code_region_has_region _ _ _ _ _ _ _ _ h2⟩
    · rw [if_neg hx] at h
      obtain ⟨h1, h2⟩ := then_return_eq_ok _ _ _ _ h
      exact ⟨h1, fun _ hwrap => del_code_region_find_none _ _ _ _ hwrap h2,
        fun h0 => absurd h0 hx⟩
  · intro hret hwrap hdisj hroom
    rw [if_pos hret]
    by_cases hx : prot &&& PROT_EXEC ≠ 0
    · rw [if_pos hx, then_return_isOk]
      obtain ⟨st', h⟩ := add_code_region_returns
        ((st.emit (Event.sys_mprotect addr length (prot &&& (ULONG_SIZE - 1 - PROT_EXEC)))).emit
            (Event.sys_mprotect ((L.TAINT_OFFSET + addr) % ULONG_SIZE) length
              (prot &&& (ULONG_SIZE - 1 - PROT_EXEC))))
        addr (PAGE_NEXT length) 0 0 0 0 hwrap hdisj hroom
      rw [h]; rfl
    · rw [if_neg hx, then_return_isOk]
      obtain ⟨st', h⟩ := del_code_region_returns_of_room
        ((st.emit (Event.sys_mprotect addr length (prot &&& (ULONG_SIZE - 1 - PROT_EXEC)))).emit
            (Event.sys_mprotect ((L.TAINT_OFFSET + addr) % ULONG_SIZE) length
              (prot &&& (ULONG_SIZE - 1 - PROT_EXEC))))
        addr (PAGE_NEXT length) hwrap hdisj (by simp only [n_codemaps_emit]; omega)
      rw [h]; rfl

/-- C9 (the table follows the mappings), amended for the capacity abort and for
ranges that leave the address space.  For an in-ceiling call of `user_mmap2`, with
`ret` the result of the kernel call: if `ret` has one of the low 12 bits set, the
call returns `ret` and the table is unchanged.  Otherwise, whenever the call
returns, it returns `ret`; if `PROT_EXEC` was not requested and
`[ret, ret+PAGE_NEXT(length))` lies inside the address space, `find_code_map`
returns NULL on every address of that range; if `PROT_EXEC` was requested, some
live slot holds the guest range `[ret, ret+PAGE_NEXT(length))` with `jit_addr = NULL`
and `jit_len = 0`.  The call does return when the range lies inside the address
space, the ranges of the table are pairwise disjoint and two slots are free.
The same holds for `user_mprotect` with the range `[addr, addr+PAGE_NEXT(length))`,
the new slot having `inode`, `dev`, `mtime` and `pgoffset` zero. -/
theorem table_follows_mapping (L : Layout) (K : Kernel) (st : State)
    (addr length prot flags : Nat) (fd : Int) (pgoffset : Nat)
    (hceil : ¬ (addr > L.USER_END ∨ (addr + length) % ULONG_SIZE > L.USER_END)) :
    ((K.sys_mmap2 st.trace addr length (mmap_new_prot prot) flags fd pgoffset &&& PG_MASK ≠ 0 →
      user_mmap2 L K st addr length prot flags fd pgoffset =
        Outcome.ok (K.sys_mmap2 st.trace addr length (mmap_new_prot prot) flags fd pgoffset,
          st.emit (Event.sys_mmap2 addr length (mmap_new_prot prot) flags fd pgoffset))) ∧
    (K.sys_mmap2 st.trace addr length (mmap_new_prot prot) flags fd pgoffset &&& PG_MASK = 0 →
      ∀ r st', user_mmap2 L K st addr length prot flags fd pgoffset = Outcome.ok (r, st') →
        r = K.sys_mmap2 st.trace addr length (mmap_new_prot prot) flags fd pgoffset ∧
        (prot &&& PROT_EXEC = 0 → r + PAGE_NEXT length < ULONG_SIZE →
          ∀ x, r ≤ x → x < r + PAGE_NEXT length → (find_code_map st' x).1 = none) ∧
        (prot &&& PROT_EXEC ≠ 0 →
          ∃ k, k < st'.n_codemaps ∧ (st'.codemaps k).addr = r ∧
            (st'.codemaps k).len = PAGE_NEXT length ∧
            (st'.codemaps k).jit_addr = 0 ∧ (st'.codemaps k).jit_len = 0)) ∧
    (K.sys_mmap2 st.trace addr length (mmap_new_prot prot) flags fd pgoffset &&& PG_MASK = 0 →
      K.sys_mmap2 st.trace addr length (mmap_new_prot prot) flags fd pgoffset + PAGE_NEXT length
        < ULONG_SIZE →
      non_overlapping st.table → st.n_codemaps + 2 ≤ MAX_CODEMAPS →
      (user_mmap2 L K st addr length prot flags fd pgoffset).isOk = true)) ∧
    ((K.sys_mprotect st.trace addr length (prot &&& (ULONG_SIZE - 1 - PROT_EXEC)) &&& PG_MASK ≠ 0 →
      user_mprotect L K st addr length prot =
        Outcome.ok (K.sys_mprotect st.trace addr length (prot &&& (ULONG_SIZE - 1 - PROT_EXEC)),
          (st.emit (Event.sys_mprotect addr length (prot &&& (ULONG_SIZE - 1 - PROT_EXEC)))).emit
            (Event.sys_mprotect ((L.TAINT_OFFSET + addr) % ULONG_SIZE) length
              (prot &&& (ULONG_SIZE - 1 - PROT_EXEC))))) ∧
    (K.sys_mprotect st.trace addr length (prot &&& (ULONG_SIZE - 1 - PROT_EXEC)) &&& PG_MASK = 0 →
      ∀ r st', user_mprotect L K st addr length prot = Outcome.ok (r, st') →
        r = K.sys_mprotect st.trace addr length (prot &&& (ULONG_SIZE - 1 - PROT_EXEC)) ∧
        (prot &&& PROT_EXEC = 0 → addr + PAGE_NEXT length < ULONG_SIZE →
          ∀ x, addr ≤ x → x < addr + PAGE_NEXT length → (find_code_map st' x).1 = none) ∧
        (prot &&& PROT_EXEC ≠ 0 →
          ∃ k, k < st'.n_codemaps ∧
            st'.codemaps k = { addr := addr, len := PAGE_NEXT length, jit_addr := 0,
                               jit_len := 0, inode := 0, dev := 0, mtime := 0, pgoffset := 0 })) ∧
    (K.sys_mprotect st.trace addr length (prot &&& (ULONG_SIZE - 1 - PROT_EXEC)) &&& PG_MASK = 0 →
      addr + PAGE_NEXT length < ULONG_SIZE →
      non_overlapping st.table → st.n_codemaps + 2 ≤ MAX_CODEMAPS →
      (user_mprotect L K st addr length prot).isOk = true)) :=
  ⟨user_mmap2_follows L K st addr length prot flags fd pgoffset hceil,
   user_mprotect_follows L K st addr length prot hceil⟩

/-- On a full table without an entry that overlaps the page-rounded range, an
in-ceiling `user_mprotect` call that the kernel grants and that asks for `PROT_EXEC`
ends in `die`. -/
theorem user_mprotect_exec_dies (L : Layout) (K : Kernel) (st : State) (addr length prot : Nat)
    (hceil : ¬ (addr > L.USER_END ∨ (addr + length) % ULONG_SIZE > L.USER_END))
    (hret : K.sys_mprotect st.trace addr length (prot &&& (ULONG_SIZE - 1 - PROT_EXEC))
      &&& PG_MASK = 0)
    (hx : prot &&& PROT_EXEC ≠ 0) (hfull : st.n_codemaps = MAX_CODEMAPS)
    (hno : ∀ j, j < st.n_codemaps →
      overlap addr (PAGE_NEXT length) (st.codemaps j).addr (st.codemaps j).len = false) :
    (user_mprotect L K st addr length prot).isDie = true := by
  unfold user_mprotect
  rw [if_neg hceil]
  simp only
  rw [if_pos hret, if_pos hx, then_return_isDie]
  have hd := del_code_region_of_no_overlap
    ((st.emit (Event.sys_mprotect addr length (prot &&& (ULONG_SIZE - 1 - PROT_EXEC)))).emit
      (Event.sys_mprotect ((L.TAINT_OFFSET + addr) % ULONG_SIZE) length
        (prot &&& (ULONG_SIZE - 1 - PROT_EXEC))))
    addr (PAGE_NEXT length) (by
      intro m hm
      obtain ⟨j, hj, rfl⟩ := mem_table.mp hm
      exact hno j (by simpa using hj))
  exact add_code_region_dies_of_full _ _ _ _ _ _ _ _ hd (by simp [hfull])

/-- Counterexample to C9 as stated: on the full table, the in-ceiling call
`user_mprotect(0, 0x1000, PROT_EXEC)`, granted by the kernel, ends in `die`; no table
with a region `[0, 0x1000)` comes out of it. -/
theorem table_follows_mapping_counterexample :
    ¬ (0 > example_layout.USER_END ∨ (0 + 4096) % ULONG_SIZE > example_layout.USER_END) ∧
    granting_kernel.sys_mprotect full_table.trace 0 4096 (4 &&& (ULONG_SIZE - 1 - PROT_EXEC))
      &&& PG_MASK = 0 ∧
    4 &&& PROT_EXEC ≠ 0 ∧
    (user_mprotect example_layout granting_kernel full_table 0 4096 4).isDie = true := by
  refine ⟨by decide, by decide, by decide, ?_⟩
  apply user_mprotect_exec_dies _ _ _ _ _ _ (by decide) (by decide) (by decide) rfl
  intro j hj
  rw [overlap_eq_false_iff]
  right
  have h1 : PAGE_NEXT 4096 = 4096 := by decide
  have h2 : (full_table.codemaps j).addr = 65536 * (j + 1) := rfl
  rw [h1, h2]
  simp only [ULONG_SIZE]
  omega

/-- Witness for C9: mapping `[0x2000, 0x3000)` executable over `two_regions` returns and
leaves a slot with exactly that range and no translated code. -/
theorem table_follows_mapping_witness :
    (user_mmap2 example_layout granting_kernel two_regions 8192 4096 5 50 (-1) 0).table_after? =
      some [{ addr := 4096, len := 4096, jit_addr := 0, jit_len := 0,
              inode := 7, dev := 8, mtime := 9, pgoffset := 3 },
            { addr := 8192, len := 4096, jit_addr := 0, jit_len := 0,
              inode := 0, dev := 0, mtime := 0, pgoffset := 0 },
            { addr := 16384, len := 4096, jit_addr := 0, jit_len := 0,
              inode := 0, dev := 0, mtime := 0, pgoffset := 0 }] ∧
    (user_mmap2 example_layout granting_kernel two_regions 8192 4096 5 50 (-1) 0).isOk = true :=
  ⟨by decide,
   (table_follows_mapping example_layout granting_kernel two_regions 8192 4096 5 50 (-1) 0
      (by decide)).1.2.2 (by decide) (by decide) (by decide) (by decide)⟩

/-- C10 (shadow mapping), amended for the protection of the shadow.  For an
in-ceiling `user_mmap2` call whose kernel call is granted with result `ret` (no low
12 bit set), the first two events of the call are the real mapping and a second
`sys_mmap2` at `ret + TAINT_OFFSET` (an `unsigned long` sum) of the same length,
with flags `MAP_PRIVATE|MAP_FIXED|MAP_ANONYMOUS`, descriptor -1 and offset 0, and
with the protection `new_prot` of the real mapping: `prot` when `PROT_EXEC` was not
requested, `prot` with `PROT_EXEC` cleared and `PROT_READ` set when it was.  When
the call returns it returns `ret`. -/
theorem shadow_mapping (L : Layout) (K : Kernel) (st : State)
    (addr length prot flags : Nat) (fd : Int) (pgoffset : Nat)
    (hceil : ¬ (addr > L.USER_END ∨ (addr + length) % ULONG_SIZE > L.USER_END))
    (hret : K.sys_mmap2 st.trace addr length (mmap_new_prot prot) flags fd pgoffset
      &&& PG_MASK = 0) :
    ((user_mmap2 L K st addr length prot flags fd pgoffset).events.drop st.trace.length).take 2 =
      [Event.sys_mmap2 addr length (mmap_new_prot prot) flags fd pgoffset,
       Event.sys_mmap2
        ((K.sys_mmap2 st.trace addr length (mmap_new_prot prot) flags fd pgoffset +
          L.TAINT_OFFSET) % ULONG_SIZE)
        length (mmap_new_prot prot) (MAP_PRIVATE ||| MAP_FIXED ||| MAP_ANONYMOUS) (-1) 0] ∧
    (∀ r st', user_mmap2 L K st addr length prot flags fd pgoffset = Outcome.ok (r, st') →
      r = K.sys_mmap2 st.trace addr length (mmap_new_prot prot) flags fd pgoffset) ∧
    (prot &&& PROT_EXEC = 0 → mmap_new_prot prot = prot) ∧
    (prot &&& PROT_EXEC ≠ 0 →
      mmap_new_prot prot &&& PROT_EXEC = 0 ∧ mmap_new_prot prot &&& PROT_READ = PROT_READ ∧
      ∀ i, i < 32 → i ≠ 0 → i ≠ 2 → (mmap_new_prot prot).testBit i = prot.testBit i) := by
  refine ⟨?_, ?_, ?_, ?_⟩
  · obtain ⟨evs, -, h2⟩ := user_mmap2_events L K st addr length prot flags fd pgoffset hceil
    rw [h2, if_pos hret]
    simp
  · intro r st' h
    exact ((user_mmap2_follows L K st addr length prot flags fd pgoffset hceil).2.1 hret
      r st' h).1
  · intro h
    unfold mmap_new_prot
    rw [if_neg (by simpa using h)]
  · intro h
    exact ⟨mmap_new_prot_and_exec prot, mmap_new_prot_of_exec prot h⟩

/-- Counterexample to C10 as stated: a successful read-only mapping of
`[0x10000, 0x12000)` maps the shadow at `0x60010000` read-only (protection 1), not
read/write (protection 3). -/
theorem shadow_mapping_counterexample :
    (user_mmap2 example_layout granting_kernel State.init 65536 8192 PROT_READ 34 (-1) 0).ret? =
      some 65536 ∧
    (user_mmap2 example_layout granting_kernel State.init 65536 8192 PROT_READ 34 (-1) 0).events =
      [Event.sys_mmap2 65536 8192 1 34 (-1) 0,
       Event.sys_mmap2 1610678272 8192 1 50 (-1) 0,
       Event.mutex_lock lock_t.jit_lock, Event.mutex_lock lock_t.codemap_lock,
       Event.mutex_unlock lock_t.codemap_lock, Event.mutex_unlock lock_t.jit_lock] ∧
    Event.sys_mmap2 (65536 + example_layout.TAINT_OFFSET) 8192 (PROT_READ ||| PROT_WRITE)
        (MAP_PRIVATE ||| MAP_FIXED ||| MAP_ANONYMOUS) (-1) 0 ∉
      (user_mmap2 example_layout granting_kernel State.init 65536 8192 PROT_READ 34 (-1) 0).events := by
  decide

/-- Witness for C10: the same read-only mapping, with its shadow. -/
theorem shadow_mapping_witness :
    ((user_mmap2 example_layout granting_kernel State.init 65536 8192 PROT_READ 34 (-1)
        0).events.drop State.init.trace.length).take 2 =
      [Event.sys_mmap2 65536 8192 (mmap_new_prot PROT_READ) 34 (-1) 0,
       Event.sys_mmap2
        ((granting_kernel.sys_mmap2 State.init.trace 65536 8192 (mmap_new_prot PROT_READ) 34 (-1)
            0 + example_layout.TAINT_OFFSET) % ULONG_SIZE)
        8192 (mmap_new_prot PROT_READ) (MAP_PRIVATE ||| MAP_FIXED ||| MAP_ANONYMOUS) (-1) 0] :=
  (shadow_mapping example_layout granting_kernel State.init 65536 8192 PROT_READ 34 (-1) 0
    (by decide) (by decide)).1

/-- The page-rounded range of an in-ceiling request lies inside the address space
when the ceiling leaves the last page of the address space free. -/
theorem page_next_in_space (L : Layout) (addr length : Nat)
    (hL : L.USER_END + 4096 ≤ ULONG_SIZE) (hceil : addr + length ≤ L.USER_END) :
    addr + PAGE_NEXT length < ULONG_SIZE := by
  unfold PAGE_NEXT
  have h1 : (length + 4095) % ULONG_SIZE = length + 4095 :=
    Nat.mod_eq_of_lt (by simp only [ULONG_SIZE] at hL ⊢; omega)
  rw [h1]
  have h2 : (length + 4095) / 4096 * 4096 ≤ length + 4095 := Nat.div_mul_le_self _ _
  simp only [ULONG_SIZE] at hL ⊢
  omega

/-- For every ceiling from 1 up and every kernel, the request `addr = 1`,
`length = 0xFFFFFFFF`, whose range ends beyond every ceiling, passes the check of
`user_munmap` and reaches the kernel. -/
theorem user_munmap_wraps (L : Layout) (K : Kernel) (st : State) (h : 1 ≤ L.USER_END) :
    ∃ evs, (user_munmap L K st 1 4294967295).events =
      st.trace ++ Event.sys_munmap 1 4294967295 :: evs := by
  have hceil : ¬ (1 > L.USER_END ∨ (1 + 4294967295) % ULONG_SIZE > L.USER_END) := by
    have : (1 + 4294967295) % ULONG_SIZE = 0 := by decide
    rw [this]
    omega
  unfold user_munmap
  rw [if_neg hceil]
  simp only
  split
  · rw [events_then_return]
    have hq := trace_del_code_region (st.emit (Event.sys_munmap 1 4294967295)) 1
      (PAGE_NEXT 4294967295)
    cases hd : del_code_region (st.emit (Event.sys_munmap 1 4294967295)) 1
        (PAGE_NEXT 4294967295) with
    | diverge => exact absurd hd (del_code_region_ne_diverge _ _ _)
    | ok s =>
      rw [hd] at hq
      obtain ⟨evs, h1, -⟩ := hq s.trace rfl
      exact ⟨evs, by simp [Outcome.trace?, h1]⟩
    | die t =>
      rw [hd] at hq
      obtain ⟨evs, h1, -⟩ := hq t.trace rfl
      exact ⟨evs, by simp [Outcome.trace?, h1]⟩
  · exact ⟨[], by simp [Outcome.events]⟩

/-! ## Claims on the lookups and on the capacity -/

theorem contains_le_end (a l x : Nat) (h : contains a l x = true) : a ≤ x ∧ x < a + l := by
  rw [contains_eq_true_iff] at h
  have := Nat.mod_le (a + l) ULONG_SIZE
  omega

/-- The shared scan returns the first live slot whose range, as selected by `key`,
contains the target, and NULL exactly when no live slot does. -/
theorem find_loop_spec (key : code_map_t → Nat × Nat) (cm : Nat → code_map_t) (n target : Nat) :
    (∀ k, find_loop key cm n target n 0 = some k →
      k < n ∧ contains (key (cm k)).1 (key (cm k)).2 target = true ∧
      ∀ j, j < k → contains (key (cm j)).1 (key (cm j)).2 target = false) ∧
    (find_loop key cm n target n 0 = none ↔
      ∀ j, j < n → contains (key (cm j)).1 (key (cm j)).2 target = false) := by
  constructor
  · intro k h
    obtain ⟨-, h2, h3, h4⟩ := find_loop_some _ _ _ _ _ _ _ h
    exact ⟨h2, h3, fun j hj => h4 j (Nat.zero_le _) hj⟩
  · constructor
    · intro h j hj
      exact find_loop_none _ _ _ _ _ _ (by omega) h j (Nat.zero_le _) hj
    · intro h
      cases hf : find_loop key cm n target n 0 with
      | none => rfl
      | some k =>
        obtain ⟨-, h2, h3, -⟩ := find_loop_some _ _ _ _ _ _ _ hf
        rw [h k h2] at h3
        simp at h3

theorem disjoint_ranges_no_common (a b : code_map_t) (x : Nat) (h : disjoint_ranges a b)
    (ha : contains a.addr a.len x = true) (hb : contains b.addr b.len x = true) : False := by
  have h1 := contains_le_end _ _ _ ha
  have h2 := contains_le_end _ _ _ hb
  unfold disjoint_ranges at h
  omega

/-- C12 (lookup correctness).  For every table and address `x`: when
`find_code_map(x)` returns a slot, that slot is live and its guest range
contains `x` (it is the first such slot); it returns NULL exactly when no live
slot contains `x`; when the ranges of the table are pairwise disjoint the
returned slot is the only live slot that contains `x`.  `find_jit_code_map(x)` does
the same with the range `[jit_addr, jit_addr+jit_len)`, and so never returns a slot
with `jit_addr = NULL` and `jit_len = 0`.  Both leave the array, `n_codemaps` and
the break pointers as they were and only take and release `codemap_lock`. -/
theorem lookup_correctness (st : State) (x : Nat) :
    (∀ k, (find_code_map st x).1 = some k →
      k < st.n_codemaps ∧ contains (st.codemaps k).addr (st.codemaps k).len x = true ∧
      ∀ j, j < k → contains (st.codemaps j).addr (st.codemaps j).len x = false) ∧
    ((find_code_map st x).1 = none ↔
      ∀ j, j < st.n_codemaps → contains (st.codemaps j).addr (st.codemaps j).len x = false) ∧
    (non_overlapping st.table → ∀ k, (find_code_map st x).1 = some k →
      ∀ j, j < st.n_codemaps →
        contains (st.codemaps j).addr (st.codemaps j).len x = true → j = k) ∧
    (∀ k, (find_jit_code_map st x).1 = some k →
      k < st.n_codemaps ∧
      contains (st.codemaps k).jit_addr (st.codemaps k).jit_len x = true ∧
      ¬ ((st.codemaps k).jit_addr = 0 ∧ (st.codemaps k).jit_len = 0) ∧
      ∀ j, j < k → contains (st.codemaps j).jit_addr (st.codemaps j).jit_len x = false) ∧
    ((find_jit_code_map st x).1 = none ↔
      ∀ j, j < st.n_codemaps →
        contains (st.codemaps j).jit_addr (st.codemaps j).jit_len x = false) ∧
    (find_code_map st x).2 =
      { st with trace := st.trace ++ [Event.mutex_lock lock_t.codemap_lock,
                                      Event.mutex_unlock lock_t.codemap_lock] } ∧
    (find_jit_code_map st x).2 =
      { st with trace := st.trace ++ [Event.mutex_lock lock_t.codemap_lock,
                                      Event.mutex_unlock lock_t.codemap_lock] } := by
  have hg := find_loop_spec (fun m => (m.addr, m.len)) st.codemaps st.n_codemaps x
  have hj := find_loop_spec (fun m => (m.jit_addr, m.jit_len)) st.codemaps st.n_codemaps x
  refine ⟨hg.1, hg.2, ?_, ?_, hj.2, rfl, rfl⟩
  · intro hdisj k hk j hjn hc
    obtain ⟨k1, k2, -⟩ := hg.1 k hk
    by_contra hne
    rcases Nat.lt_or_gt_of_ne hne with h | h
    · exact disjoint_ranges_no_common _ _ x (pairwise_getElem_table st hdisj j k h k1) hc k2
    · exact disjoint_ranges_no_common _ _ x (pairwise_getElem_table st hdisj k j h hjn) k2 hc
  · intro k hk
    obtain ⟨k1, k2, k3⟩ := hj.1 k hk
    refine ⟨k1, k2, ?_, k3⟩
    rintro ⟨h1, h2⟩
    simp only at k2
    rw [h1, h2] at k2
    simp [contains] at k2

/-- Witness for C12: in `two_regions`, the address `0x4800` is found in slot 1 and in no
other slot. -/
theorem lookup_correctness_witness :
    (find_code_map two_regions 18432).1 = some 1 ∧
    ∀ j, j < two_regions.n_codemaps →
      contains (two_regions.codemaps j).addr (two_regions.codemaps j).len 18432 = true → j = 1 :=
  ⟨by decide,
   (lookup_correctness two_regions 18432).2.2.1 (by decide) 1 (by decide)⟩

/-! ## The state in which a pass of the loop body ends -/

theorem filter_add_code_map (st st1 : State) (map : code_map_t)
    (h : add_code_map st map = Outcome.ok st1) (p : code_map_t → Bool) (hp : p map = false) :
    st1.table.filter p = st.table.filter p := by
  obtain ⟨-, -, -, -, -, q, -, hq, -⟩ := table_add_code_map st st1 map h
  rw [hq, List.filter_append, List.filter_cons_of_neg (by simp [hp]), ← List.filter_append,
    List.take_append_drop]

theorem trace_del_code_map_eq (st : State) (i : Nat) :
    (del_code_map st i).trace = st.trace ++ clear_events (st.codemaps i) := by
  unfold del_code_map clear_events clear_code_map
  by_cases h : (st.codemaps i).jit_addr = 0
  · simp [h]
  · simp [h]

/-- The state in which a pass of the loop body ends, by return or by `die`: the trace
has gained the events for the deleted entry, the break is untouched, the bound on
`n_codemaps` is kept, and the entries that are no residuals are those of the table
without slot `i`, in their order. -/
theorem del_code_region_body_final (addr len : Nat) (st s : State) (i : Nat)
    (hi : i < st.n_codemaps) (h : (del_code_region_body addr len st i).final? = some s) :
    s.trace = st.trace ++ clear_events (st.codemaps i) ∧
    s.brk_cur = st.brk_cur ∧ s.brk_min = st.brk_min ∧
    (st.n_codemaps ≤ MAX_CODEMAPS → s.n_codemaps ≤ MAX_CODEMAPS) ∧
    (∀ p : code_map_t → Bool, (∀ m ∈ residuals addr len (st.codemaps i), p m = false) →
      s.table.filter p = (st.table.eraseIdx i).filter p) := by
  obtain ⟨d1, d2, d3, d4, -⟩ := del_code_map_facts st i hi
  have d5 := trace_del_code_map_eq st i
  have key : ∀ (t t1 : State) (map : code_map_t),
      (add_code_map t map).final? = some t1 →
      t1.trace = t.trace ∧ t1.brk_cur = t.brk_cur ∧ t1.brk_min = t.brk_min ∧
      (t.n_codemaps ≤ MAX_CODEMAPS → t1.n_codemaps ≤ MAX_CODEMAPS) ∧
      (∀ p : code_map_t → Bool, p map = false → t1.table.filter p = t.table.filter p) := by
    intro t t1 map ht
    cases ha : add_code_map t map with
    | diverge => rw [ha] at ht; simp [Outcome.final?] at ht
    | die u =>
      rw [ha] at ht
      simp only [Outcome.final?, Option.some.injEq] at ht
      obtain ⟨a1, -⟩ := add_code_map_die _ _ _ ha
      subst ht; subst a1
      exact ⟨rfl, rfl, rfl, id, fun _ _ => rfl⟩
    | ok u =>
      rw [ha] at ht
      simp only [Outcome.final?, Option.some.injEq] at ht
      subst ht
      obtain ⟨a1, a2, a3, a4, a5, -⟩ := table_add_code_map _ _ _ ha
      exact ⟨a3, a4, a5, fun _ => by omega, fun p hp => filter_add_code_map _ _ _ ha p hp⟩
  have hbase : (del_code_map st i).trace = st.trace ++ clear_events (st.codemaps i) ∧
      (del_code_map st i).brk_cur = st.brk_cur ∧ (del_code_map st i).brk_min = st.brk_min ∧
      (st.n_codemaps ≤ MAX_CODEMAPS → (del_code_map st i).n_codemaps ≤ MAX_CODEMAPS) ∧
      (∀ p : code_map_t → Bool, (∀ m ∈ residuals addr len (st.codemaps i), p m = false) →
        (del_code_map st i).table.filter p = (st.table.eraseIdx i).filter p) :=
    ⟨d5, d3, d4, fun _ => by omega, fun p _ => by rw [d1]⟩
  unfold del_code_region_body at h
  simp only [gt_iff_lt] at h
  by_cases hl : (st.codemaps i).addr < addr
  · simp only [if_pos hl] at h
    have hlres : left_residual addr (st.codemaps i) ∈ residuals addr len (st.codemaps i) := by
      unfold residuals
      simp [hl]
    cases ha : add_code_map (del_code_map st i)
        { st.codemaps i with jit_addr := 0, jit_len := 0, len := addr - (st.codemaps i).addr } with
    | diverge => rw [ha] at h; simp [Outcome.final?] at h
    | die t =>
      rw [ha] at h
      obtain ⟨k1, k2, k3, k4, k5⟩ := key _ s _ (by rw [ha]; exact h)
      exact ⟨by rw [k1, d5], by rw [k2, d3], by rw [k3, d4], fun hn => k4 (hbase.2.2.2.1 hn),
        fun p hp => by rw [k5 p (hp _ hlres), d1]⟩
    | ok st2 =>
      rw [ha] at h
      simp only at h
      obtain ⟨k1, k2, k3, k4, k5⟩ := key _ st2 _ (by rw [ha]; rfl)
      have hmid : st2.trace = st.trace ++ clear_events (st.codemaps i) ∧
          st2.brk_cur = st.brk_cur ∧ st2.brk_min = st.brk_min ∧
          (st.n_codemaps ≤ MAX_CODEMAPS → st2.n_codemaps ≤ MAX_CODEMAPS) ∧
          (∀ p : code_map_t → Bool, (∀ m ∈ residuals addr len (st.codemaps i), p m = false) →
            st2.table.filter p = (st.table.eraseIdx i).filter p) :=
        ⟨by rw [k1, d5], by rw [k2, d3], by rw [k3, d4], fun hn => k4 (hbase.2.2.2.1 hn),
          fun p hp => by rw [k5 p (hp _ hlres), d1]⟩
      by_cases hr : (addr + len) % ULONG_SIZE < ((st.codemaps i).addr + (st.codemaps i).len) % ULONG_SIZE
      · simp only [if_pos hr] at h
        have hrres : right_residual addr len (st.codemaps i) ∈
            residuals addr len (st.codemaps i) := by
          unfold residuals
          simp [hr]
        obtain ⟨r1, r2, r3, r4, r5⟩ := key _ s _ h
        obtain ⟨m1, m2, m3, m4, m5⟩ := hmid
        exact ⟨by rw [r1, m1], by rw [r2, m2], by rw [r3, m3], fun hn => r4 (m4 hn),
          fun p hp => by rw [r5 p (hp _ hrres), m5 p hp]⟩
      · simp only [if_neg hr, Outcome.final?, Option.some.injEq] at h
        subst h
        exact hmid
  · simp only [if_neg hl] at h
    by_cases hr : (addr + len) % ULONG_SIZE < ((st.codemaps i).addr + (st.codemaps i).len) % ULONG_SIZE
    · simp only [if_pos hr] at h
      have hrres : right_residual addr len (st.codemaps i) ∈
          residuals addr len (st.codemaps i) := by
        unfold residuals
        simp [hr]
      obtain ⟨r1, r2, r3, r4, r5⟩ := key _ s _ h
      obtain ⟨m1, m2, m3, m4, m5⟩ := hbase
      exact ⟨by rw [r1, m1], by rw [r2, m2], by rw [r3, m3], fun hn => r4 (m4 hn),
        fun p hp => by rw [r5 p (hp _ hrres), m5 p hp]⟩
    · simp only [if_neg hr, Outcome.final?, Option.some.injEq] at h
      subst h
      exact hbase

/-! ## The bound on `n_codemaps` and the break across the calls -/

/-- The break pointers and the bound on `n_codemaps` are kept by `del_code_region`, also
when it ends in `die`. -/
theorem del_code_region_final (st s : State) (addr len : Nat)
    (h : (del_code_region st addr len).final? = some s) :
    s.brk_cur = st.brk_cur ∧ s.brk_min = st.brk_min ∧
    (st.n_codemaps ≤ MAX_CODEMAPS → s.n_codemaps ≤ MAX_CODEMAPS) := by
  have hemit : ∀ (t : State) (e : Event),
      (t.brk_cur = st.brk_cur ∧ t.brk_min = st.brk_min ∧
        (st.n_codemaps ≤ MAX_CODEMAPS → t.n_codemaps ≤ MAX_CODEMAPS)) →
      ((t.emit e).brk_cur = st.brk_cur ∧ (t.emit e).brk_min = st.brk_min ∧
        (st.n_codemaps ≤ MAX_CODEMAPS → (t.emit e).n_codemaps ≤ MAX_CODEMAPS)) := by
    intro t e ht
    simpa using ht
  have hany : ∀ (t : State) (i : Nat) (t1 : State),
      (t.brk_cur = st.brk_cur ∧ t.brk_min = st.brk_min ∧
        (st.n_codemaps ≤ MAX_CODEMAPS → t.n_codemaps ≤ MAX_CODEMAPS)) → i < t.n_codemaps →
      (del_code_region_body addr len t i).final? = some t1 →
      (t1.brk_cur = st.brk_cur ∧ t1.brk_min = st.brk_min ∧
        (st.n_codemaps ≤ MAX_CODEMAPS → t1.n_codemaps ≤ MAX_CODEMAPS)) := by
    intro t i t1 ht hi hb
    obtain ⟨-, b2, b3, b4, -⟩ := del_code_region_body_final addr len t t1 i hi hb
    exact ⟨by rw [b2, ht.1], by rw [b3, ht.2.1], fun hn => b4 (ht.2.2 hn)⟩
  cases hr : del_code_region st addr len with
  | diverge => rw [hr] at h; simp [Outcome.final?] at h
  | ok t =>
    rw [hr] at h
    simp only [Outcome.final?, Option.some.injEq] at h
    subst h
    exact (del_code_region_inv addr len _ hemit
      (fun t i t1 ht hi _ hb => hany t i t1 ht hi (by rw [hb]; rfl)) st _ ⟨rfl, rfl, id⟩ hr).1
  | die t =>
    rw [hr] at h
    simp only [Outcome.final?, Option.some.injEq] at h
    subst h
    exact del_code_region_die_inv addr len _ hemit
      (fun t i t1 ht hi _ hb => hany t i t1 ht hi (by rw [hb]; rfl))
      (fun t i t1 ht hi _ hb => hany t i t1 ht hi (by rw [hb]; rfl)) st _ ⟨rfl, rfl, id⟩ hr

theorem add_code_region_final (st s : State) (addr len inode dev mtime pgoffset : Nat)
    (h : (add_code_region st addr len inode dev mtime pgoffset).final? = some s) :
    s.brk_cur = st.brk_cur ∧ s.brk_min = st.brk_min ∧
    (st.n_codemaps ≤ MAX_CODEMAPS → s.n_codemaps ≤ MAX_CODEMAPS) := by
  unfold add_code_region at h
  cases hd : del_code_region st addr len with
  | diverge => rw [hd] at h; simp [Outcome.final?] at h
  | die t =>
    rw [hd] at h
    simp only [Outcome.final?, Option.some.injEq] at h
    subst h
    exact del_code_region_final st _ addr len (by rw [hd]; rfl)
  | ok st1 =>
    rw [hd] at h
    simp only at h
    obtain ⟨e1, e2, e3⟩ := del_code_region_final st st1 addr len (by rw [hd]; rfl)
    cases ha : add_code_map (st1.emit (Event.mutex_lock lock_t.codemap_lock))
        { addr := addr, len := len, jit_addr := 0, jit_len := 0,
          dev := dev, inode := inode, mtime := mtime, pgoffset := pgoffset } with
    | diverge => rw [ha] at h; simp [Outcome.final?] at h
    | die t =>
      rw [ha] at h
      simp only [Outcome.final?, Option.some.injEq] at h
      subst h
      obtain ⟨a1, -⟩ := add_code_map_die _ _ _ ha
      subst a1
      simpa using ⟨e1, e2, e3⟩
    | ok st2 =>
      rw [ha] at h
      simp only [Outcome.final?, Option.some.injEq] at h
      subst h
      obtain ⟨a1, a2, -, a4, a5, -⟩ := table_add_code_map _ _ _ ha
      simp only [n_codemaps_emit, brk_cur_emit, brk_min_emit] at a1 a2 a4 a5 ⊢
      exact ⟨by rw [a4, e1], by rw [a5, e2], fun _ => by omega⟩

theorem after_then_return (o : Outcome State) (ret : Nat) :
    (o.then_return ret).after? = o.final? := by
  cases o <;> rfl

theorem user_mmap2_after (L : Layout) (K : Kernel) (st s : State)
    (addr length prot flags : Nat) (fd : Int) (pgoffset : Nat)
    (h : (user_mmap2 L K st addr length prot flags fd pgoffset).after? = some s) :
    s.brk_cur = st.brk_cur ∧ s.brk_min = st.brk_min ∧
    (st.n_codemaps ≤ MAX_CODEMAPS → s.n_codemaps ≤ MAX_CODEMAPS) := by
  unfold user_mmap2 at h
  split at h
  · simp only [Outcome.after?, Option.some.injEq] at h
    subst h
    exact ⟨rfl, rfl, id⟩
  · simp only at h
    split at h
    · split at h
      · rw [after_then_return] at h
        have := add_code_region_final _ _ _ _ _ _ _ _ h
        split at this <;> simpa using this
      · rw [after_then_return] at h
        simpa using del_code_region_final _ _ _ _ h
    · simp only [Outcome.after?, Option.some.injEq] at h
      subst h
      exact ⟨rfl, rfl, id⟩

theorem user_munmap_after (L : Layout) (K : Kernel) (st s : State) (addr length : Nat)
    (h : (user_munmap L K st addr length).after? = some s) :
    s.brk_cur = st.brk_cur ∧ s.brk_min = st.brk_min ∧
    (st.n_codemaps ≤ MAX_CODEMAPS → s.n_codemaps ≤ MAX_CODEMAPS) := by
  unfold user_munmap at h
  split at h
  · simp only [Outcome.after?, Option.some.injEq] at h
    subst h
    exact ⟨rfl, rfl, id⟩
  · simp only at h
    split at h
    · rw [after_then_return] at h
      simpa using del_code_region_final _ _ _ _ h
    · simp only [Outcome.after?, Option.some.injEq] at h
      subst h
      exact ⟨rfl, rfl, id⟩

theorem user_mprotect_after (L : Layout) (K : Kernel) (st s : State) (addr length prot : Nat)
    (h : (user_mprotect L K st addr length prot).after? = some s) :
    s.brk_cur = st.brk_cur ∧ s.brk_min = st.brk_min ∧
    (st.n_codemaps ≤ MAX_CODEMAPS → s.n_codemaps ≤ MAX_CODEMAPS) := by
  unfold user_mprotect at h
  split at h
  · simp only [Outcome.after?, Option.some.injEq] at h
    subst h
    exact ⟨rfl, rfl, id⟩
  · simp only at h
    split at h
    · split at h
      · rw [after_then_return] at h
        simpa using add_code_region_final _ _ _ _ _ _ _ _ h
      · rw [after_then_return] at h
        simpa using del_code_region_final _ _ _ _ h
    · simp only [Outcome.after?, Option.some.injEq] at h
      subst h
      exact ⟨rfl, rfl, id⟩

theorem set_brk_min_facts (L : Layout) (st : State) (b : Nat) :
    (set_brk_min L st b).2.codemaps = st.codemaps ∧
    (set_brk_min L st b).2.n_codemaps = st.n_codemaps ∧
    (set_brk_min L st b).2.brk_min = (if b ≤ L.USER_END then max st.brk_min b else st.brk_min) ∧
    (set_brk_min L st b).2.brk_cur =
      (if b ≤ L.USER_END ∧ st.brk_min < b then b else st.brk_cur) ∧
    (set_brk_min L st b).2.trace =
      (if b ≤ L.USER_END then st.trace ++ [Event.sys_brk b] else st.trace) ∧
    (set_brk_min L st b).1 =
      (if b ≤ L.USER_END then (if st.brk_min < b then b else st.brk_cur) else ULONG_SIZE - 1) := by
  unfold set_brk_min
  by_cases h1 : b > L.USER_END
  · have h1n : ¬ b ≤ L.USER_END := by omega
    rw [if_pos h1]
    simp only [if_neg h1n, h1n, false_and, if_false]
    refine ⟨trivial, trivial, trivial, trivial, trivial, ?_⟩
    decide
  · have h1p : b ≤ L.USER_END := by omega
    rw [if_neg h1]
    by_cases h2 : b > st.brk_min
    · have h2p : st.brk_min < b := h2
      have hm : max st.brk_min b = b := Nat.max_eq_right (by omega)
      simp [h2p, h1p, hm, State.emit]
    · have h2n : ¬ st.brk_min < b := h2
      have hm : max st.brk_min b = st.brk_min := Nat.max_eq_left (by omega)
      simp [h2n, h1p, hm, State.emit]

/-- The state after `user_brk`, by return or by `die`: the floor is untouched, the bound
on `n_codemaps` is kept, and the break is the new one when the call returned with
`new_brk` in range, the old one otherwise. -/
theorem user_brk_after (L : Layout) (K : Kernel) (st s : State) (b : Nat)
    (h : (user_brk L K st b).after? = some s) :
    s.brk_min = st.brk_min ∧
    (st.n_codemaps ≤ MAX_CODEMAPS → s.n_codemaps ≤ MAX_CODEMAPS) ∧
    (s.brk_cur = st.brk_cur ∨ (s.brk_cur = b ∧ b ≤ L.USER_END ∧ st.brk_min ≤ b)) := by
  unfold user_brk at h
  by_cases hr : b ≤ L.USER_END ∧ b ≥ st.brk_min
  · simp only [if_pos hr] at h
    have hgen : ∀ o : Outcome (Nat × State),
        (∀ t, o.after? = some t → t.brk_cur = st.brk_cur ∧ t.brk_min = st.brk_min ∧
          (st.n_codemaps ≤ MAX_CODEMAPS → t.n_codemaps ≤ MAX_CODEMAPS)) →
        (match o with
          | Outcome.ok r => Outcome.ok (b, { r.2 with brk_cur := b })
          | Outcome.die s => Outcome.die s
          | Outcome.diverge => (Outcome.diverge : Outcome (Nat × State))).after? = some s →
        s.brk_min = st.brk_min ∧
        (st.n_codemaps ≤ MAX_CODEMAPS → s.n_codemaps ≤ MAX_CODEMAPS) ∧
        (s.brk_cur = st.brk_cur ∨ (s.brk_cur = b ∧ b ≤ L.USER_END ∧ st.brk_min ≤ b)) := by
      intro o ho hs
      cases o with
      | diverge => simp [Outcome.after?] at hs
      | die t =>
        simp only [Outcome.after?, Option.some.injEq] at hs
        subst hs
        obtain ⟨t1, t2, t3⟩ := ho _ rfl
        exact ⟨t2, t3, Or.inl t1⟩
      | ok r =>
        simp only [Outcome.after?, Option.some.injEq] at hs
        subst hs
        obtain ⟨t1, t2, t3⟩ := ho r.2 rfl
        exact ⟨t2, t3, Or.inr ⟨rfl, hr.1, hr.2⟩⟩
    refine hgen _ ?_ h
    intro t ht
    split at ht
    · exact user_mmap2_after _ _ _ _ _ _ _ _ _ _ ht
    · split at ht
      · exact user_munmap_after _ _ _ _ _ _ ht
      · simp only [Outcome.after?, Option.some.injEq] at ht
        subst ht
        exact ⟨rfl, rfl, id⟩
  · simp only [if_neg hr, Outcome.after?, Option.some.injEq] at h
    subst h
    exact ⟨rfl, id, Or.inl rfl⟩

theorem final_drop_ret (o : Outcome (Nat × State)) : o.drop_ret.final? = o.after? := by
  cases o <;> rfl

/-- Every entry point keeps `n_codemaps ≤ MAX_CODEMAPS`, also when it ends in `die`. -/
theorem op_bound (L : Layout) (K : Kernel) (st s : State) (c : Op)
    (hn : st.n_codemaps ≤ MAX_CODEMAPS) (h : (c.exec L K st).final? = some s) :
    s.n_codemaps ≤ MAX_CODEMAPS := by
  cases c with
  | add_code_region addr len inode dev mtime pgoffset =>
    exact (add_code_region_final _ _ _ _ _ _ _ _ h).2.2 hn
  | del_code_region addr len => exact (del_code_region_final _ _ _ _ h).2.2 hn
  | find_code_map addr =>
    simp only [Op.exec, Outcome.final?, Option.some.injEq] at h
    subst h
    exact hn
  | find_jit_code_map jit_addr =>
    simp only [Op.exec, Outcome.final?, Option.some.injEq] at h
    subst h
    exact hn
  | user_mmap2 addr length prot flags fd pgoffset =>
    simp only [Op.exec, final_drop_ret] at h
    exact (user_mmap2_after _ _ _ _ _ _ _ _ _ _ h).2.2 hn
  | user_munmap addr length =>
    simp only [Op.exec, final_drop_ret] at h
    exact (user_munmap_after _ _ _ _ _ _ h).2.2 hn
  | user_mprotect addr length prot =>
    simp only [Op.exec, final_drop_ret] at h
    exact (user_mprotect_after _ _ _ _ _ _ _ h).2.2 hn
  | set_brk_min b =>
    simp only [Op.exec, Outcome.final?, Option.some.injEq] at h
    subst h
    rw [(set_brk_min_facts L st b).2.1]
    exact hn
  | user_brk b =>
    simp only [Op.exec, final_drop_ret] at h
    exact (user_brk_after _ _ _ _ _ h).2.1 hn

theorem run_ops_bound (L : Layout) (K : Kernel) :
    ∀ (cs : List Op) (st s : State), st.n_codemaps ≤ MAX_CODEMAPS →
      (run_ops L K st cs).final? = some s → s.n_codemaps ≤ MAX_CODEMAPS := by
  intro cs
  induction cs with
  | nil =>
    intro st s hn h
    simp only [run_ops, Outcome.final?, Option.some.injEq] at h
    subst h
    exact hn
  | cons c cs ih =>
    intro st s hn h
    simp only [run_ops] at h
    cases hc : c.exec L K st with
    | diverge => rw [hc] at h; simp [Outcome.final?] at h
    | die t =>
      rw [hc] at h
      simp only [Outcome.final?, Option.some.injEq] at h
      subst h
      exact op_bound L K st _ c hn (by rw [hc]; rfl)
    | ok st1 =>
      rw [hc] at h
      exact ih st1 s (op_bound L K st _ c hn (by rw [hc]; rfl)) h

/-! ## Claim on the capacity -/

/-- C13 (capacity bound).  In a state with `n_codemaps ≤ MAX_CODEMAPS`: `add_code_map`
ends in `die` exactly when the table holds `MAX_CODEMAPS` entries, and then leaves
the state as it was; otherwise it returns, `n_codemaps` has grown by exactly one
and the live table is a rearrangement of the old entries and the new one; and
`n_codemaps ≤ MAX_CODEMAPS` still holds after `del_code_map` and after every entry
point of codemap.c and mm.c, whether it returned or ended in `die`, hence after
every sequence of such calls from the empty table. -/
theorem capacity_bound (L : Layout) (K : Kernel) (st : State)
    (hn : st.n_codemaps ≤ MAX_CODEMAPS) :
    (∀ map, (add_code_map st map).isDie = true ↔ st.n_codemaps = MAX_CODEMAPS) ∧
    (∀ map s, add_code_map st map = Outcome.die s → s = st) ∧
    (∀ map, st.n_codemaps ≠ MAX_CODEMAPS →
      ∃ st1, add_code_map st map = Outcome.ok st1 ∧
        st1.n_codemaps = st.n_codemaps + 1 ∧ st1.table.Perm (map :: st.table) ∧
        st1.n_codemaps ≤ MAX_CODEMAPS) ∧
    (∀ i, (del_code_map st i).n_codemaps ≤ MAX_CODEMAPS) ∧
    (∀ c s, (Op.exec L K st c).final? = some s → s.n_codemaps ≤ MAX_CODEMAPS) ∧
    (∀ cs s, (run_ops L K State.init cs).final? = some s → s.n_codemaps ≤ MAX_CODEMAPS) := by
  refine ⟨?_, ?_, ?_, ?_, ?_, ?_⟩
  · intro map
    unfold add_code_map
    by_cases h : st.n_codemaps ≥ MAX_CODEMAPS
    · simp only [if_pos h, Outcome.isDie, true_iff]
      omega
    · simp only [if_neg h, Outcome.isDie]
      constructor
      · intro hf
        simp at hf
      · intro hf
        omega
  · intro map s h
    exact (add_code_map_die _ _ _ h).1
  · intro map hne
    have hlt : st.n_codemaps < MAX_CODEMAPS := by omega
    have hok := (add_code_map_ok_iff st map).2 hlt
    cases ha : add_code_map st map with
    | diverge => rw [ha] at hok; simp [Outcome.isOk] at hok
    | die t => rw [ha] at hok; simp [Outcome.isOk] at hok
    | ok st1 =>
      obtain ⟨-, a2, -, -, -, a6, -⟩ := add_code_map_facts _ _ _ ha
      exact ⟨st1, rfl, a2, a6, by omega⟩
  · intro i
    show st.n_codemaps - 1 ≤ MAX_CODEMAPS
    omega
  · intro c s h
    exact op_bound L K st s c hn h
  · intro cs s h
    exact run_ops_bound L K cs State.init s (by decide) h

/-- Witness for C13: in `two_regions`, which holds two entries, `add_code_map` returns
with three entries. -/
theorem capacity_bound_witness :
    two_regions.n_codemaps ≤ MAX_CODEMAPS ∧
    ∀ map, two_regions.n_codemaps ≠ MAX_CODEMAPS →
      ∃ st1, add_code_map two_regions map = Outcome.ok st1 ∧
        st1.n_codemaps = two_regions.n_codemaps + 1 ∧
        st1.table.Perm (map :: two_regions.table) ∧ st1.n_codemaps ≤ MAX_CODEMAPS :=
  ⟨by decide, (capacity_bound example_layout granting_kernel two_regions (by decide)).2.2.1⟩

/-! ## Claims on the program break -/

theorem then_return_ne_diverge (o : Outcome State) (ret : Nat) (h : o ≠ Outcome.diverge) :
    o.then_return ret ≠ Outcome.diverge := by
  cases o with
  | diverge => exact absurd rfl h
  | die t => simp [Outcome.then_return]
  | ok t => simp [Outcome.then_return]

theorem user_mmap2_ne_diverge (L : Layout) (K : Kernel) (st : State)
    (addr length prot flags : Nat) (fd : Int) (pgoffset : Nat) :
    user_mmap2 L K st addr length prot flags fd pgoffset ≠ Outcome.diverge := by
  unfold user_mmap2
  split
  · simp
  · simp only
    split
    · split
      · exact then_return_ne_diverge _ _ (add_code_region_ne_diverge _ _ _ _ _ _ _)
      · exact then_return_ne_diverge _ _ (del_code_region_ne_diverge _ _ _)
    · simp

theorem user_munmap_ne_diverge (L : Layout) (K : Kernel) (st : State) (addr length : Nat) :
    user_munmap L K st addr length ≠ Outcome.diverge := by
  unfold user_munmap
  split
  · simp
  · simp only
    split
    · exact then_return_ne_diverge _ _ (del_code_region_ne_diverge _ _ _)
    · simp

theorem user_brk_ne_diverge (L : Layout) (K : Kernel) (st : State) (b : Nat) :
    user_brk L K st b ≠ Outcome.diverge := by
  unfold user_brk
  split
  · simp only
    split
    · simp
    · simp
    · rename_i h
      split at h
      · exact absurd h (user_mmap2_ne_diverge _ _ _ _ _ _ _ _ _)
      · split at h
        · exact absurd h (user_munmap_ne_diverge _ _ _ _ _)
        · simp at h
  · simp

/-- One call on the break keeps `brk_min ≤ brk_cur ≤ USER_END` and does not lower
`brk_min`, also when it ends in `die`. -/
theorem brk_call_after (L : Layout) (K : Kernel) (st s : State) (c : BrkCall)
    (h : (c.exec L K st).after? = some s) :
    st.brk_min ≤ s.brk_min ∧
    (st.brk_min ≤ st.brk_cur ∧ st.brk_cur ≤ L.USER_END →
      s.brk_min ≤ s.brk_cur ∧ s.brk_cur ≤ L.USER_END) := by
  cases c with
  | set_brk_min b =>
    simp only [BrkCall.exec, Outcome.after?, Option.some.injEq] at h
    subst h
    obtain ⟨-, -, f3, f4, -, -⟩ := set_brk_min_facts L st b
    rw [f3, f4]
    by_cases h1 : b ≤ L.USER_END
    · by_cases h2 : st.brk_min < b
      · rw [if_pos h1, if_pos (And.intro h1 h2), Nat.max_eq_right (by omega)]
        omega
      · rw [if_pos h1, if_neg (fun hc => h2 hc.2), Nat.max_eq_left (by omega)]
        omega
    · rw [if_neg h1, if_neg (fun hc => h1 hc.1)]
      omega
  | user_brk b =>
    simp only [BrkCall.exec] at h
    obtain ⟨u1, -, u3⟩ := user_brk_after L K st s b h
    rw [u1]
    refine ⟨Nat.le_refl _, fun hinv => ?_⟩
    rcases u3 with u | ⟨u, v, w⟩
    · rw [u]; exact hinv
    · rw [u]; exact ⟨w, v⟩

theorem run_brk_calls_after (L : Layout) (K : Kernel) :
    ∀ (cs : List BrkCall) (st s : State), (run_brk_calls L K st cs).final? = some s →
      st.brk_min ≤ s.brk_min ∧
      (st.brk_min ≤ st.brk_cur ∧ st.brk_cur ≤ L.USER_END →
        s.brk_min ≤ s.brk_cur ∧ s.brk_cur ≤ L.USER_END) := by
  intro cs
  induction cs with
  | nil =>
    intro st s h
    simp only [run_brk_calls, Outcome.final?, Option.some.injEq] at h
    subst h
    exact ⟨Nat.le_refl _, id⟩
  | cons c cs ih =>
    intro st s h
    simp only [run_brk_calls] at h
    cases hc : c.exec L K st with
    | diverge => rw [hc] at h; simp [Outcome.final?] at h
    | die t =>
      rw [hc] at h
      simp only [Outcome.final?, Option.some.injEq] at h
      subst h
      exact brk_call_after L K st _ c (by rw [hc]; rfl)
    | ok r =>
      rw [hc] at h
      simp only at h
      obtain ⟨b1, b2⟩ := brk_call_after L K st r.2 c (by rw [hc]; rfl)
      obtain ⟨i1, i2⟩ := ih r.2 s h
      exact ⟨Nat.le_trans b1 i1, fun hinv => i2 (b2 hinv)⟩

theorem run_brk_calls_ne_diverge (L : Layout) (K : Kernel) :
    ∀ (cs : List BrkCall) (st : State), run_brk_calls L K st cs ≠ Outcome.diverge := by
  intro cs
  induction cs with
  | nil => intro st; simp [run_brk_calls]
  | cons c cs ih =>
    intro st
    simp only [run_brk_calls]
    cases hc : c.exec L K st with
    | diverge =>
      cases c with
      | set_brk_min b => simp [BrkCall.exec] at hc
      | user_brk b => exact absurd hc (user_brk_ne_diverge _ _ _ _)
    | die t => simp
    | ok r => exact ih r.2

/-- C14 (break-segment invariant), for a layout with `0x10000 ≤ USER_END`.
`set_brk_min` leaves `brk_min` at `max(old brk_min, new_brk)` when
`new_brk ≤ USER_END` and unchanged otherwise; `user_brk` never changes it, whether it
returns or ends in `die`; along every sequence of calls of the two `brk_min` does
not decrease; and after every sequence of such calls from the initial state
(`brk_cur = brk_min = 0x10000`), `brk_min ≤ brk_cur ≤ USER_END` holds.  No such
sequence runs forever. -/
theorem brk_invariant (L : Layout) (K : Kernel) (hL : 65536 ≤ L.USER_END) :
    (∀ st b, (set_brk_min L st b).2.brk_min =
      (if b ≤ L.USER_END then max st.brk_min b else st.brk_min)) ∧
    (∀ st b s, (user_brk L K st b).after? = some s → s.brk_min = st.brk_min) ∧
    (∀ st cs s, (run_brk_calls L K st cs).final? = some s → st.brk_min ≤ s.brk_min) ∧
    (∀ cs s, (run_brk_calls L K State.init cs).final? = some s →
      65536 ≤ s.brk_min ∧ s.brk_min ≤ s.brk_cur ∧ s.brk_cur ≤ L.USER_END) ∧
    (∀ cs, run_brk_calls L K State.init cs ≠ Outcome.diverge) := by
  refine ⟨fun st b => (set_brk_min_facts L st b).2.2.1,
    fun st b s h => (user_brk_after L K st s b h).1,
    fun st cs s h => (run_brk_calls_after L K cs st s h).1, ?_,
    fun cs => run_brk_calls_ne_diverge L K cs State.init⟩
  intro cs s h
  obtain ⟨h1, h2⟩ := run_brk_calls_after L K cs State.init s h
  have h3 := h2 ⟨Nat.le_refl _, hL⟩
  exact ⟨h1, h3⟩

/-- Witness for C14: raising the floor to `0x20000`, growing the break to `0x23000` and
asking for a break below the floor leaves `brk_min = 0x20000` and `brk_cur = 0x23000`. -/
theorem brk_invariant_witness :
    65536 ≤ example_layout.USER_END ∧
    ((run_brk_calls example_layout granting_kernel State.init
        [BrkCall.set_brk_min 131072, BrkCall.user_brk 143360, BrkCall.user_brk 4096]).final?.map
      (fun s => (s.brk_min, s.brk_cur)) = some (131072, 143360)) ∧
    ∀ cs s, (run_brk_calls example_layout granting_kernel State.init cs).final? = some s →
      65536 ≤ s.brk_min ∧ s.brk_min ≤ s.brk_cur ∧ s.brk_cur ≤ example_layout.USER_END :=
  ⟨by decide, by decide,
   (brk_invariant example_layout granting_kernel (by decide)).2.2.2.1⟩

/-! ## Claim on the identity of a region mapped without a usable descriptor -/

/-- C11 (identity fallback), amended for the page offset and for the capacity abort.
For an in-ceiling executable `user_mmap2` call that the kernel grants with result
`ret`, where `fd < 0` or `sys_fstat64` fails: when the call returns it returns `ret`,
and some live slot holds the region `[ret, ret + PAGE_NEXT(length))` with no
translated code, with device, inode and mtime zero and with the page offset
`pgoffset` that was handed to the call; the call returns whenever the page-rounded
range does not wrap, the ranges of the table are pairwise disjoint and two slots
are free. -/
theorem identity_fallback (L : Layout) (K : Kernel) (st : State)
    (addr length prot flags : Nat) (fd : Int) (pgoffset : Nat)
    (hceil : ¬ (addr > L.USER_END ∨ (addr + length) % ULONG_SIZE > L.USER_END))
    (hret : K.sys_mmap2 st.trace addr length (mmap_new_prot prot) flags fd pgoffset
      &&& PG_MASK = 0)
    (hexec : prot &&& PROT_EXEC ≠ 0)
    (hfail : fd < 0 ∨
      (K.sys_fstat64
        ((st.emit (Event.sys_mmap2 addr length (mmap_new_prot prot) flags fd pgoffset)).emit
          (Event.sys_mmap2
            ((K.sys_mmap2 st.trace addr length (mmap_new_prot prot) flags fd pgoffset +
              L.TAINT_OFFSET) % ULONG_SIZE)
            length (mmap_new_prot prot) (MAP_PRIVATE ||| MAP_FIXED ||| MAP_ANONYMOUS) (-1) 0)).trace
        fd).1 ≠ 0) :
    (∀ r st', user_mmap2 L K st addr length prot flags fd pgoffset = Outcome.ok (r, st') →
      r = K.sys_mmap2 st.trace addr length (mmap_new_prot prot) flags fd pgoffset ∧
      ∃ k, k < st'.n_codemaps ∧
        st'.codemaps k = { addr := r, len := PAGE_NEXT length, jit_addr := 0, jit_len := 0,
                           inode := 0, dev := 0, mtime := 0, pgoffset := pgoffset }) ∧
    (K.sys_mmap2 st.trace addr length (mmap_new_prot prot) flags fd pgoffset + PAGE_NEXT length
        < ULONG_SIZE →
      non_overlapping st.table → st.n_codemaps + 2 ≤ MAX_CODEMAPS →
      (user_mmap2 L K st addr length prot flags fd pgoffset).isOk = true) := by
  refine ⟨?_, (user_mmap2_follows L K st addr length prot flags fd pgoffset hceil).2.2 hret⟩
  intro r st' h
  unfold user_mmap2 at h
  rw [if_neg hceil] at h
  simp only at h
  rw [if_pos hret, if_pos hexec] at h
  obtain ⟨h1, h2⟩ := then_return_eq_ok _ _ _ _ h
  refine ⟨h1, ?_⟩
  by_cases hfd : fd < 0
  · simp only [if_pos hfd] at h2
    obtain ⟨k, hk, hke⟩ := add_code_region_has_region _ _ _ _ _ _ _ _ h2
    exact ⟨k, hk, by rw [hke, h1]⟩
  · have hf := hfail.resolve_left hfd
    simp only [if_neg hfd, if_pos hf] at h2
    obtain ⟨k, hk, hke⟩ := add_code_region_has_region _ _ _ _ _ _ _ _ h2
    exact ⟨k, hk, by rw [hke, h1]⟩

/-- Counterexample to C11 as stated: the anonymous executable mapping
`user_mmap2(0x10000, 0x1000, PROT_READ|PROT_EXEC, MAP_PRIVATE|MAP_ANONYMOUS, -1, 5)` on
the empty table succeeds, and the region it registers has page offset 5, not 0. -/
theorem identity_fallback_counterexample :
    ¬ (65536 > example_layout.USER_END ∨ (65536 + 4096) % ULONG_SIZE > example_layout.USER_END) ∧
    granting_kernel.sys_mmap2 State.init.trace 65536 4096 (mmap_new_prot 5) 34 (-1) 5
      &&& PG_MASK = 0 ∧
    5 &&& PROT_EXEC ≠ 0 ∧ (-1 : Int) < 0 ∧
    (user_mmap2 example_layout granting_kernel State.init 65536 4096 5 34 (-1) 5).ret? =
      some 65536 ∧
    (user_mmap2 example_layout granting_kernel State.init 65536 4096 5 34 (-1) 5).table_after? =
      some [{ addr := 65536, len := 4096, jit_addr := 0, jit_len := 0,
              inode := 0, dev := 0, mtime := 0, pgoffset := 5 }] := by
  refine ⟨by decide, by decide, by decide, by decide, by decide, by decide⟩

/-- Witness for C11: the same call returns the kernel's address `0x10000` and registers
`[0x10000, 0x11000)` with device, inode and mtime zero and page offset 5. -/
theorem identity_fallback_witness :
    (∀ r st', user_mmap2 example_layout granting_kernel State.init 65536 4096 5 34 (-1) 5 =
        Outcome.ok (r, st') →
      r = granting_kernel.sys_mmap2 State.init.trace 65536 4096 (mmap_new_prot 5) 34 (-1) 5 ∧
      ∃ k, k < st'.n_codemaps ∧
        st'.codemaps k = { addr := r, len := PAGE_NEXT 4096, jit_addr := 0, jit_len := 0,
                           inode := 0, dev := 0, mtime := 0, pgoffset := 5 }) ∧
    (user_mmap2 example_layout granting_kernel State.init 65536 4096 5 34 (-1) 5).isOk = true :=
  ⟨(identity_fallback example_layout granting_kernel State.init 65536 4096 5 34 (-1) 5
      (by decide) (by decide) (by decide) (Or.inl (by decide))).1,
   (identity_fallback example_layout granting_kernel State.init 65536 4096 5 34 (-1) 5
      (by decide) (by decide) (by decide) (Or.inl (by decide))).2
      (by decide) (by decide) (by decide)⟩

/-! ## Claim on `user_brk` -/

theorem user_brk_of_inner (L : Layout) (K : Kernel) (st : State) (b : Nat)
    (hr : b ≤ L.USER_END ∧ b ≥ st.brk_min) :
    ∃ o : Outcome (Nat × State),
      o = (if b > st.brk_cur then
          user_mmap2 L K st st.brk_cur (b - st.brk_cur) (PROT_READ ||| PROT_WRITE)
            (MAP_PRIVATE ||| MAP_FIXED ||| MAP_ANONYMOUS) (-1) 0
        else if b < st.brk_cur then user_munmap L K st b (st.brk_cur - b)
        else Outcome.ok (0, st)) ∧
      (user_brk L K st b).events = o.events ∧
      (user_brk L K st b).isOk = o.isOk ∧
      (user_brk L K st b).isDie = o.isDie ∧
      (∀ r s, user_brk L K st b = Outcome.ok (r, s) →
        r = b ∧ ∃ s1 r1, o = Outcome.ok (r1, s1) ∧ s = { s1 with brk_cur := b }) ∧
      (∀ s, user_brk L K st b = Outcome.die s → o = Outcome.die s) := by
  refine ⟨_, rfl, ?_⟩
  unfold user_brk
  rw [if_pos hr]
  simp only
  generalize (if b > st.brk_cur then
      user_mmap2 L K st st.brk_cur (b - st.brk_cur) (PROT_READ ||| PROT_WRITE)
        (MAP_PRIVATE ||| MAP_FIXED ||| MAP_ANONYMOUS) (-1) 0
    else if b < st.brk_cur then user_munmap L K st b (st.brk_cur - b)
    else Outcome.ok (0, st)) = o
  cases o with
  | diverge => exact ⟨rfl, rfl, rfl, fun r s h => by simp at h, fun s h => by simp at h⟩
  | die t => exact ⟨rfl, rfl, rfl, fun r s h => by simp at h, fun s h => by simpa using h⟩
  | ok p =>
    refine ⟨rfl, rfl, rfl, fun r s h => ?_, fun s h => by simp at h⟩
    simp only [Outcome.ok.injEq, Prod.mk.injEq] at h
    exact ⟨h.1.symm, p.2, p.1, rfl, h.2.symm⟩

theorem user_mmap2_returns_of_room (L : Layout) (K : Kernel) (st : State)
    (addr length prot flags : Nat) (fd : Int) (pgoffset : Nat)
    (hx : prot &&& PROT_EXEC = 0) (hdisj : non_overlapping st.table)
    (hn : st.n_codemaps < MAX_CODEMAPS)
    (hwrap : K.sys_mmap2 st.trace addr length (mmap_new_prot prot) flags fd pgoffset +
      PAGE_NEXT length < ULONG_SIZE) :
    (user_mmap2 L K st addr length prot flags fd pgoffset).isOk = true := by
  unfold user_mmap2
  split
  · rfl
  · simp only
    split
    · rw [if_neg (by simpa using hx), then_return_isOk]
      obtain ⟨st', h⟩ := del_code_region_returns_of_room
        ((st.emit (Event.sys_mmap2 addr length (mmap_new_prot prot) flags fd pgoffset)).emit
          (Event.sys_mmap2
            ((K.sys_mmap2 st.trace addr length (mmap_new_prot prot) flags fd pgoffset +
              L.TAINT_OFFSET) % ULONG_SIZE)
            length (mmap_new_prot prot) (MAP_PRIVATE ||| MAP_FIXED ||| MAP_ANONYMOUS) (-1) 0))
        (K.sys_mmap2 st.trace addr length (mmap_new_prot prot) flags fd pgoffset)
        (PAGE_NEXT length) hwrap (by simpa using hdisj) (by simpa using hn)
      rw [h]; rfl
    · rfl

theorem user_munmap_returns_of_room (L : Layout) (K : Kernel) (st : State) (addr length : Nat)
    (hdisj : non_overlapping st.table) (hn : st.n_codemaps < MAX_CODEMAPS)
    (hwrap : addr + PAGE_NEXT length < ULONG_SIZE) :
    (user_munmap L K st addr length).isOk = true := by
  unfold user_munmap
  split
  · rfl
  · simp only
    split
    · rw [then_return_isOk]
      obtain ⟨st', h⟩ := del_code_region_returns_of_room
        (st.emit (Event.sys_munmap addr length)) addr (PAGE_NEXT length) hwrap
        (by simpa using hdisj) (by simpa using hn)
      rw [h]; rfl
    · rfl

/-- C15 (`user_brk` contract), amended for the capacity abort, in a state with
`brk_cur ≤ USER_END` (the invariant of C14) and for a ceiling below `2^32`.  For
`new_brk` outside `[brk_min, USER_END]`, `user_brk` returns the old `brk_cur` and leaves
the state, trace included, as it was.  For `new_brk` inside: the call returns or ends
in `die`; when it returns it returns `new_brk`, `brk_cur` is `new_brk` and `brk_min`
is unchanged; when it ends in `die` the break is unchanged; when
`new_brk > brk_cur` its first event is the read/write private anonymous fixed
`sys_mmap2` of `[brk_cur, new_brk)` and the only other system call, if any, is the shadow
mapping; when `new_brk < brk_cur` its first event is `sys_munmap(new_brk,
brk_cur - new_brk)` and no other system call follows; when they are equal the state
is unchanged.  The call returns whenever the ranges of the table are pairwise
disjoint, a slot is free and the page-rounded ranges do not wrap. -/
theorem user_brk_contract (L : Layout) (K : Kernel) (st : State) (b : Nat)
    (hU : L.USER_END < ULONG_SIZE) (hcur : st.brk_cur ≤ L.USER_END) :
    (¬ (st.brk_min ≤ b ∧ b ≤ L.USER_END) → user_brk L K st b = Outcome.ok (st.brk_cur, st)) ∧
    (st.brk_min ≤ b ∧ b ≤ L.USER_END →
      (∀ r s, user_brk L K st b = Outcome.ok (r, s) →
        r = b ∧ s.brk_cur = b ∧ s.brk_min = st.brk_min) ∧
      (∀ s, user_brk L K st b = Outcome.die s →
        s.brk_cur = st.brk_cur ∧ s.brk_min = st.brk_min) ∧
      user_brk L K st b ≠ Outcome.diverge ∧
      (st.brk_cur < b →
        ∃ evs, (user_brk L K st b).events.drop st.trace.length =
            Event.sys_mmap2 st.brk_cur (b - st.brk_cur) (PROT_READ ||| PROT_WRITE)
              (MAP_PRIVATE ||| MAP_FIXED ||| MAP_ANONYMOUS) (-1) 0 :: evs ∧
          ∀ e ∈ evs, e.is_kernel_call = true →
            e = Event.sys_mmap2
              ((K.sys_mmap2 st.trace st.brk_cur (b - st.brk_cur) (PROT_READ ||| PROT_WRITE)
                  (MAP_PRIVATE ||| MAP_FIXED ||| MAP_ANONYMOUS) (-1) 0 + L.TAINT_OFFSET)
                % ULONG_SIZE)
              (b - st.brk_cur) (PROT_READ ||| PROT_WRITE)
              (MAP_PRIVATE ||| MAP_FIXED ||| MAP_ANONYMOUS) (-1) 0) ∧
      (b < st.brk_cur →
        ∃ evs, (user_brk L K st b).events.drop st.trace.length =
            Event.sys_munmap b (st.brk_cur - b) :: evs ∧
          ∀ e ∈ evs, e.is_kernel_call = false) ∧
      (b = st.brk_cur → user_brk L K st b = Outcome.ok (b, st)) ∧
      (non_overlapping st.table → st.n_codemaps < MAX_CODEMAPS →
        L.USER_END + 4096 ≤ ULONG_SIZE →
        K.sys_mmap2 st.trace st.brk_cur (b - st.brk_cur) (PROT_READ ||| PROT_WRITE)
          (MAP_PRIVATE ||| MAP_FIXED ||| MAP_ANONYMOUS) (-1) 0 + PAGE_NEXT (b - st.brk_cur)
          < ULONG_SIZE →
        (user_brk L K st b).isOk = true)) := by
  have hnp : mmap_new_prot (PROT_READ ||| PROT_WRITE) = PROT_READ ||| PROT_WRITE := by decide
  constructor
  · intro h
    unfold user_brk
    rw [if_neg (fun hc => h ⟨hc.2, hc.1⟩)]
  · intro hin
    have hr : b ≤ L.USER_END ∧ b ≥ st.brk_min := ⟨hin.2, hin.1⟩
    obtain ⟨o, ho, hev, hok, -, hret, hdie⟩ := user_brk_of_inner L K st b hr
    refine ⟨?_, ?_, user_brk_ne_diverge L K st b, ?_, ?_, ?_, ?_⟩
    · intro r s h
      obtain ⟨h1, s1, r1, -, h3⟩ := hret r s h
      have := (user_brk_after L K st s b (by rw [h]; rfl)).1
      exact ⟨h1, by rw [h3], this⟩
    · intro s h
      have ho2 := hdie s h
      rw [ho] at ho2
      have h2 : s.brk_cur = st.brk_cur ∧ s.brk_min = st.brk_min ∧
          (st.n_codemaps ≤ MAX_CODEMAPS → s.n_codemaps ≤ MAX_CODEMAPS) := by
        split at ho2
        · exact user_mmap2_after _ _ _ _ _ _ _ _ _ _ (by rw [ho2]; rfl)
        · split at ho2
          · exact user_munmap_after _ _ _ _ _ _ (by rw [ho2]; rfl)
          · simp at ho2
      exact ⟨h2.1, h2.2.1⟩
    · intro hlt
      rw [hev, ho, if_pos hlt]
      have hceil : ¬ (st.brk_cur > L.USER_END ∨
          (st.brk_cur + (b - st.brk_cur)) % ULONG_SIZE > L.USER_END) := by
        have e1 : st.brk_cur + (b - st.brk_cur) = b := by omega
        rw [e1, Nat.mod_eq_of_lt (by omega)]
        omega
      obtain ⟨evs, hq, he⟩ := user_mmap2_events L K st st.brk_cur (b - st.brk_cur)
        (PROT_READ ||| PROT_WRITE) (MAP_PRIVATE ||| MAP_FIXED ||| MAP_ANONYMOUS) (-1) 0 hceil
      rw [he, hnp]
      have hx : ¬ ((PROT_READ ||| PROT_WRITE) &&& PROT_EXEC ≠ 0 ∧ ¬ (-1 : Int) < 0) := by decide
      rw [if_neg hx]
      split
      · refine ⟨Event.sys_mmap2 _ _ _ _ _ _ :: evs, rfl, ?_⟩
        intro e hm hk
        rcases List.mem_cons.mp hm with hm | hm
        · exact hm
        · rw [hq e hm] at hk
          simp at hk
      · exact ⟨[], rfl, by simp⟩
    · intro hlt
      rw [hev, ho, if_neg (by omega), if_pos hlt]
      have hceil : ¬ (b > L.USER_END ∨ (b + (st.brk_cur - b)) % ULONG_SIZE > L.USER_END) := by
        have e1 : b + (st.brk_cur - b) = st.brk_cur := by omega
        rw [e1, Nat.mod_eq_of_lt (by omega)]
        omega
      obtain ⟨evs, hq, he⟩ := user_munmap_events L K st b (st.brk_cur - b) hceil
      exact ⟨evs, by rw [he]; rfl, hq⟩
    · intro heq
      unfold user_brk
      rw [if_pos hr]
      simp only
      rw [if_neg (by omega), if_neg (by omega)]
      simp only [Outcome.ok.injEq, Prod.mk.injEq, true_and]
      rw [heq]
    · intro hdisj hn hL hwrap
      rw [hok, ho]
      split
      · exact user_mmap2_returns_of_room L K st _ _ _ _ _ _ (by decide) hdisj hn
          (by rw [hnp]; exact hwrap)
      · split
        · exact user_munmap_returns_of_room L K st _ _ hdisj hn
            (page_next_in_space L b (st.brk_cur - b) hL (by omega))
        · rfl

/-- On a full table whose last entry sticks out on both sides of the page-rounded range
that the kernel granted, an in-ceiling `user_mmap2` call without `PROT_EXEC` ends in
`die`. -/
theorem user_mmap2_nonexec_dies (L : Layout) (K : Kernel) (st : State)
    (addr length prot flags : Nat) (fd : Int) (pgoffset : Nat)
    (hceil : ¬ (addr > L.USER_END ∨ (addr + length) % ULONG_SIZE > L.USER_END))
    (hret : K.sys_mmap2 st.trace addr length (mmap_new_prot prot) flags fd pgoffset
      &&& PG_MASK = 0)
    (hx : prot &&& PROT_EXEC = 0) (hn : st.n_codemaps = MAX_CODEMAPS)
    (hs : splits_in_two (K.sys_mmap2 st.trace addr length (mmap_new_prot prot) flags fd pgoffset)
      (PAGE_NEXT length) (st.codemaps (MAX_CODEMAPS - 1)) = true) :
    (user_mmap2 L K st addr length prot flags fd pgoffset).isDie = true := by
  unfold user_mmap2
  rw [if_neg hceil]
  simp only
  rw [if_pos hret, if_neg (by simpa using hx), then_return_isDie]
  exact del_code_region_dies _ _ _ (by simpa using hn) (by simpa using hs)

/-- Counterexample to C15 as stated: on the full table, with the break at `0x80001000`
inside the last region `[0x80000000, 0x80003000)`, the call `user_brk(0x80002000)` is in
range and the kernel grants the mapping, but unregistering `[0x80001000, 0x80002000)`
splits the last region in two and the call ends in `die` instead of returning
`new_brk`. -/
theorem user_brk_contract_counterexample :
    high_layout.USER_END < ULONG_SIZE ∧ full_table_heap.brk_cur ≤ high_layout.USER_END ∧
    full_table_heap.brk_min ≤ 2147491840 ∧ 2147491840 ≤ high_layout.USER_END ∧
    (user_brk high_layout granting_kernel full_table_heap 2147491840).isDie = true := by
  refine ⟨by decide, by decide, by decide, by decide, ?_⟩
  obtain ⟨o, ho, -, -, hd, -, -⟩ := user_brk_of_inner high_layout granting_kernel
    full_table_heap 2147491840 ⟨by decide, by decide⟩
  rw [hd, ho, if_pos (by decide)]
  exact user_mmap2_nonexec_dies _ _ _ _ _ _ _ _ _ (by decide) (by decide) (by decide) rfl
    (by decide)

/-- Witness for C15: from the initial state, `user_brk(0x11000)` returns `0x11000` after
asking the kernel for `[0x10000, 0x11000)`. -/
theorem user_brk_contract_witness :
    (user_brk example_layout granting_kernel State.init 69632).ret? = some 69632 ∧
    (∀ r s, user_brk example_layout granting_kernel State.init 69632 = Outcome.ok (r, s) →
      r = 69632 ∧ s.brk_cur = 69632 ∧ s.brk_min = State.init.brk_min) ∧
    (user_brk example_layout granting_kernel State.init 69632).events.take 1 =
      [Event.sys_mmap2 65536 4096 3 50 (-1) 0] :=
  ⟨by decide,
   ((user_brk_contract example_layout granting_kernel State.init 69632 (by decide)
      (by decide)).2 ⟨by decide, by decide⟩).1,
   by decide⟩

/-! ## The deletions of a run of `del_code_region` -/

theorem del_code_region_loop_log_fst (addr len : Nat) :
    ∀ (fuel : Nat) (st : State) (i : Int),
      (del_code_region_loop_log addr len fuel st i).1 = del_code_region_loop addr len fuel st i := by
  intro fuel
  induction fuel with
  | zero => intro st i; rfl
  | succ fuel ih =>
    intro st i
    unfold del_code_region_loop_log del_code_region_loop
    by_cases h0 : 0 ≤ i
    · rw [if_pos h0, if_pos h0]
      by_cases hov : overlap addr len (st.codemaps i.toNat).addr (st.codemaps i.toNat).len = false
      · rw [if_pos hov, if_pos hov]
        exact ih st (i - 1)
      · rw [if_neg hov, if_neg hov]
        cases hb : del_code_region_body addr len st i.toNat with
        | diverge => rfl
        | die t => rfl
        | ok st1 => exact ih st1 _
    · rw [if_neg h0, if_neg h0]

/-- When slot `i` is the last one with the property, the filtered list is the filtered
list without slot `i`, followed by the element of slot `i`. -/
theorem filter_eq_of_last {α : Type} (p : α → Bool) :
    ∀ (l : List α) (i : Nat) (hi : i < l.length), p l[i] = true →
      (∀ (j : Nat) (hj : j < l.length), i < j → p l[j] = false) →
      l.filter p = (l.eraseIdx i).filter p ++ [l[i]] := by
  intro l
  induction l with
  | nil => intro i hi; simp at hi
  | cons a l ih =>
    intro i hi hp hlast
    cases i with
    | zero =>
      simp only [List.getElem_cons_zero] at hp
      have hnone : l.filter p = [] := by
        rw [List.filter_eq_nil_iff]
        intro x hx
        obtain ⟨k, hk, rfl⟩ := List.getElem_of_mem hx
        have := hlast (k + 1) (by simpa using hk) (by omega)
        simpa using this
      simp [List.filter_cons, hp, hnone]
    | succ i =>
      have hi2 : i < l.length := by simpa using hi
      have e := ih i hi2 (by simpa using hp) (fun j hj hij => by
        have := hlast (j + 1) (by simpa using hj) (by omega)
        simpa using this)
      simp only [List.eraseIdx_cons_succ, List.getElem_cons_succ, List.filter_cons]
      split
      · rw [e]; simp
      · rw [e]

/-- No entry of the table overlaps the range when the scan has passed them all. -/
theorem filter_overlaps_nil (addr len : Nat) (st : State) (i : Int) (hi : i < 0)
    (hscan : ∀ j : Nat, i < (j : Int) → j < st.n_codemaps →
      overlap addr len (st.codemaps j).addr (st.codemaps j).len = false) :
    st.table.filter (overlaps_range addr len) = [] := by
  rw [List.filter_eq_nil_iff]
  intro m hm
  obtain ⟨j, hj, rfl⟩ := mem_table.mp hm
  have := hscan j (by omega) hj
  simp [overlaps_range, this]

theorem filter_overlaps_last (addr len : Nat) (st : State) (i : Nat) (hi : i < st.n_codemaps)
    (hov : overlap addr len (st.codemaps i).addr (st.codemaps i).len = true)
    (hscan : ∀ j : Nat, i < j → j < st.n_codemaps →
      overlap addr len (st.codemaps j).addr (st.codemaps j).len = false) :
    st.table.filter (overlaps_range addr len) =
      (st.table.eraseIdx i).filter (overlaps_range addr len) ++ [st.codemaps i] := by
  have hl : i < st.table.length := by rw [length_table]; exact hi
  have e := filter_eq_of_last (overlaps_range addr len) st.table i hl
    (by rw [getElem_table]; exact hov)
    (fun j hj hij => by
      rw [getElem_table]
      exact hscan j hij (by rw [length_table] at hj; exact hj))
  rw [e, getElem_table]

theorem filter_overlaps_body (addr len : Nat) (st s : State) (i : Nat) (hi : i < st.n_codemaps)
    (h : (del_code_region_body addr len st i).final? = some s) :
    s.table.filter (overlaps_range addr len) =
      (st.table.eraseIdx i).filter (overlaps_range addr len) :=
  (del_code_region_body_final addr len st s i hi h).2.2.2.2 (overlaps_range addr len)
    (fun m hm => overlap_residual addr len (st.codemaps i) m hm)

/-- What the loop of `del_code_region` does, in terms of its calls of `del_code_map`: the
trace gains the events of the deleted entries, in the order of the deletions; the
deleted entries are overlapping entries of the table, last slot first, and all of
them when the loop returns; every call of `del_code_map` is for a live slot that
overlaps the range and is the last such slot. -/
theorem del_code_region_loop_log_spec (addr len : Nat) :
    ∀ (fuel : Nat) (st : State) (i : Int), i < (st.n_codemaps : Int) →
      (∀ j : Nat, i < (j : Int) → j < st.n_codemaps →
        overlap addr len (st.codemaps j).addr (st.codemaps j).len = false) →
      (∀ s, (del_code_region_loop_log addr len fuel st i).1.final? = some s →
        s.trace = st.trace ++
          ((del_code_region_loop_log addr len fuel st i).2.map
            (fun d => d.1.codemaps d.2)).flatMap clear_events) ∧
      (∀ s, (del_code_region_loop_log addr len fuel st i).1 = Outcome.ok s →
        (del_code_region_loop_log addr len fuel st i).2.map (fun d => d.1.codemaps d.2) =
          (st.table.filter (overlaps_range addr len)).reverse) ∧
      ((del_code_region_loop_log addr len fuel st i).2.map (fun d => d.1.codemaps d.2)) <+:
        (st.table.filter (overlaps_range addr len)).reverse ∧
      (∀ d ∈ (del_code_region_loop_log addr len fuel st i).2,
        d.2 < d.1.n_codemaps ∧
        overlap addr len (d.1.codemaps d.2).addr (d.1.codemaps d.2).len = true ∧
        ∀ j, d.2 < j → j < d.1.n_codemaps →
          overlap addr len (d.1.codemaps j).addr (d.1.codemaps j).len = false) := by
  intro fuel
  induction fuel with
  | zero =>
    intro st i hi hscan
    unfold del_code_region_loop_log
    refine ⟨?_, ?_, by simp, by simp⟩
    · intro s hs
      split at hs
      · simp [Outcome.final?] at hs
      · simp only [Outcome.final?, Option.some.injEq] at hs
        subst hs
        simp
    · intro s hs
      by_cases h0 : 0 ≤ i
      · rw [if_pos h0] at hs
        simp at hs
      · rw [filter_overlaps_nil addr len st i (by omega) hscan]
        simp
  | succ fuel ih =>
    intro st i hi hscan
    unfold del_code_region_loop_log
    by_cases h0 : 0 ≤ i
    · rw [if_pos h0]
      have hin : i.toNat < st.n_codemaps := by omega
      by_cases hov : overlap addr len (st.codemaps i.toNat).addr (st.codemaps i.toNat).len = false
      · rw [if_pos hov]
        exact ih st (i - 1) (by omega) (fun j hj hjn => by
          by_cases hji : (j : Int) = i
          · have : j = i.toNat := by omega
            rw [this]; exact hov
          · exact hscan j (by omega) hjn)
      · rw [if_neg hov]
        have hov2 : overlap addr len (st.codemaps i.toNat).addr (st.codemaps i.toNat).len = true := by
          simpa using hov
        have hlast := filter_overlaps_last addr len st i.toNat hin hov2
          (fun j hij hjn => hscan j (by omega) hjn)
        have hd : i.toNat < st.n_codemaps ∧
            overlap addr len (st.codemaps i.toNat).addr (st.codemaps i.toNat).len = true ∧
            ∀ j, i.toNat < j → j < st.n_codemaps →
              overlap addr len (st.codemaps j).addr (st.codemaps j).len = false :=
          ⟨hin, hov2, fun j hij hjn => hscan j (by omega) hjn⟩
        cases hb : del_code_region_body addr len st i.toNat with
        | diverge =>
          refine ⟨fun s hs => by simp [Outcome.final?] at hs, fun s hs => by simp at hs, ?_, ?_⟩
          · rw [hlast]
            simp
          · intro d hdm
            simp only [List.mem_singleton] at hdm
            subst hdm
            exact hd
        | die t =>
          have hf := del_code_region_body_final addr len st t i.toNat hin (by rw [hb]; rfl)
          refine ⟨fun s hs => ?_, fun s hs => by simp at hs, ?_, ?_⟩
          · simp only [Outcome.final?, Option.some.injEq] at hs
            subst hs
            rw [hf.1]
            simp
          · rw [hlast]
            simp
          · intro d hdm
            simp only [List.mem_singleton] at hdm
            subst hdm
            exact hd
        | ok st1 =>
          have hf := del_code_region_body_final addr len st st1 i.toNat hin (by rw [hb]; rfl)
          have hfl := filter_overlaps_body addr len st st1 i.toNat hin (by rw [hb]; rfl)
          obtain ⟨i1, i2, i3, i4⟩ := ih st1 ((st1.n_codemaps : Int) - 1) (by omega)
            (fun j hj hjn => by omega)
          simp only
          refine ⟨fun s hs => ?_, fun s hs => ?_, ?_, ?_⟩
          · rw [i1 s hs, hf.1]
            simp
          · rw [List.map_cons, i2 s hs, hlast, hfl]
            simp
          · rw [List.map_cons, hlast, ← hfl]
            simp only [List.reverse_append, List.reverse_cons, List.reverse_nil, List.nil_append,
              List.singleton_append]
            exact (List.prefix_cons_inj _).mpr i3
          · intro d hdm
            rcases List.mem_cons.mp hdm with hdm | hdm
            · subst hdm
              exact hd
            · exact i4 d hdm
    · rw [if_neg h0]
      refine ⟨?_, ?_, by simp, by simp⟩
      · intro s hs
        simp only [Outcome.final?, Option.some.injEq] at hs
        subst hs
        simp
      · intro s hs
        rw [filter_overlaps_nil addr len st i (by omega) hscan]
        simp

/-- A property kept by every returning pass of the loop body holds in every state in
which the loop calls `del_code_map`. -/
theorem del_code_region_loop_log_inv (addr len : Nat) (Inv : State → Prop)
    (hstep : ∀ (st : State) (i : Nat) (st1 : State), Inv st → i < st.n_codemaps →
      overlap addr len (st.codemaps i).addr (st.codemaps i).len = true →
      del_code_region_body addr len st i = Outcome.ok st1 → Inv st1) :
    ∀ (fuel : Nat) (st : State) (i : Int), i < (st.n_codemaps : Int) → Inv st →
      ∀ d ∈ (del_code_region_loop_log addr len fuel st i).2, Inv d.1 := by
  intro fuel
  induction fuel with
  | zero =>
    intro st i hi h0 d hd
    simp [del_code_region_loop_log] at hd
  | succ fuel ih =>
    intro st i hi hinv d hd
    unfold del_code_region_loop_log at hd
    by_cases h0 : 0 ≤ i
    · rw [if_pos h0] at hd
      have hin : i.toNat < st.n_codemaps := by omega
      by_cases hov : overlap addr len (st.codemaps i.toNat).addr (st.codemaps i.toNat).len = false
      · rw [if_pos hov] at hd
        exact ih st (i - 1) (by omega) hinv d hd
      · rw [if_neg hov] at hd
        cases hb : del_code_region_body addr len st i.toNat with
        | diverge =>
          rw [hb] at hd
          simp only [List.mem_singleton] at hd
          subst hd
          exact hinv
        | die t =>
          rw [hb] at hd
          simp only [List.mem_singleton] at hd
          subst hd
          exact hinv
        | ok st1 =>
          rw [hb] at hd
          simp only at hd
          rcases List.mem_cons.mp hd with hd | hd
          · subst hd
            exact hinv
          · exact ih st1 _ (by omega) (hstep st i.toNat st1 hinv hin (by simpa using hov) hb) d hd
    · rw [if_neg h0] at hd
      simp at hd

theorem del_code_region_eq_log (st : State) (addr len : Nat) :
    del_code_region st addr len =
      match (del_code_region_loop_log addr len (del_code_region_fuel st.n_codemaps)
        ((st.emit (Event.mutex_lock lock_t.jit_lock)).emit (Event.mutex_lock lock_t.codemap_lock))
        ((st.n_codemaps : Int) - 1)).1 with
      | Outcome.ok st1 =>
        Outcome.ok ((st1.emit (Event.mutex_unlock lock_t.codemap_lock)).emit
          (Event.mutex_unlock lock_t.jit_lock))
      | Outcome.die t => Outcome.die t
      | Outcome.diverge => Outcome.diverge := by
  rw [del_code_region_loop_log_fst]
  rfl

/-- The events of `del_code_region` and its deletions.  When the call returns, its events
are: lock `jit_lock`, lock `codemap_lock`, the events of the deleted entries in the
order of their deletion, unlock `codemap_lock`, unlock `jit_lock`; the deleted entries
are exactly the entries of the table that overlap the range, last slot first.  When
the call ends in `die`, the two unlocks are missing and the deleted entries are the
first of these. -/
theorem del_code_region_deletions_spec (st : State) (addr len : Nat) :
    (∀ s, del_code_region st addr len = Outcome.ok s →
      s.trace = st.trace ++ ([Event.mutex_lock lock_t.jit_lock,
          Event.mutex_lock lock_t.codemap_lock] ++
        (del_code_region_deleted st addr len).flatMap clear_events ++
        [Event.mutex_unlock lock_t.codemap_lock, Event.mutex_unlock lock_t.jit_lock]) ∧
      del_code_region_deleted st addr len =
        (st.table.filter (overlaps_range addr len)).reverse) ∧
    (∀ s, del_code_region st addr len = Outcome.die s →
      s.trace = st.trace ++ ([Event.mutex_lock lock_t.jit_lock,
          Event.mutex_lock lock_t.codemap_lock] ++
        (del_code_region_deleted st addr len).flatMap clear_events)) ∧
    (del_code_region_deleted st addr len) <+:
      (st.table.filter (overlaps_range addr len)).reverse := by
  obtain ⟨h1, h2, h3, -⟩ := del_code_region_loop_log_spec addr len
    (del_code_region_fuel st.n_codemaps)
    ((st.emit (Event.mutex_lock lock_t.jit_lock)).emit (Event.mutex_lock lock_t.codemap_lock))
    ((st.n_codemaps : Int) - 1) (by simp) (fun j hj hjn => by
      simp only [n_codemaps_emit] at hjn
      omega)
  simp only [table_emit] at h2 h3
  refine ⟨?_, ?_, h3⟩
  · intro s hs
    rw [del_code_region_eq_log] at hs
    split at hs
    · rename_i st1 heq
      simp only [Outcome.ok.injEq] at hs
      subst hs
      refine ⟨?_, h2 st1 heq⟩
      have := h1 st1 (by rw [heq]; rfl)
      simp only [trace_emit, this, del_code_region_deleted, del_code_region_deletions,
        List.append_assoc, List.cons_append, List.nil_append]
    · simp at hs
    · simp at hs
  · intro s hs
    rw [del_code_region_eq_log] at hs
    split at hs
    · simp at hs
    · rename_i t heq
      simp only [Outcome.die.injEq] at hs
      subst hs
      have := h1 t (by rw [heq]; rfl)
      simp only [trace_emit, this, del_code_region_deleted, del_code_region_deletions,
        List.append_assoc, List.cons_append, List.nil_append]
    · simp at hs

/-! ## Claim on freeing and purging -/

theorem jit_addr_residual (addr len : Nat) (m r : code_map_t) (hr : r ∈ residuals addr len m) :
    r.jit_addr = 0 ∧ r.jit_len = 0 := by
  unfold residuals at hr
  rw [List.mem_append] at hr
  rcases hr with hr | hr
  · split at hr
    · simp only [List.mem_singleton] at hr
      subst hr
      exact ⟨rfl, rfl⟩
    · simp at hr
  · split at hr
    · simp only [List.mem_singleton] at hr
      subst hr
      exact ⟨rfl, rfl⟩
    · simp at hr

theorem mem_clear_events (m : code_map_t) (e : Event) (h : e ∈ clear_events m) :
    m.jit_addr ≠ 0 ∧ (e = Event.jit_mem_free m.jit_addr ∨ e = Event.purge_caches m.addr m.len) := by
  unfold clear_events at h
  split at h
  · rename_i hj
    simp only [List.mem_cons, List.mem_singleton, List.not_mem_nil, or_false] at h
    exact ⟨hj, h⟩
  · simp at h

/-- The entry of a live slot that has positive length is no entry of a table of pairwise
disjoint ranges without that slot. -/
theorem not_mem_eraseIdx_of_disjoint (st : State) (i : Nat) (hi : i < st.n_codemaps)
    (hdisj : non_overlapping st.table) (hlen : 0 < (st.codemaps i).len) :
    st.codemaps i ∉ st.table.eraseIdx i := by
  intro hm
  have hl : i < st.table.length := by rw [length_table]; exact hi
  have hp := perm_cons_eraseIdx st.table i hl
  rw [getElem_table] at hp
  have h1 := (hp.pairwise_iff (fun h => disjoint_ranges_symm h)).mp hdisj
  rw [List.pairwise_cons] at h1
  have := h1.1 _ hm
  unfold disjoint_ranges at this
  omega


/-! ## The calls of `jit_mem_free` and `purge_caches`, with the state at each call -/

/-- The function `del_code_map` ends in the state of its last call, after that call; without
a call it ends in the state after the shift and the decrement. -/
theorem del_code_map_eq_calls (st : State) (i : Nat) :
    del_code_map st i =
      (del_code_map_calls st i).foldl (fun _ c => c.2.emit c.1) (del_code_map_shifted st i) := by
  unfold del_code_map del_code_map_calls clear_code_map_calls del_code_map_shifted clear_code_map
  by_cases h : (st.codemaps i).jit_addr = 0
  · simp [h]
  · simp [h, State.emit]

theorem del_code_map_calls_spec (st : State) (i : Nat) (hi : i < st.n_codemaps) :
    (del_code_map_calls st i).map Prod.fst = clear_events (st.codemaps i) ∧
    ∀ c ∈ del_code_map_calls st i,
      c.2.table = st.table.eraseIdx i ∧ c.2.n_codemaps + 1 = st.n_codemaps ∧
      c.2.codemaps = (del_code_map st i).codemaps ∧
      (c.1 = Event.jit_mem_free (st.codemaps i).jit_addr ∨
        c.1 = Event.purge_caches (st.codemaps i).addr (st.codemaps i).len) := by
  have ht : (del_code_map_shifted st i).table = st.table.eraseIdx i :=
    table_del_code_map st i hi
  have hn : (del_code_map_shifted st i).n_codemaps + 1 = st.n_codemaps := by
    show st.n_codemaps - 1 + 1 = st.n_codemaps
    omega
  unfold del_code_map_calls clear_code_map_calls clear_events
  by_cases h : (st.codemaps i).jit_addr = 0
  · simp [h]
  · simp only [ne_eq, h, not_false_eq_true, if_true, List.map_cons, List.map_nil, true_and]
    intro c hc
    simp only [List.mem_cons, List.mem_singleton, List.not_mem_nil, or_false] at hc
    rcases hc with hc | hc
    · subst hc
      exact ⟨ht, hn, rfl, Or.inl rfl⟩
    · subst hc
      exact ⟨by rw [table_emit]; exact ht, by rw [n_codemaps_emit]; exact hn, rfl, Or.inr rfl⟩

theorem map_fst_del_code_region_calls (st : State) (addr len : Nat) :
    (del_code_region_calls st addr len).map Prod.fst =
      (del_code_region_deleted st addr len).flatMap clear_events := by
  obtain ⟨-, -, -, hlog⟩ := del_code_region_loop_log_spec addr len
    (del_code_region_fuel st.n_codemaps)
    ((st.emit (Event.mutex_lock lock_t.jit_lock)).emit (Event.mutex_lock lock_t.codemap_lock))
    ((st.n_codemaps : Int) - 1) (by simp) (fun j hj hjn => by
      simp only [n_codemaps_emit] at hjn
      omega)
  unfold del_code_region_calls del_code_region_deleted
  have hgen : ∀ l : List (State × Nat), (∀ d ∈ l, d.2 < d.1.n_codemaps) →
      (l.flatMap (fun d => del_code_map_calls d.1 d.2)).map Prod.fst =
        (l.map (fun d => d.1.codemaps d.2)).flatMap clear_events := by
    intro l
    induction l with
    | nil => intro _; rfl
    | cons d l ih =>
      intro hl
      rw [List.flatMap_cons, List.map_append, List.map_cons, List.flatMap_cons,
        (del_code_map_calls_spec d.1 d.2 (hl d (List.mem_cons_self _ _))).1,
        ih (fun x hx => hl x (List.mem_cons_of_mem _ hx))]
  exact hgen _ (fun d hd => (hlog d hd).1)

/-- The entries with translated code: those deleted so far together with those in the
table make up those of the table at the start. -/
theorem del_code_region_loop_log_code (addr len : Nat) :
    ∀ (fuel : Nat) (st : State) (i : Int) (s : State), i < (st.n_codemaps : Int) →
      (del_code_region_loop_log addr len fuel st i).1.final? = some s →
      (((del_code_region_loop_log addr len fuel st i).2.map
          (fun d => d.1.codemaps d.2)).filter has_code ++ s.table.filter has_code).Perm
        (st.table.filter has_code) := by
  have hbody : ∀ (st t : State) (i : Nat), i < st.n_codemaps →
      (del_code_region_body addr len st i).final? = some t →
      ([st.codemaps i].filter has_code ++ t.table.filter has_code).Perm
        (st.table.filter has_code) := by
    intro st t i hi ht
    have hf := (del_code_region_body_final addr len st t i hi ht).2.2.2.2 has_code
      (fun m hm => by simp [has_code, (jit_addr_residual addr len _ m hm).1])
    have hl : i < st.table.length := by rw [length_table]; exact hi
    have hp := (perm_cons_eraseIdx st.table i hl).filter has_code
    rw [getElem_table] at hp
    rw [hf, ← List.filter_append]
    exact hp.symm
  intro fuel
  induction fuel with
  | zero =>
    intro st i s hi hs
    unfold del_code_region_loop_log at hs ⊢
    split at hs
    · simp [Outcome.final?] at hs
    · simp only [Outcome.final?, Option.some.injEq] at hs
      subst hs
      simp
  | succ fuel ih =>
    intro st i s hi hs
    unfold del_code_region_loop_log at hs ⊢
    by_cases h0 : 0 ≤ i
    · rw [if_pos h0] at hs ⊢
      have hin : i.toNat < st.n_codemaps := by omega
      by_cases hov : overlap addr len (st.codemaps i.toNat).addr (st.codemaps i.toNat).len = false
      · rw [if_pos hov] at hs ⊢
        exact ih st (i - 1) s (by omega) hs
      · rw [if_neg hov] at hs ⊢
        cases hb : del_code_region_body addr len st i.toNat with
        | diverge => rw [hb] at hs; simp [Outcome.final?] at hs
        | die t =>
          rw [hb] at hs
          simp only [Outcome.final?, Option.some.injEq] at hs
          subst hs
          exact hbody st _ i.toNat hin (by rw [hb]; rfl)
        | ok st1 =>
          rw [hb] at hs
          simp only at hs ⊢
          have h1 := ih st1 _ s (by omega) hs
          have h2 := hbody st st1 i.toNat hin (by rw [hb]; rfl)
          rw [List.map_cons, ← List.singleton_append, List.filter_append, List.append_assoc]
          exact (List.Perm.append_left _ h1).trans h2
    · rw [if_neg h0] at hs ⊢
      simp only [Outcome.final?, Option.some.injEq] at hs
      subst hs
      simp

theorem del_code_region_code (st s : State) (addr len : Nat)
    (h : (del_code_region st addr len).final? = some s) :
    ((del_code_region_deleted st addr len).filter has_code ++ s.table.filter has_code).Perm
      (st.table.filter has_code) := by
  have key := del_code_region_loop_log_code addr len (del_code_region_fuel st.n_codemaps)
    ((st.emit (Event.mutex_lock lock_t.jit_lock)).emit (Event.mutex_lock lock_t.codemap_lock))
    ((st.n_codemaps : Int) - 1)
  simp only [table_emit] at key
  rw [del_code_region_eq_log] at h
  split at h
  · rename_i st1 heq
    simp only [Outcome.final?, Option.some.injEq] at h
    subst h
    have := key st1 (by simp) (by rw [heq]; rfl)
    simpa [del_code_region_deleted, del_code_region_deletions] using this
  · rename_i t heq
    simp only [Outcome.final?, Option.some.injEq] at h
    subst h
    exact key _ (by simp) (by rw [heq]; rfl)
  · simp [Outcome.final?] at h

/-- In a table of pairwise disjoint ranges, the range of a live slot is disjoint from every
entry of the table without that slot. -/
theorem disjoint_of_mem_eraseIdx (st : State) (i : Nat) (hi : i < st.n_codemaps)
    (hdisj : non_overlapping st.table) :
    ∀ m ∈ st.table.eraseIdx i, disjoint_ranges (st.codemaps i) m := by
  have hl : i < st.table.length := by rw [length_table]; exact hi
  have hp := perm_cons_eraseIdx st.table i hl
  rw [getElem_table] at hp
  have h1 := (hp.pairwise_iff (fun h => disjoint_ranges_symm h)).mp hdisj
  rw [List.pairwise_cons] at h1
  exact h1.1

/-- The addresses that a run of `del_code_region` frees are the non-NULL `jit_addr` of the
entries it deletes. -/
theorem jit_mem_free_of_final (st s : State) (addr len : Nat)
    (hs : (del_code_region st addr len).final? = some s) (j : Nat)
    (hj : Event.jit_mem_free j ∈ s.trace.drop st.trace.length) :
    ∃ m ∈ del_code_region_deleted st addr len, m.jit_addr ≠ 0 ∧ m.jit_addr = j := by
  obtain ⟨s1, s2, -⟩ := del_code_region_deletions_spec st addr len
  have hfree : Event.jit_mem_free j ∈
      (del_code_region_deleted st addr len).flatMap clear_events →
      ∃ m ∈ del_code_region_deleted st addr len, m.jit_addr ≠ 0 ∧ m.jit_addr = j := by
    intro hj
    rw [List.mem_flatMap] at hj
    obtain ⟨m, hm, hjm⟩ := hj
    obtain ⟨c1, c2⟩ := mem_clear_events m _ hjm
    rcases c2 with c2 | c2
    · simp only [Event.jit_mem_free.injEq] at c2
      exact ⟨m, hm, c1, c2.symm⟩
    · simp at c2
  cases hr : del_code_region st addr len with
  | diverge => rw [hr] at hs; simp [Outcome.final?] at hs
  | ok t =>
    rw [hr] at hs
    simp only [Outcome.final?, Option.some.injEq] at hs
    subst hs
    rw [(s1 _ hr).1, List.drop_left] at hj
    simp only [List.append_assoc, List.cons_append, List.nil_append, List.mem_cons,
      List.mem_append, List.mem_singleton, List.not_mem_nil, or_false] at hj
    rcases hj with hj | hj | hj | hj | hj
    · simp at hj
    · simp at hj
    · exact hfree hj
    · simp at hj
    · simp at hj
  | die t =>
    rw [hr] at hs
    simp only [Outcome.final?, Option.some.injEq] at hs
    subst hs
    rw [s2 _ hr, List.drop_left] at hj
    simp only [List.cons_append, List.nil_append, List.mem_cons] at hj
    rcases hj with hj | hj | hj
    · simp at hj
    · simp at hj
    · exact hfree hj

/-- When translated code is owned by one entry, a run of `del_code_region` frees the code of
no entry that is in the table when the run ends. -/
theorem staying_code_not_freed (st s : State) (addr len : Nat)
    (hex : exclusive_jit st.table) (hs : (del_code_region st addr len).final? = some s) :
    ∀ m ∈ s.table, m.jit_addr ≠ 0 →
      Event.jit_mem_free m.jit_addr ∉ s.trace.drop st.trace.length := by
  intro m hm hjit hfree
  obtain ⟨m1, hm1, hj1, he⟩ := jit_mem_free_of_final st s addr len hs _ hfree
  have hperm := del_code_region_code st s addr len hs
  have hfil : (st.table.filter has_code).Pairwise
      (fun a b => a.jit_addr = 0 ∨ b.jit_addr = 0 ∨ a.jit_addr ≠ b.jit_addr) :=
    List.Pairwise.filter _ hex
  have hall := (hperm.pairwise_iff (fun {a b} h => by
    rcases h with h | h | h
    · exact Or.inr (Or.inl h)
    · exact Or.inl h
    · exact Or.inr (Or.inr (fun e => h e.symm)))).mpr hfil
  rw [List.pairwise_append] at hall
  have h1 : m1 ∈ (del_code_region_deleted st addr len).filter has_code :=
    List.mem_filter.mpr ⟨hm1, by simp [has_code, hj1]⟩
  have h2 : m ∈ s.table.filter has_code :=
    List.mem_filter.mpr ⟨hm, by simp [has_code, hjit]⟩
  rcases hall.2.2 m1 h1 m h2 with h | h | h
  · exact hj1 h
  · exact hjit h
  · exact h he

/-- C17 (free and purge only after removal).  For every table and range, with the
calls of `del_code_map` in `del_code_region(addr, len)` listed in
`del_code_region_deletions`, the entries they delete in `del_code_region_deleted`, and
the calls of `jit_mem_free` and `purge_caches`, each with the state of the globals at
the moment of the call, in `del_code_region_calls`.
When the call returns, its events are the two locks, then for each deleted entry in
turn `jit_mem_free(jit_addr)` followed by `purge_caches(addr, len)` with the entry's
own `addr` and `len` when its `jit_addr` is not NULL and nothing when it is NULL, then
the two unlocks; the deleted entries are the entries of the table that overlap the
range, each slot once; an entry with translated code in the table afterwards is an
entry of the table before that does not overlap the range.  When the call ends in
`die` the events are the same without the unlocks, for the entries deleted so far.
These events are exactly the recorded calls, in order.
Each `del_code_map(i)` is called for a live slot; at the moment of each of its calls
of `jit_mem_free` and `purge_caches` the shift and `n_codemaps--` are done: the live
table is the old one without slot `i`; and `del_code_map` ends in the state after its
last call.  For a range that does not wrap and a table of pairwise disjoint ranges
inside the address space, at the moment of each call no lookup finds an address of
the deleted region, and a deleted entry of positive length is no entry of the table.
Every `jit_mem_free` of the call is for the non-NULL `jit_addr` of an entry of the table
that overlaps the range; and when translated code is owned by one entry (no two
entries share a non-NULL `jit_addr`), the `jit_addr` of no entry that is in the table
when the call ends, by return or by `die`, is freed. -/
theorem free_and_purge (st : State) (addr len : Nat) :
    (∀ m, clear_events m =
      if m.jit_addr ≠ 0 then [Event.jit_mem_free m.jit_addr, Event.purge_caches m.addr m.len]
      else []) ∧
    (∀ s, del_code_region st addr len = Outcome.ok s →
      s.trace = st.trace ++ ([Event.mutex_lock lock_t.jit_lock,
          Event.mutex_lock lock_t.codemap_lock] ++
        (del_code_region_deleted st addr len).flatMap clear_events ++
        [Event.mutex_unlock lock_t.codemap_lock, Event.mutex_unlock lock_t.jit_lock]) ∧
      del_code_region_deleted st addr len =
        (st.table.filter (overlaps_range addr len)).reverse ∧
      ∀ m ∈ s.table, m.jit_addr ≠ 0 → m ∈ st.table ∧ overlaps_range addr len m = false) ∧
    (∀ s, del_code_region st addr len = Outcome.die s →
      s.trace = st.trace ++ ([Event.mutex_lock lock_t.jit_lock,
          Event.mutex_lock lock_t.codemap_lock] ++
        (del_code_region_deleted st addr len).flatMap clear_events) ∧
      (del_code_region_deleted st addr len) <+:
        (st.table.filter (overlaps_range addr len)).reverse) ∧
    (del_code_region_calls st addr len).map Prod.fst =
      (del_code_region_deleted st addr len).flatMap clear_events ∧
    (∀ d ∈ del_code_region_deletions st addr len,
      d.2 < d.1.n_codemaps ∧ overlaps_range addr len (d.1.codemaps d.2) = true ∧
      (del_code_map_calls d.1 d.2).map Prod.fst = clear_events (d.1.codemaps d.2) ∧
      del_code_map d.1 d.2 =
        (del_code_map_calls d.1 d.2).foldl (fun _ c => c.2.emit c.1)
          (del_code_map_shifted d.1 d.2) ∧
      ∀ c ∈ del_code_map_calls d.1 d.2,
        c.2.table = d.1.table.eraseIdx d.2 ∧ c.2.n_codemaps + 1 = d.1.n_codemaps) ∧
    (addr + len < ULONG_SIZE → non_overlapping st.table → ranges_in_space st.table →
      ∀ d ∈ del_code_region_deletions st addr len, ∀ c ∈ del_code_map_calls d.1 d.2,
        (∀ x, contains (d.1.codemaps d.2).addr (d.1.codemaps d.2).len x = true →
          (find_code_map c.2 x).1 = none) ∧
        (0 < (d.1.codemaps d.2).len → d.1.codemaps d.2 ∉ c.2.table)) ∧
    (∀ s, (del_code_region st addr len).final? = some s →
      ∀ j, Event.jit_mem_free j ∈ s.trace.drop st.trace.length →
        j ≠ 0 ∧ ∃ m ∈ st.table, overlaps_range addr len m = true ∧ m.jit_addr = j) ∧
    (exclusive_jit st.table →
      ∀ s, (del_code_region st addr len).final? = some s →
        ∀ m ∈ s.table, m.jit_addr ≠ 0 →
          Event.jit_mem_free m.jit_addr ∉ s.trace.drop st.trace.length) := by
  obtain ⟨s1, s2, s3⟩ := del_code_region_deletions_spec st addr len
  have hlog := (del_code_region_loop_log_spec addr len (del_code_region_fuel st.n_codemaps)
    ((st.emit (Event.mutex_lock lock_t.jit_lock)).emit (Event.mutex_lock lock_t.codemap_lock))
    ((st.n_codemaps : Int) - 1) (by simp) (fun j hj hjn => by
      simp only [n_codemaps_emit] at hjn
      omega)).2.2.2
  refine ⟨fun m => rfl, ?_, fun s hs => ⟨s2 s hs, s3⟩,
    map_fst_del_code_region_calls st addr len, ?_, ?_, ?_,
    fun hex s hs => staying_code_not_freed st s addr len hex hs⟩
  · intro s hs
    obtain ⟨t1, t2⟩ := s1 s hs
    refine ⟨t1, t2, ?_⟩
    intro m hm hj
    obtain ⟨p1, -⟩ := del_code_region_table st s addr len hs
    have hm2 := p1.subset hm
    rw [List.mem_flatMap] at hm2
    obtain ⟨m0, hm0, hmm⟩ := hm2
    unfold split_entry at hmm
    split at hmm
    · exact absurd (jit_addr_residual addr len m0 m hmm).1 hj
    · rename_i hno
      simp only [List.mem_singleton] at hmm
      subst hmm
      exact ⟨hm0, by simpa [overlaps_range] using hno⟩
  · intro d hd
    obtain ⟨l1, l2, -⟩ := hlog d hd
    obtain ⟨c1, c2⟩ := del_code_map_calls_spec d.1 d.2 l1
    exact ⟨l1, l2, c1, del_code_map_eq_calls d.1 d.2, fun c hc => ⟨(c2 c hc).1, (c2 c hc).2.1⟩⟩
  · intro hwrap hdisj hspace d hd c hc
    obtain ⟨l1, -, -⟩ := hlog d hd
    have hinv := del_code_region_loop_log_inv addr len
      (fun s : State => non_overlapping s.table ∧ ranges_in_space s.table)
      (fun s i s1 hs hi hov hb => del_code_region_body_disjoint addr len hwrap s s1 i hs hi hov hb)
      (del_code_region_fuel st.n_codemaps)
      ((st.emit (Event.mutex_lock lock_t.jit_lock)).emit (Event.mutex_lock lock_t.codemap_lock))
      ((st.n_codemaps : Int) - 1) (by simp) (by simpa using And.intro hdisj hspace) d hd
    obtain ⟨ct, -⟩ := (del_code_map_calls_spec d.1 d.2 l1).2 c hc
    constructor
    · intro x hx
      cases hf : (find_code_map c.2 x).1 with
      | none => rfl
      | some j =>
        exfalso
        obtain ⟨f1, f2, -⟩ := (find_code_map_spec c.2 x).1 j hf
        have hmem : c.2.codemaps j ∈ c.2.table := mem_table.mpr ⟨j, f1, rfl⟩
        rw [ct] at hmem
        exact disjoint_ranges_no_common _ _ x
          (disjoint_of_mem_eraseIdx d.1 d.2 l1 hinv.1 _ hmem) hx f2
    · intro hlen
      rw [ct]
      exact not_mem_eraseIdx_of_disjoint d.1 d.2 l1 hinv.1 hlen
  · intro s hs j hj
    obtain ⟨m, hm, hj0, he⟩ := jit_mem_free_of_final st s addr len hs j hj
    have hmt := List.mem_filter.mp (List.mem_reverse.mp (s3.subset hm))
    exact ⟨by rw [← he]; exact hj0, m, hmt.1, hmt.2, he⟩

/-- Witness for C17: unregistering `[0x2000, 0x4800)` from `two_regions` deletes the
second region, which has no translated code, and then the first, whose translated code
is freed and whose whole range `[0x1000, 0x3000)` is purged, both at a moment when the table
holds only the residual `[0x4800, 0x5000)` of the second region; the code of no entry in
the table afterwards is freed. -/
theorem free_and_purge_witness :
    (del_code_region two_regions 8192 10240).trace? =
      some [Event.mutex_lock lock_t.jit_lock, Event.mutex_lock lock_t.codemap_lock,
            Event.jit_mem_free 1879048192, Event.purge_caches 4096 8192,
            Event.mutex_unlock lock_t.codemap_lock, Event.mutex_unlock lock_t.jit_lock] ∧
    (del_code_region_calls two_regions 8192 10240).map (fun c => (c.1, c.2.table)) =
      [(Event.jit_mem_free 1879048192,
          [{ addr := 18432, len := 2048, jit_addr := 0, jit_len := 0,
             inode := 0, dev := 0, mtime := 0, pgoffset := 0 }]),
       (Event.purge_caches 4096 8192,
          [{ addr := 18432, len := 2048, jit_addr := 0, jit_len := 0,
             inode := 0, dev := 0, mtime := 0, pgoffset := 0 }])] ∧
    (∀ d ∈ del_code_region_deletions two_regions 8192 10240,
      ∀ c ∈ del_code_map_calls d.1 d.2,
        (∀ x, contains (d.1.codemaps d.2).addr (d.1.codemaps d.2).len x = true →
          (find_code_map c.2 x).1 = none) ∧
        (0 < (d.1.codemaps d.2).len → d.1.codemaps d.2 ∉ c.2.table)) ∧
    ∀ s, (del_code_region two_regions 8192 10240).final? = some s →
      ∀ m ∈ s.table, m.jit_addr ≠ 0 →
        Event.jit_mem_free m.jit_addr ∉ s.trace.drop two_regions.trace.length :=
  ⟨by decide, by decide,
   (free_and_purge two_regions 8192 10240).2.2.2.2.2.1 (by decide) (by decide) (by decide),
   (free_and_purge two_regions 8192 10240).2.2.2.2.2.2.2 (by decide)⟩

/-! ## Claim on the termination of `del_code_region` -/

/-- A run of the loop that ends within its bound ends in the same way under every
larger bound. -/
theorem del_code_region_loop_mono (addr len : Nat) :
    ∀ (fuel : Nat) (st : State) (i : Int),
      del_code_region_loop addr len fuel st i ≠ Outcome.diverge →
      ∀ fuel1, fuel ≤ fuel1 →
        del_code_region_loop addr len fuel1 st i = del_code_region_loop addr len fuel st i := by
  intro fuel
  induction fuel with
  | zero =>
    intro st i h fuel1 _
    have h0 : ¬ (0 ≤ i) := by
      intro h0
      simp [del_code_region_loop, h0] at h
    cases fuel1 with
    | zero => rfl
    | succ f => simp [del_code_region_loop, h0]
  | succ fuel ih =>
    intro st i h fuel1 hle
    cases fuel1 with
    | zero => omega
    | succ f =>
      simp only [del_code_region_loop] at h ⊢
      by_cases h0 : 0 ≤ i
      · simp only [if_pos h0] at h ⊢
        by_cases hov : overlap addr len (st.codemaps i.toNat).addr (st.codemaps i.toNat).len = false
        · simp only [if_pos hov] at h ⊢
          exact ih st (i - 1) h f (by omega)
        · simp only [if_neg hov] at h ⊢
          cases hb : del_code_region_body addr len st i.toNat with
          | diverge => rfl
          | die t => rfl
          | ok st1 =>
            rw [hb] at h
            exact ih st1 _ h f (by omega)
      · simp only [if_neg h0]

/-- A pass of the loop body on a table within the capacity can only end in `die` at the
insertion of the second residual: the deleted entry sticks out of the range on both
sides. -/
theorem del_code_region_body_die_split (addr len : Nat) (st t : State) (i : Nat)
    (hi : i < st.n_codemaps) (hn : st.n_codemaps ≤ MAX_CODEMAPS)
    (h : del_code_region_body addr len st i = Outcome.die t) :
    (st.codemaps i).addr < addr ∧
    (addr + len) % ULONG_SIZE < ((st.codemaps i).addr + (st.codemaps i).len) % ULONG_SIZE := by
  obtain ⟨-, d2, -⟩ := del_code_map_facts st i hi
  unfold del_code_region_body at h
  simp only [gt_iff_lt] at h
  by_cases hl : (st.codemaps i).addr < addr
  · refine ⟨hl, ?_⟩
    by_contra hr
    simp only [if_pos hl] at h
    cases ha : add_code_map (del_code_map st i)
        { st.codemaps i with jit_addr := 0, jit_len := 0, len := addr - (st.codemaps i).addr } with
    | diverge => rw [ha] at h; simp at h
    | die u =>
      obtain ⟨-, a2⟩ := add_code_map_die _ _ _ ha
      omega
    | ok st2 =>
      rw [ha] at h
      simp only [if_neg hr] at h
      simp at h
  · simp only [if_neg hl] at h
    split at h
    · obtain ⟨-, b2⟩ := add_code_map_die _ _ _ h
      omega
    · simp at h

/-- A run of the loop that ends in `die` has a call of `del_code_map` in a pass of the
body that ended in `die`. -/
theorem del_code_region_loop_log_die (addr len : Nat) :
    ∀ (fuel : Nat) (st : State) (i : Int) (t : State),
      (del_code_region_loop_log addr len fuel st i).1 = Outcome.die t →
      ∃ d ∈ (del_code_region_loop_log addr len fuel st i).2,
        del_code_region_body addr len d.1 d.2 = Outcome.die t := by
  intro fuel
  induction fuel with
  | zero =>
    intro st i t h
    unfold del_code_region_loop_log at h
    split at h <;> simp at h
  | succ fuel ih =>
    intro st i t h
    unfold del_code_region_loop_log at h ⊢
    by_cases h0 : 0 ≤ i
    · rw [if_pos h0] at h ⊢
      by_cases hov : overlap addr len (st.codemaps i.toNat).addr (st.codemaps i.toNat).len = false
      · rw [if_pos hov] at h ⊢
        exact ih st (i - 1) t h
      · rw [if_neg hov] at h ⊢
        cases hb : del_code_region_body addr len st i.toNat with
        | diverge => rw [hb] at h; simp at h
        | die u =>
          rw [hb] at h
          simp only [Outcome.die.injEq] at h
          subst h
          exact ⟨(st, i.toNat), by simp, hb⟩
        | ok st1 =>
          rw [hb] at h
          simp only at h ⊢
          obtain ⟨d, hd, hdb⟩ := ih st1 _ t h
          exact ⟨d, List.mem_cons_of_mem _ hd, hdb⟩
    · rw [if_neg h0] at h
      simp at h

/-- In a list of pairwise disjoint ranges, an entry that sticks out of the range on both
sides is the only entry that overlaps the range. -/
theorem filter_overlaps_of_split (addr len : Nat) (hwrap : addr + len < ULONG_SIZE)
    (m : code_map_t) (h1 : m.addr < addr)
    (h2 : (addr + len) % ULONG_SIZE < (m.addr + m.len) % ULONG_SIZE) :
    ∀ (l : List code_map_t), non_overlapping l → m ∈ l →
      l.filter (overlaps_range addr len) = [m] := by
  have e : (addr + len) % ULONG_SIZE = addr + len := Nat.mod_eq_of_lt hwrap
  have hm : (m.addr + m.len) % ULONG_SIZE ≤ m.addr + m.len := Nat.mod_le _ _
  rw [e] at h2
  have hovm : overlaps_range addr len m = true := by
    unfold overlaps_range
    rw [overlap_eq_true_iff, e]
    omega
  have hno : ∀ b : code_map_t, disjoint_ranges m b ∨ disjoint_ranges b m →
      overlaps_range addr len b = false := by
    intro b hb
    have hbm : (b.addr + b.len) % ULONG_SIZE ≤ b.addr + b.len := Nat.mod_le _ _
    unfold overlaps_range
    rw [overlap_eq_false_iff, e]
    unfold disjoint_ranges at hb
    omega
  intro l
  induction l with
  | nil => intro _ hml; simp at hml
  | cons a l ih =>
    intro hd hml
    unfold non_overlapping at hd
    rw [List.pairwise_cons] at hd
    by_cases ha : m = a
    · subst ha
      have hnil : l.filter (overlaps_range addr len) = [] := by
        rw [List.filter_eq_nil_iff]
        intro b hb
        rw [hno b (Or.inl (hd.1 b hb))]
        simp
      simp [List.filter_cons, hovm, hnil]
    · have hmt : m ∈ l := by
        rcases List.mem_cons.mp hml with h | h
        · exact absurd h ha
        · exact h
      have := hno a (Or.inr (hd.1 m hmt))
      simp only [List.filter_cons, this]
      exact ih hd.2 hmt

/-- C20 (termination of unregister).  For every table of pairwise disjoint ranges within
the capacity and every range that does not wrap: the rescan loop of
`del_code_region` ends within `del_code_region_fuel n_codemaps` passes (by return, or
by `die` at the capacity guard), and in the same way under every larger bound; the
entries it deletes are exactly the entries of the table that overlap the range, each
slot once, last slot first; every deleted entry overlaps the range and no residual
does, so that no residual is deleted; when the call returns, the residuals of every
deleted entry are in the table; and with a free slot the call returns. -/
theorem unregister_terminates (st : State) (addr len : Nat)
    (hdisj : non_overlapping st.table) (hwrap : addr + len < ULONG_SIZE)
    (hn : st.n_codemaps ≤ MAX_CODEMAPS) :
    (∀ fuel, del_code_region_fuel st.n_codemaps ≤ fuel →
      del_code_region_loop addr len fuel
        ((st.emit (Event.mutex_lock lock_t.jit_lock)).emit (Event.mutex_lock lock_t.codemap_lock))
        ((st.n_codemaps : Int) - 1) ≠ Outcome.diverge ∧
      del_code_region_loop addr len fuel
        ((st.emit (Event.mutex_lock lock_t.jit_lock)).emit (Event.mutex_lock lock_t.codemap_lock))
        ((st.n_codemaps : Int) - 1) =
      del_code_region_loop addr len (del_code_region_fuel st.n_codemaps)
        ((st.emit (Event.mutex_lock lock_t.jit_lock)).emit (Event.mutex_lock lock_t.codemap_lock))
        ((st.n_codemaps : Int) - 1)) ∧
    del_code_region st addr len ≠ Outcome.diverge ∧
    del_code_region_deleted st addr len = (st.table.filter (overlaps_range addr len)).reverse ∧
    (∀ d ∈ del_code_region_deletions st addr len,
      overlaps_range addr len (d.1.codemaps d.2) = true) ∧
    (∀ m r, r ∈ residuals addr len m → overlaps_range addr len r = false) ∧
    (∀ s, del_code_region st addr len = Outcome.ok s →
      ∀ m ∈ del_code_region_deleted st addr len, ∀ r ∈ residuals addr len m, r ∈ s.table) ∧
    (st.n_codemaps < MAX_CODEMAPS → ∃ s, del_code_region st addr len = Outcome.ok s) := by
  have hfuel := del_code_region_fuel_enough addr len
    ((st.emit (Event.mutex_lock lock_t.jit_lock)).emit (Event.mutex_lock lock_t.codemap_lock))
  simp only [n_codemaps_emit] at hfuel
  have hnd : ∀ fuel, del_code_region_fuel st.n_codemaps ≤ fuel →
      del_code_region_loop addr len fuel
        ((st.emit (Event.mutex_lock lock_t.jit_lock)).emit (Event.mutex_lock lock_t.codemap_lock))
        ((st.n_codemaps : Int) - 1) ≠ Outcome.diverge := fun fuel hf =>
    del_code_region_loop_ne_diverge addr len fuel _ _ (by omega) (by simp) (by
      simp only [n_codemaps_emit]
      omega)
  obtain ⟨s1, s2, s3⟩ := del_code_region_deletions_spec st addr len
  obtain ⟨-, -, -, hlog⟩ := del_code_region_loop_log_spec addr len
    (del_code_region_fuel st.n_codemaps)
    ((st.emit (Event.mutex_lock lock_t.jit_lock)).emit (Event.mutex_lock lock_t.codemap_lock))
    ((st.n_codemaps : Int) - 1) (by simp) (fun j hj hjn => by
      simp only [n_codemaps_emit] at hjn
      omega)
  have hdel : del_code_region_deleted st addr len =
      (st.table.filter (overlaps_range addr len)).reverse := by
    cases hr : del_code_region st addr len with
    | diverge => exact absurd hr (del_code_region_ne_diverge st addr len)
    | ok s => exact (s1 s hr).2
    | die t =>
      rw [del_code_region_eq_log] at hr
      have hdie : (del_code_region_loop_log addr len (del_code_region_fuel st.n_codemaps)
          ((st.emit (Event.mutex_lock lock_t.jit_lock)).emit
            (Event.mutex_lock lock_t.codemap_lock))
          ((st.n_codemaps : Int) - 1)).1 = Outcome.die t := by
        split at hr
        · simp at hr
        · rename_i u hu
          simp only [Outcome.die.injEq] at hr
          rw [hu, hr]
        · simp at hr
      obtain ⟨d, hd, hdb⟩ := del_code_region_loop_log_die addr len _ _ _ t hdie
      have hbound := del_code_region_loop_log_inv addr len
        (fun s : State => s.n_codemaps ≤ MAX_CODEMAPS)
        (fun s i s1 hs hi _ hb =>
          (del_code_region_body_final addr len s s1 i hi (by rw [hb]; rfl)).2.2.2.1 hs)
        (del_code_region_fuel st.n_codemaps)
        ((st.emit (Event.mutex_lock lock_t.jit_lock)).emit (Event.mutex_lock lock_t.codemap_lock))
        ((st.n_codemaps : Int) - 1) (by simp) (by simpa using hn) d hd
      obtain ⟨l1, -, -⟩ := hlog d hd
      obtain ⟨c1, c2⟩ := del_code_region_body_die_split addr len d.1 t d.2 l1 hbound hdb
      have hmem : d.1.codemaps d.2 ∈ del_code_region_deleted st addr len :=
        List.mem_map.mpr ⟨d, hd, rfl⟩
      have hmt := List.mem_reverse.mp (s3.subset hmem)
      have hone := filter_overlaps_of_split addr len hwrap _ c1 c2 st.table hdisj
        (List.mem_filter.mp hmt).1
      rw [hone] at s3 ⊢
      simp only [List.reverse_cons, List.reverse_nil, List.nil_append] at s3 ⊢
      rcases List.prefix_cons_iff.mp s3 with h | ⟨l, hl, -⟩
      · rw [h] at hmem
        simp at hmem
      · rw [hl]
        have : l = [] := by
          have h2 := s3.length_le
          rw [hl] at h2
          simp only [List.length_cons, List.length_nil] at h2
          exact List.length_eq_zero.mp (by omega)
        rw [this]
  refine ⟨fun fuel hf => ⟨hnd fuel hf, ?_⟩, del_code_region_ne_diverge st addr len, hdel,
    fun d hd => (hlog d hd).2.1, fun m r hr => overlap_residual addr len m r hr, ?_, ?_⟩
  · exact del_code_region_loop_mono addr len _ _ _ (hnd _ (Nat.le_refl _)) fuel hf
  · intro s hs m hm r hr
    rw [hdel] at hm
    have hmt := List.mem_filter.mp (List.mem_reverse.mp hm)
    obtain ⟨p1, -⟩ := del_code_region_table st s addr len hs
    apply p1.symm.subset
    rw [List.mem_flatMap]
    refine ⟨m, hmt.1, ?_⟩
    unfold split_entry
    have := hmt.2
    unfold overlaps_range at this
    rw [if_pos this]
    exact hr
  · intro hlt
    exact del_code_region_returns_of_room st addr len hwrap hdisj hlt

/-- Witness for C20: unregistering `[0x2000, 0x4800)` from `two_regions` deletes the
second region and then the first, each once, and returns with the residuals
`[0x1000, 0x2000)` and `[0x4800, 0x5000)` in the table. -/
theorem unregister_terminates_witness :
    (del_code_region_deleted two_regions 8192 10240 =
      [{ addr := 16384, len := 4096, jit_addr := 0, jit_len := 0,
         inode := 0, dev := 0, mtime := 0, pgoffset := 0 },
       { addr := 4096, len := 8192, jit_addr := 1879048192, jit_len := 256,
         inode := 7, dev := 8, mtime := 9, pgoffset := 3 }]) ∧
    del_code_region two_regions 8192 10240 ≠ Outcome.diverge ∧
    del_code_region_deleted two_regions 8192 10240 =
      (two_regions.table.filter (overlaps_range 8192 10240)).reverse ∧
    ∃ s, del_code_region two_regions 8192 10240 = Outcome.ok s :=
  ⟨by decide,
   (unregister_terminates two_regions 8192 10240 (by decide) (by decide) (by decide)).2.1,
   (unregister_terminates two_regions 8192 10240 (by decide) (by decide) (by decide)).2.2.1,
   (unregister_terminates two_regions 8192 10240 (by decide) (by decide)
      (by decide)).2.2.2.2.2.2 (by decide)⟩

/-! ## Claim on the lock ordering -/

theorem lock_walk_append (l1 l2 : List Event) :
    ∀ h, lock_walk (l1 ++ l2) h = (lock_walk l1 h).bind (lock_walk l2) := by
  induction l1 with
  | nil => intro h; rfl
  | cons e l1 ih =>
    intro h
    simp only [List.cons_append, lock_walk]
    cases lock_step h e with
    | none => rfl
    | some h1 => exact ih h1

theorem lock_walk_clear_events (l : List code_map_t) :
    lock_walk (l.flatMap clear_events) (true, true) = some (true, true) := by
  induction l with
  | nil => rfl
  | cons m l ih =>
    rw [List.flatMap_cons, lock_walk_append]
    have : lock_walk (clear_events m) (true, true) = some (true, true) := by
      unfold clear_events
      split <;> rfl
    rw [this]
    exact ih

theorem is_clear_of_mem (l : List code_map_t) (e : Event) (h : e ∈ l.flatMap clear_events) :
    e.is_clear = true := by
  rw [List.mem_flatMap] at h
  obtain ⟨m, -, hm⟩ := h
  rcases (mem_clear_events m e hm).2 with h | h <;> rw [h] <;> rfl

theorem walks_locks_refl (tr : List Event) (h : Bool × Bool) : walks_locks tr tr h h :=
  ⟨[], by simp, rfl⟩

theorem walks_locks_trans {a b c : List Event} {h h1 h2 : Bool × Bool}
    (x : walks_locks a b h h1) (y : walks_locks b c h1 h2) : walks_locks a c h h2 := by
  obtain ⟨e1, x1, x2⟩ := x
  obtain ⟨e2, y1, y2⟩ := y
  refine ⟨e1 ++ e2, by rw [y1, x1, List.append_assoc], ?_⟩
  rw [lock_walk_append, x2]
  exact y2

theorem walks_locks_emit (st : State) (e : Event) (h h1 : Bool × Bool)
    (he : lock_step h e = some h1) : walks_locks st.trace (st.emit e).trace h h1 :=
  ⟨[e], rfl, by simp [lock_walk, he]⟩

theorem walks_locks_kernel_call (st : State) (e : Event) (h : Bool × Bool)
    (he : e.is_kernel_call = true) : walks_locks st.trace (st.emit e).trace h h := by
  apply walks_locks_emit
  cases e <;> first | rfl | simp [Event.is_kernel_call] at he

/-- The lock discipline of `del_code_region`. -/
theorem del_code_region_walks (st : State) (addr len : Nat) :
    (∀ s, del_code_region st addr len = Outcome.ok s →
      walks_locks st.trace s.trace (false, false) (false, false)) ∧
    (∀ s, del_code_region st addr len = Outcome.die s →
      walks_locks st.trace s.trace (false, false) (true, true)) := by
  obtain ⟨s1, s2, -⟩ := del_code_region_deletions_spec st addr len
  constructor
  · intro s hs
    refine ⟨_, (s1 s hs).1, ?_⟩
    rw [lock_walk_append, lock_walk_append]
    have e1 : lock_walk [Event.mutex_lock lock_t.jit_lock, Event.mutex_lock lock_t.codemap_lock]
        (false, false) = some (true, true) := rfl
    rw [e1]
    simp only [Option.some_bind, lock_walk_clear_events]
    rfl
  · intro s hs
    refine ⟨_, s2 s hs, ?_⟩
    rw [lock_walk_append]
    have e1 : lock_walk [Event.mutex_lock lock_t.jit_lock, Event.mutex_lock lock_t.codemap_lock]
        (false, false) = some (true, true) := rfl
    rw [e1]
    simp only [Option.some_bind, lock_walk_clear_events]

/-- The lock discipline of `add_code_region`: the events of `del_code_region`, then the lock
and the unlock of `codemap_lock` around the insertion. -/
theorem add_code_region_walks (st : State) (addr len inode dev mtime pgoffset : Nat) :
    (∀ s, add_code_region st addr len inode dev mtime pgoffset = Outcome.ok s →
      walks_locks st.trace s.trace (false, false) (false, false) ∧
      ∃ st1, del_code_region st addr len = Outcome.ok st1 ∧
        s.trace = st1.trace ++ [Event.mutex_lock lock_t.codemap_lock,
          Event.mutex_unlock lock_t.codemap_lock]) ∧
    (∀ s, add_code_region st addr len inode dev mtime pgoffset = Outcome.die s →
      ∃ h1, walks_locks st.trace s.trace (false, false) h1) := by
  obtain ⟨d1, d2⟩ := del_code_region_walks st addr len
  constructor
  · intro s hs
    obtain ⟨st1, st2, h1, h2, h3⟩ := add_code_region_ok _ _ _ _ _ _ _ _ hs
    obtain ⟨-, -, a3, -⟩ := table_add_code_map _ _ _ h2
    have ht : s.trace = st1.trace ++ [Event.mutex_lock lock_t.codemap_lock,
        Event.mutex_unlock lock_t.codemap_lock] := by
      rw [h3, trace_emit, a3, trace_emit, List.append_assoc]
      rfl
    exact ⟨walks_locks_trans (d1 st1 h1) ⟨_, ht, rfl⟩, st1, h1, ht⟩
  · intro s hs
    unfold add_code_region at hs
    cases hd : del_code_region st addr len with
    | diverge => rw [hd] at hs; simp at hs
    | die t =>
      rw [hd] at hs
      simp only [Outcome.die.injEq] at hs
      subst hs
      exact ⟨_, d2 _ hd⟩
    | ok st1 =>
      rw [hd] at hs
      simp only at hs
      split at hs
      · simp at hs
      · rename_i t ht
        simp only [Outcome.die.injEq] at hs
        subst hs
        obtain ⟨a1, -⟩ := add_code_map_die _ _ _ ht
        subst a1
        exact ⟨_, walks_locks_trans (d1 st1 hd) (walks_locks_emit st1 _ _ _ rfl)⟩
      · simp at hs

theorem follows_locks_ok (tr0 : List Event) (s : State)
    (h : walks_locks tr0 s.trace (false, false) (false, false)) :
    follows_locks tr0 (Outcome.ok s) := by
  constructor
  · intro t ht
    simp only [Outcome.ok.injEq] at ht
    subst ht
    exact h
  · intro t ht
    simp at ht

theorem follows_locks_prefix {tr0 tr1 : List Event} {o : Outcome State}
    (h : walks_locks tr0 tr1 (false, false) (false, false)) (ho : follows_locks tr1 o) :
    follows_locks tr0 o :=
  ⟨fun s hs => walks_locks_trans h (ho.1 s hs),
   fun s hs => by
    obtain ⟨h1, hw⟩ := ho.2 s hs
    exact ⟨h1, walks_locks_trans h hw⟩⟩

theorem follows_locks_del_code_region (st : State) (addr len : Nat) :
    follows_locks st.trace (del_code_region st addr len) :=
  ⟨(del_code_region_walks st addr len).1,
   fun s hs => ⟨_, (del_code_region_walks st addr len).2 s hs⟩⟩

theorem follows_locks_add_code_region (st : State) (addr len inode dev mtime pgoffset : Nat) :
    follows_locks st.trace (add_code_region st addr len inode dev mtime pgoffset) :=
  ⟨fun s hs => ((add_code_region_walks st addr len inode dev mtime pgoffset).1 s hs).1,
   (add_code_region_walks st addr len inode dev mtime pgoffset).2⟩

theorem drop_ret_then_return (o : Outcome State) (ret : Nat) :
    (o.then_return ret).drop_ret = o := by
  cases o <;> rfl

theorem follows_locks_user_mmap2 (L : Layout) (K : Kernel) (st : State)
    (addr length prot flags : Nat) (fd : Int) (pgoffset : Nat) :
    follows_locks st.trace (user_mmap2 L K st addr length prot flags fd pgoffset).drop_ret := by
  unfold user_mmap2
  split
  · exact follows_locks_ok _ _ (walks_locks_refl _ _)
  · simp only
    have w1 := walks_locks_kernel_call st
      (Event.sys_mmap2 addr length (mmap_new_prot prot) flags fd pgoffset) (false, false) rfl
    split
    · have w2 := walks_locks_trans w1 (walks_locks_kernel_call
        (st.emit (Event.sys_mmap2 addr length (mmap_new_prot prot) flags fd pgoffset))
        (Event.sys_mmap2
          ((K.sys_mmap2 st.trace addr length (mmap_new_prot prot) flags fd pgoffset +
            L.TAINT_OFFSET) % ULONG_SIZE)
          length (mmap_new_prot prot) (MAP_PRIVATE ||| MAP_FIXED ||| MAP_ANONYMOUS) (-1) 0)
        (false, false) rfl)
      split
      · rw [drop_ret_then_return]
        split
        · exact follows_locks_prefix w2 (follows_locks_add_code_region _ _ _ _ _ _ _)
        · exact follows_locks_prefix
            (walks_locks_trans w2 (walks_locks_kernel_call _ (Event.sys_fstat64 fd) _ rfl))
            (follows_locks_add_code_region _ _ _ _ _ _ _)
      · rw [drop_ret_then_return]
        exact follows_locks_prefix w2 (follows_locks_del_code_region _ _ _)
    · exact follows_locks_ok _ _ w1

theorem follows_locks_user_munmap (L : Layout) (K : Kernel) (st : State) (addr length : Nat) :
    follows_locks st.trace (user_munmap L K st addr length).drop_ret := by
  unfold user_munmap
  split
  · exact follows_locks_ok _ _ (walks_locks_refl _ _)
  · simp only
    have w1 := walks_locks_kernel_call st (Event.sys_munmap addr length) (false, false) rfl
    split
    · rw [drop_ret_then_return]
      exact follows_locks_prefix w1 (follows_locks_del_code_region _ _ _)
    · exact follows_locks_ok _ _ w1

theorem follows_locks_user_mprotect (L : Layout) (K : Kernel) (st : State)
    (addr length prot : Nat) :
    follows_locks st.trace (user_mprotect L K st addr length prot).drop_ret := by
  unfold user_mprotect
  split
  · exact follows_locks_ok _ _ (walks_locks_refl _ _)
  · simp only
    have w2 := walks_locks_trans
      (walks_locks_kernel_call st
        (Event.sys_mprotect addr length (prot &&& (ULONG_SIZE - 1 - PROT_EXEC))) (false, false) rfl)
      (walks_locks_kernel_call
        (st.emit (Event.sys_mprotect addr length (prot &&& (ULONG_SIZE - 1 - PROT_EXEC))))
        (Event.sys_mprotect ((L.TAINT_OFFSET + addr) % ULONG_SIZE) length
          (prot &&& (ULONG_SIZE - 1 - PROT_EXEC))) (false, false) rfl)
    split
    · split
      · rw [drop_ret_then_return]
        exact follows_locks_prefix w2 (follows_locks_add_code_region _ _ _ _ _ _ _)
      · rw [drop_ret_then_return]
        exact follows_locks_prefix w2 (follows_locks_del_code_region _ _ _)
    · exact follows_locks_ok _ _ w2

theorem follows_locks_user_brk (L : Layout) (K : Kernel) (st : State) (b : Nat) :
    follows_locks st.trace (user_brk L K st b).drop_ret := by
  unfold user_brk
  split
  · simp only
    have hgen : ∀ o : Outcome (Nat × State), follows_locks st.trace o.drop_ret →
        follows_locks st.trace
          (match o with
            | Outcome.ok r => Outcome.ok (b, { r.2 with brk_cur := b })
            | Outcome.die s => Outcome.die s
            | Outcome.diverge => (Outcome.diverge : Outcome (Nat × State))).drop_ret := by
      intro o ho
      cases o with
      | diverge => exact ho
      | die t => exact ho
      | ok r => exact follows_locks_ok _ _ (ho.1 r.2 rfl)
    apply hgen
    split
    · exact follows_locks_user_mmap2 _ _ _ _ _ _ _ _ _
    · split
      · exact follows_locks_user_munmap _ _ _ _ _
      · exact follows_locks_ok _ _ (walks_locks_refl _ _)
  · exact follows_locks_ok _ _ (walks_locks_refl _ _)

theorem follows_locks_set_brk_min (L : Layout) (st : State) (b : Nat) :
    follows_locks st.trace (Outcome.ok (set_brk_min L st b).2) := by
  apply follows_locks_ok
  rw [(set_brk_min_facts L st b).2.2.2.2.1]
  split
  · exact ⟨[Event.sys_brk b], rfl, rfl⟩
  · exact walks_locks_refl _ _

/-- C18 (lock ordering), on the events of each call started with no lock held.  A
returning `del_code_region` locks `jit_lock`, then `codemap_lock`, then only calls
`jit_mem_free` and `purge_caches`, then unlocks `codemap_lock`, then `jit_lock`; one that
ends in `die` has the same events without the unlocks.  The two lookups lock and
unlock `codemap_lock` and nothing else; `add_code_region` adds to the events of its
`del_code_region` the lock and the unlock of `codemap_lock` around the insertion.
Every entry point of codemap.c and mm.c follows the discipline of `lock_step`
(`jit_lock` is not taken while `codemap_lock` is held, `jit_mem_free` and
`purge_caches` happen with both locks held, only held locks are released) and holds
no lock when it returns. -/
theorem lock_ordering (L : Layout) (K : Kernel) (st : State) :
    (∀ addr len s, del_code_region st addr len = Outcome.ok s →
      ∃ clears, s.trace = st.trace ++ ([Event.mutex_lock lock_t.jit_lock,
          Event.mutex_lock lock_t.codemap_lock] ++ clears ++
          [Event.mutex_unlock lock_t.codemap_lock, Event.mutex_unlock lock_t.jit_lock]) ∧
        ∀ e ∈ clears, e.is_clear = true) ∧
    (∀ addr len s, del_code_region st addr len = Outcome.die s →
      ∃ clears, s.trace = st.trace ++ ([Event.mutex_lock lock_t.jit_lock,
          Event.mutex_lock lock_t.codemap_lock] ++ clears) ∧
        ∀ e ∈ clears, e.is_clear = true) ∧
    (∀ x, (find_code_map st x).2.trace = st.trace ++ [Event.mutex_lock lock_t.codemap_lock,
      Event.mutex_unlock lock_t.codemap_lock]) ∧
    (∀ x, (find_jit_code_map st x).2.trace = st.trace ++ [Event.mutex_lock lock_t.codemap_lock,
      Event.mutex_unlock lock_t.codemap_lock]) ∧
    (∀ addr len inode dev mtime pgoffset s,
      add_code_region st addr len inode dev mtime pgoffset = Outcome.ok s →
      ∃ st1, del_code_region st addr len = Outcome.ok st1 ∧
        s.trace = st1.trace ++ [Event.mutex_lock lock_t.codemap_lock,
          Event.mutex_unlock lock_t.codemap_lock]) ∧
    (∀ c, follows_locks st.trace (Op.exec L K st c)) := by
  refine ⟨?_, ?_, fun x => rfl, fun x => rfl, ?_, ?_⟩
  · intro addr len s hs
    exact ⟨_, ((del_code_region_deletions_spec st addr len).1 s hs).1,
      fun e he => is_clear_of_mem _ e he⟩
  · intro addr len s hs
    exact ⟨_, (del_code_region_deletions_spec st addr len).2.1 s hs,
      fun e he => is_clear_of_mem _ e he⟩
  · intro addr len inode dev mtime pgoffset s hs
    exact ((add_code_region_walks st addr len inode dev mtime pgoffset).1 s hs).2
  · intro c
    cases c with
    | add_code_region addr len inode dev mtime pgoffset =>
      exact follows_locks_add_code_region _ _ _ _ _ _ _
    | del_code_region addr len => exact follows_locks_del_code_region _ _ _
    | find_code_map addr => exact follows_locks_ok _ _ ⟨_, rfl, rfl⟩
    | find_jit_code_map jit_addr => exact follows_locks_ok _ _ ⟨_, rfl, rfl⟩
    | user_mmap2 addr length prot flags fd pgoffset =>
      exact follows_locks_user_mmap2 _ _ _ _ _ _ _ _ _
    | user_munmap addr length => exact follows_locks_user_munmap _ _ _ _ _
    | user_mprotect addr length prot => exact follows_locks_user_mprotect _ _ _ _ _ _
    | set_brk_min b => exact follows_locks_set_brk_min _ _ _
    | user_brk b => exact follows_locks_user_brk _ _ _ _

/-- Witness for C18: the events of unregistering `[0x2000, 0x4800)` from `two_regions`. -/
theorem lock_ordering_witness :
    (del_code_region two_regions 8192 10240).trace?.map
        (fun t => lock_walk t (false, false)) = some (some (false, false)) ∧
    follows_locks two_regions.trace
      (Op.exec example_layout granting_kernel two_regions (Op.del_code_region 8192 10240)) :=
  ⟨by decide,
   (lock_ordering example_layout granting_kernel two_regions).2.2.2.2.2
     (Op.del_code_region 8192 10240)⟩

/-! ## Claim on the array bounds in `del_code_map` -/

theorem del_code_map_loop_accesses_spec (n : Nat) :
    ∀ (k i : Nat), i + k = n →
      (∀ a ∈ del_code_map_loop_accesses n k i, a.index ≤ n) ∧
      (0 < k → Access.read n ∈ del_code_map_loop_accesses n k i) := by
  intro k
  induction k with
  | zero =>
    intro i _
    exact ⟨fun a ha => by simp [del_code_map_loop_accesses] at ha, fun h => absurd h (by omega)⟩
  | succ k ih =>
    intro i hik
    have hi : i < n := by omega
    obtain ⟨i1, i2⟩ := ih (i + 1) (by omega)
    unfold del_code_map_loop_accesses
    rw [if_pos hi]
    constructor
    · intro a ha
      rcases List.mem_cons.mp ha with ha | ha
      · subst ha
        show i + 1 ≤ n
        omega
      · rcases List.mem_cons.mp ha with ha | ha
        · subst ha
          show i ≤ n
          omega
        · exact i1 a ha
    · intro _
      by_cases hk : k = 0
      · have : i + 1 = n := by omega
        rw [this]
        exact List.mem_cons_self _ _
      · exact List.mem_cons_of_mem _ (List.mem_cons_of_mem _ (i2 (by omega)))

/-- The accesses of `del_code_map(i)` for a live slot `i`: every index is at most
`n_codemaps`, and the element `codemaps[n_codemaps]` is read, by the last pass of the
loop.  Below the capacity all accesses are inside the array. -/
theorem del_code_map_accesses_spec (st : State) (i : Nat) (hi : i < st.n_codemaps) :
    (∀ a ∈ del_code_map_accesses st i, a.index ≤ st.n_codemaps) ∧
    Access.read st.n_codemaps ∈ del_code_map_accesses st i ∧
    (st.n_codemaps < MAX_CODEMAPS → ∀ a ∈ del_code_map_accesses st i, a.index < MAX_CODEMAPS) := by
  obtain ⟨h1, h2⟩ := del_code_map_loop_accesses_spec st.n_codemaps (st.n_codemaps - i) i (by omega)
  have hall : ∀ a ∈ del_code_map_accesses st i, a.index ≤ st.n_codemaps := by
    intro a ha
    unfold del_code_map_accesses at ha
    rcases List.mem_cons.mp ha with ha | ha
    · subst ha
      show i ≤ st.n_codemaps
      omega
    · exact h1 a ha
  refine ⟨hall, ?_, fun hn a ha => Nat.lt_of_le_of_lt (hall a ha) hn⟩
  unfold del_code_map_accesses
  exact List.mem_cons_of_mem _ (h2 (by omega))

/-- C19 (array bounds in deletion), the code at the failing input: on the full table
(`n_codemaps = MAX_CODEMAPS`), `del_code_map(i)` reads the element
`codemaps[MAX_CODEMAPS]`, one past the end of the array, for every slot `i`; for the
last slot its accesses are the reads of `codemaps[32767]` and `codemaps[32768]` and the
write of `codemaps[32767]`. -/
theorem del_code_map_reads_past_end :
    full_table.n_codemaps = MAX_CODEMAPS ∧
    (∀ i : Fin MAX_CODEMAPS, Access.read MAX_CODEMAPS ∈ del_code_map_accesses full_table i.val) ∧
    del_code_map_accesses full_table 32767 =
      [Access.read 32767, Access.read 32768, Access.write 32767] ∧
    ¬ (∀ a ∈ del_code_map_accesses full_table 32767, a.index < MAX_CODEMAPS) := by
  refine ⟨rfl, fun i => (del_code_map_accesses_spec full_table i.val i.isLt).2.1, by decide, ?_⟩
  intro h
  have := h (Access.read MAX_CODEMAPS)
    (del_code_map_accesses_spec full_table 32767 (by decide)).2.1
  simp [Access.index] at this

/-! ## Claim on the unmapping of two adjacent regions -/

theorem nothing_translated_emit (st : State) (e : Event) (he : e.is_clear = false)
    (h : nothing_translated st) : nothing_translated (st.emit e) := by
  refine ⟨by simpa using h.1, ?_⟩
  intro x hx
  simp only [trace_emit, List.mem_append, List.mem_singleton] at hx
  rcases hx with hx | hx
  · exact h.2 x hx
  · rw [hx]; exact he

/-- While no entry owns translated code, `del_code_region` frees and purges nothing. -/
theorem nothing_translated_del_code_region (st s : State) (addr len : Nat)
    (h : nothing_translated st) (hs : del_code_region st addr len = Outcome.ok s) :
    nothing_translated s := by
  obtain ⟨t1, t2⟩ := (del_code_region_deletions_spec st addr len).1 s hs
  obtain ⟨p1, -⟩ := del_code_region_table st s addr len hs
  constructor
  · intro m hm
    have hm2 := p1.subset hm
    rw [List.mem_flatMap] at hm2
    obtain ⟨m0, hm0, hmm⟩ := hm2
    unfold split_entry at hmm
    split at hmm
    · exact (jit_addr_residual addr len m0 m hmm).1
    · simp only [List.mem_singleton] at hmm
      subst hmm
      exact h.1 m hm0
  · have hnil : (del_code_region_deleted st addr len).flatMap clear_events = [] := by
      rw [List.flatMap_eq_nil_iff]
      intro m hm
      rw [t2] at hm
      have hmt := (List.mem_filter.mp (List.mem_reverse.mp hm)).1
      unfold clear_events
      rw [if_neg (by simp [h.1 m hmt])]
    rw [t1, hnil]
    intro e he
    simp only [List.append_nil, List.cons_append, List.nil_append, List.mem_append,
      List.mem_cons, List.mem_singleton, List.not_mem_nil, or_false] at he
    rcases he with he | he | he | he | he
    · exact h.2 e he
    all_goals (rw [he]; rfl)

/-- The table after `add_code_region` is a rearrangement of the new region and what
`del_code_region` leaves of the old entries. -/
theorem add_code_region_table (st s : State) (addr len inode dev mtime pgoffset : Nat)
    (hs : add_code_region st addr len inode dev mtime pgoffset = Outcome.ok s) :
    s.table.Perm
      ({ addr := addr, len := len, jit_addr := 0, jit_len := 0,
         dev := dev, inode := inode, mtime := mtime, pgoffset := pgoffset } ::
        st.table.flatMap (split_entry addr len)) := by
  obtain ⟨st1, st2, h1, h2, h3⟩ := add_code_region_ok _ _ _ _ _ _ _ _ hs
  obtain ⟨p1, -⟩ := del_code_region_table st st1 addr len h1
  obtain ⟨-, -, -, -, -, a6, -⟩ := add_code_map_facts _ _ _ h2
  rw [h3, table_emit]
  rw [table_emit] at a6
  exact a6.trans (List.Perm.cons _ p1)

theorem nothing_translated_add_code_region (st s : State)
    (addr len inode dev mtime pgoffset : Nat) (h : nothing_translated st)
    (hs : add_code_region st addr len inode dev mtime pgoffset = Outcome.ok s) :
    nothing_translated s := by
  obtain ⟨st1, st2, h1, h2, h3⟩ := add_code_region_ok _ _ _ _ _ _ _ _ hs
  have n1 := nothing_translated_emit st1 (Event.mutex_lock lock_t.codemap_lock) rfl
    (nothing_translated_del_code_region st st1 addr len h h1)
  obtain ⟨-, -, a3, -, -, a6, -⟩ := add_code_map_facts _ _ _ h2
  have n2 : nothing_translated st2 := by
    constructor
    · intro m hm
      rcases List.mem_cons.mp (a6.subset hm) with hm | hm
      · rw [hm]
      · exact n1.1 m hm
    · rw [a3]; exact n1.2
  rw [h3]
  exact nothing_translated_emit st2 _ rfl n2

/-- Unfolding of a granted executable `user_mmap2` call that returned. -/
theorem user_mmap2_exec_ok (L : Layout) (K : Kernel) (st s : State)
    (addr length prot flags : Nat) (fd : Int) (pgoffset r : Nat)
    (h : user_mmap2 L K st addr length prot flags fd pgoffset = Outcome.ok (r, s))
    (hx : prot &&& PROT_EXEC ≠ 0) (hr : r &&& PG_MASK = 0) :
    ∃ st2 ino dev mt, st2.table = st.table ∧
      (nothing_translated st → nothing_translated st2) ∧
      add_code_region st2 r (PAGE_NEXT length) ino dev mt pgoffset = Outcome.ok s := by
  unfold user_mmap2 at h
  by_cases hceil : addr > L.USER_END ∨ (addr + length) % ULONG_SIZE > L.USER_END
  · rw [if_pos hceil] at h
    simp only [Outcome.ok.injEq, Prod.mk.injEq] at h
    rw [← h.1] at hr
    exact absurd hr (by decide)
  · rw [if_neg hceil] at h
    simp only at h
    by_cases hret : K.sys_mmap2 st.trace addr length (mmap_new_prot prot) flags fd pgoffset
        &&& PG_MASK = 0
    · rw [if_pos hret, if_pos hx] at h
      obtain ⟨h1, h2⟩ := then_return_eq_ok _ _ _ _ h
      subst h1
      refine ⟨_, _, _, _, ?_, ?_, h2⟩
      · split <;> simp
      · intro hn
        have n2 := nothing_translated_emit _
          (Event.sys_mmap2
            ((K.sys_mmap2 st.trace addr length (mmap_new_prot prot) flags fd pgoffset +
              L.TAINT_OFFSET) % ULONG_SIZE)
            length (mmap_new_prot prot) (MAP_PRIVATE ||| MAP_FIXED ||| MAP_ANONYMOUS) (-1) 0) rfl
          (nothing_translated_emit st
            (Event.sys_mmap2 addr length (mmap_new_prot prot) flags fd pgoffset) rfl hn)
        split
        · exact n2
        · exact nothing_translated_emit _ (Event.sys_fstat64 fd) rfl n2
    · rw [if_neg hret] at h
      simp only [Outcome.ok.injEq, Prod.mk.injEq] at h
      rw [← h.1] at hr
      exact absurd hr hret

/-- Unfolding of a granted `user_munmap` call that returned. -/
theorem user_munmap_ok (L : Layout) (K : Kernel) (st s : State) (addr length r : Nat)
    (h : user_munmap L K st addr length = Outcome.ok (r, s)) (hr : r &&& PG_MASK = 0) :
    ∃ st1, st1.table = st.table ∧ (nothing_translated st → nothing_translated st1) ∧
      del_code_region st1 addr (PAGE_NEXT length) = Outcome.ok s := by
  unfold user_munmap at h
  by_cases hceil : addr > L.USER_END ∨ (addr + length) % ULONG_SIZE > L.USER_END
  · rw [if_pos hceil] at h
    simp only [Outcome.ok.injEq, Prod.mk.injEq] at h
    rw [← h.1] at hr
    exact absurd hr (by decide)
  · rw [if_neg hceil] at h
    simp only at h
    by_cases hret : K.sys_munmap st.trace addr length &&& PG_MASK = 0
    · rw [if_pos hret] at h
      obtain ⟨-, h2⟩ := then_return_eq_ok _ _ _ _ h
      exact ⟨_, by simp, fun hn => nothing_translated_emit st (Event.sys_munmap addr length) rfl hn, h2⟩
    · rw [if_neg hret] at h
      simp only [Outcome.ok.injEq, Prod.mk.injEq] at h
      rw [← h.1] at hr
      exact absurd hr hret

/-- An entry of positive length inside a range that does not wrap is deleted whole. -/
theorem split_entry_covered (addr len : Nat) (m : code_map_t) (hwrap : addr + len < ULONG_SIZE)
    (h1 : addr ≤ m.addr) (h2 : m.addr + m.len ≤ addr + len) (hpos : 0 < m.len) :
    split_entry addr len m = [] := by
  have e1 : (addr + len) % ULONG_SIZE = addr + len := Nat.mod_eq_of_lt hwrap
  have e2 : (m.addr + m.len) % ULONG_SIZE = m.addr + m.len := Nat.mod_eq_of_lt (by omega)
  have hov : overlap addr len m.addr m.len = true := by
    rw [overlap_eq_true_iff, e1, e2]
    omega
  unfold split_entry residuals
  rw [if_pos hov, e1, e2, if_neg (by omega), if_neg (by omega)]
  rfl

theorem ok_of_ret (o : Outcome (Nat × State)) (r : Nat) (h : o.ret? = some r) :
    o = Outcome.ok (r, o.state_after) := by
  cases o with
  | diverge => simp [Outcome.ret?] at h
  | die t => simp [Outcome.ret?] at h
  | ok p =>
    simp only [Outcome.ret?, Option.some.injEq] at h
    subst h
    rfl

/-- C16 (spanning unmap scenario), amended for the purge.  Starting from the empty
table, after two granted executable `user_mmap2` calls that returned the adjacent
non-empty regions `[r1, r1 + PAGE_NEXT(l1))` and `[r2, r2 + PAGE_NEXT(l2))` with
`r2 = r1 + PAGE_NEXT(l1)`, and a granted `user_munmap` call that returned, for a range
`[a3, a3 + PAGE_NEXT(l3))` that does not wrap and covers both: the table held two
entries, neither owning translated code, and is empty afterwards
(`n_codemaps = 0`); and neither `jit_mem_free` nor `purge_caches` has been called, since
`del_code_map` calls them only for an entry whose `jit_addr` is not NULL. -/
theorem spanning_unmap (L : Layout) (K : Kernel)
    (a1 l1 p1 f1 : Nat) (fd1 : Int) (o1 r1 : Nat) (s1 : State)
    (a2 l2 p2 f2 : Nat) (fd2 : Int) (o2 r2 : Nat) (s2 : State)
    (a3 l3 r3 : Nat) (s3 : State)
    (h1 : user_mmap2 L K State.init a1 l1 p1 f1 fd1 o1 = Outcome.ok (r1, s1))
    (hx1 : p1 &&& PROT_EXEC ≠ 0) (hr1 : r1 &&& PG_MASK = 0)
    (h2 : user_mmap2 L K s1 a2 l2 p2 f2 fd2 o2 = Outcome.ok (r2, s2))
    (hx2 : p2 &&& PROT_EXEC ≠ 0) (hr2 : r2 &&& PG_MASK = 0)
    (hadj : r2 = r1 + PAGE_NEXT l1) (hpos1 : 0 < PAGE_NEXT l1) (hpos2 : 0 < PAGE_NEXT l2)
    (h3 : user_munmap L K s2 a3 l3 = Outcome.ok (r3, s3)) (hr3 : r3 &&& PG_MASK = 0)
    (hcov1 : a3 ≤ r1) (hcov2 : r2 + PAGE_NEXT l2 ≤ a3 + PAGE_NEXT l3)
    (hwrap : a3 + PAGE_NEXT l3 < ULONG_SIZE) :
    s2.n_codemaps = 2 ∧ (∀ m ∈ s2.table, m.jit_addr = 0) ∧ s3.n_codemaps = 0 ∧
    ∀ e ∈ s3.trace, e.is_clear = false := by
  have hinit : nothing_translated State.init :=
    ⟨fun m hm => by simp [State.table, State.init] at hm,
     fun e he => by simp [State.init] at he⟩
  have hinit_table : State.init.table = [] := rfl
  obtain ⟨t1, i1, d1, m1, e1, n1, c1⟩ := user_mmap2_exec_ok L K _ _ _ _ _ _ _ _ _ h1 hx1 hr1
  have q1 := add_code_region_table _ _ _ _ _ _ _ _ c1
  rw [e1, hinit_table] at q1
  simp only [List.flatMap_nil] at q1
  have hs1 := List.perm_singleton.mp q1
  have j1 := nothing_translated_add_code_region _ _ _ _ _ _ _ _ (n1 hinit) c1
  obtain ⟨t2, i2, d2, m2, e2, n2, c2⟩ := user_mmap2_exec_ok L K _ _ _ _ _ _ _ _ _ h2 hx2 hr2
  have q2 := add_code_region_table _ _ _ _ _ _ _ _ c2
  have hno : overlap r2 (PAGE_NEXT l2) r1 (PAGE_NEXT l1) = false := by
    rw [overlap_eq_false_iff]
    left
    rw [← hadj, Nat.mod_eq_of_lt (by omega)]
  rw [e2, hs1] at q2
  simp only [List.flatMap_cons, List.flatMap_nil, List.append_nil] at q2
  rw [split_entry_of_not_overlap _ _ _ hno] at q2
  have j2 := nothing_translated_add_code_region _ _ _ _ _ _ _ _ (n2 j1) c2
  obtain ⟨t3, e3, n3, c3⟩ := user_munmap_ok L K _ _ _ _ _ h3 hr3
  obtain ⟨q3, -⟩ := del_code_region_table _ _ _ _ c3
  have j3 := nothing_translated_del_code_region _ _ _ _ (n3 j2) c3
  have hflat : s2.table.flatMap (split_entry a3 (PAGE_NEXT l3)) = [] := by
    rw [List.flatMap_eq_nil_iff]
    intro m hm
    rcases List.mem_cons.mp (q2.subset hm) with hm | hm
    · rw [hm]
      exact split_entry_covered _ _ _ hwrap (by show a3 ≤ r2; omega) hcov2 hpos2
    · rw [List.mem_singleton.mp hm]
      exact split_entry_covered _ _ _ hwrap hcov1 (by show r1 + PAGE_NEXT l1 ≤ _; omega) hpos1
  rw [e3, hflat] at q3
  have hlen2 := q2.length_eq
  have hlen3 := q3.length_eq
  rw [length_table] at hlen2 hlen3
  exact ⟨by simpa using hlen2, j2.1, by simpa using hlen3, j3.2⟩

/-- Counterexample to C16 as stated: from the empty table, mapping `[0x10000, 0x11000)`
and `[0x11000, 0x12000)` executable and unmapping `[0x10000, 0x12000)`, all granted by
the kernel, leaves the table empty, but `purge_caches` has been called for neither
of the two ranges: both regions had `jit_addr = NULL`. -/
theorem spanning_unmap_counterexample :
    (user_mmap2 example_layout granting_kernel State.init 65536 4096 5 50 (-1) 0).ret? =
      some 65536 ∧
    (user_mmap2 example_layout granting_kernel mapped_once 69632 4096 5 50 (-1) 0).ret? =
      some 69632 ∧
    mapped_twice.table =
      [{ addr := 65536, len := 4096, jit_addr := 0, jit_len := 0,
         inode := 0, dev := 0, mtime := 0, pgoffset := 0 },
       { addr := 69632, len := 4096, jit_addr := 0, jit_len := 0,
         inode := 0, dev := 0, mtime := 0, pgoffset := 0 }] ∧
    (user_munmap example_layout granting_kernel mapped_twice 65536 8192).ret? = some 0 ∧
    unmapped_both.n_codemaps = 0 ∧
    Event.purge_caches 65536 4096 ∉ unmapped_both.trace ∧
    Event.purge_caches 69632 4096 ∉ unmapped_both.trace := by
  refine ⟨by decide, by decide, by decide, by decide, by decide, by decide, by decide⟩

/-- Witness for C16: the same three calls. -/
theorem spanning_unmap_witness :
    mapped_twice.n_codemaps = 2 ∧ (∀ m ∈ mapped_twice.table, m.jit_addr = 0) ∧
    unmapped_both.n_codemaps = 0 ∧ ∀ e ∈ unmapped_both.trace, e.is_clear = false :=
  spanning_unmap example_layout granting_kernel
    65536 4096 5 50 (-1) 0 65536 mapped_once
    69632 4096 5 50 (-1) 0 69632 mapped_twice
    65536 8192 0 unmapped_both
    (ok_of_ret _ _ (by decide)) (by decide) (by decide)
    (ok_of_ret _ _ (by decide)) (by decide) (by decide)
    (by decide) (by decide) (by decide)
    (ok_of_ret _ _ (by decide)) (by decide)
    (by decide) (by decide) (by decide)

end Minemu
